import Mathlib

/-!
Verification of the word-alignment engine of the WordieBirdie / ReadTogether
backend (`src/server/app.py`, functions `normalize_words` and `align_words`).

The engine normalizes the target passage and the transcript into token
sequences, aligns them with Python's `difflib.SequenceMatcher`
(constructed as `SequenceMatcher(a=t_words, b=r_words)`, hence with
`isjunk=None` and `autojunk=True`), labels each target token `ok` or
`misread` from the opcodes, and computes a percentage accuracy.

The shallow embedding below translates, in order:
  * `normalize_words` (app.py lines 111-114),
  * the parts of CPython's `difflib.SequenceMatcher` that the call exercises
    (`__chain_b`, `find_longest_match`, `get_matching_blocks`, `get_opcodes`),
  * `align_words` (app.py lines 117-138).

Python machine integers are modelled as `Nat` (all quantities here are
non-negative array indices, lengths and counts, and none can overflow in
Python).  The accuracy, a Python float, is modelled as an exact rational
with round-half-to-even at one decimal (`round(x, 1)`); the concrete
accuracy values reasoned about below (0.0, 100.0, and the 99.95 boundary)
are computed identically by IEEE doubles and by exact rationals.
-/

namespace WordieBirdie

/-! ## Text normalizer (app.py lines 111-114)

    def normalize_words(s: str):
        clean = re.sub(r"[^\w\s]", "", s.lower())
        return clean.split()

Character classes: `\w` (word character) is modelled as alphanumeric or
underscore and `\s` (whitespace) by `Char.isWhitespace`; `str.lower` by
`Char.toLower`.  These agree with Python on the ASCII range exercised by
every concrete input below. -/

/-- Model of `str.lower` applied character-wise. -/
def pyLowerChar (c : Char) : Char := c.toLower

/-- Model of the regex class `\w`: alphanumeric or underscore. -/
def pyIsWordChar (c : Char) : Bool := c.isAlphanum || c == '_'

/-- Model of the regex class `\s`. -/
def pyIsSpace (c : Char) : Bool := c.isWhitespace

/-- A character survives `re.sub(r"[^\w\s]", "", ...)` iff it is a word
character or whitespace. -/
def keepChar (c : Char) : Bool := pyIsWordChar c || pyIsSpace c

/-- Model of Python's `str.split()` (no separator argument): split on runs
of whitespace, never producing empty fragments.  `acc` holds the current
in-progress word, reversed. -/
def pySplitAux : List Char → List Char → List (List Char)
  | [], acc => if acc.isEmpty then [] else [acc.reverse]
  | c :: cs, acc =>
    if pyIsSpace c then
      if acc.isEmpty then pySplitAux cs [] else acc.reverse :: pySplitAux cs []
    else
      pySplitAux cs (c :: acc)

/-- Model of `clean.split()`. -/
def pySplit (l : List Char) : List (List Char) := pySplitAux l []

/-- Embedding of `normalize_words` (app.py lines 111-114): lowercase,
delete every character that is neither a word character nor whitespace,
split on whitespace runs. -/
def normalize_words (s : String) : List String :=
  (pySplit ((s.data.map pyLowerChar).filter keepChar)).map String.mk

/-! ## difflib.SequenceMatcher embedding

The embedding is generic over the token type `α` (the program instantiates
it with `String`); `nthTok l i` models the Python subscript `l[i]` at the
in-range indices the algorithm uses. -/

/-- Python subscript `l[i]` (all uses below are at provably valid indices;
see the checked variant `alignWordsChecked` which models the subscripts
with `List.get?`). -/
def nthTok {α : Type} [Inhabited α] (l : List α) (i : ℕ) : α := l.getD i default

/-- One step of building the `b2j` dict in `SequenceMatcher.__chain_b`:
`b2j.setdefault(elt, []).append(i)`, on an association-list model of the
dict. -/
def upsertIdx {α : Type} [DecidableEq α] (key : α) (idx : ℕ) :
    List (α × List ℕ) → List (α × List ℕ)
  | [] => [(key, [idx])]
  | (k, v) :: rest =>
    if k = key then (k, v ++ [idx]) :: rest else (k, v) :: upsertIdx key idx rest

/-- The `b2j` dict before the junk/popular purge: for each element of `b`,
the ascending list of indices at which it occurs. -/
def b2jRaw {α : Type} [DecidableEq α] (b : List α) : List (α × List ℕ) :=
  b.enum.foldl (fun d p => upsertIdx p.2 p.1 d) []

/-- Dict lookup `b2j.get(x, [])`. -/
def assocGet {α : Type} [DecidableEq α] : List (α × List ℕ) → α → List ℕ
  | [], _ => []
  | (k, v) :: rest, x => if k = x then v else assocGet rest x

/-- Embedding of `SequenceMatcher.__chain_b` for `isjunk=None`,
`autojunk=True` (the call in `align_words` passes neither argument):
build the occurrence dict, then — only when `len(b) >= 200` — delete the
"popular" entries whose occurrence count exceeds `len(b) // 100 + 1`.
With `isjunk=None` the junk set `bjunk` is always empty. -/
def chainB {α : Type} [DecidableEq α] (b : List α) : List (α × List ℕ) :=
  let raw := b2jRaw b
  if 200 ≤ b.length then
    raw.filter (fun p => decide (p.2.length ≤ b.length / 100 + 1))
  else raw

/-- The running best match `(besti, bestj, bestsize)` of
`find_longest_match`. -/
structure FBest where
  i : ℕ
  j : ℕ
  size : ℕ
deriving DecidableEq, Repr

/-- Inner loop of `find_longest_match` over `b2j.get(a[i], [])`:

        for j in b2j.get(a[i], nothing):
            if j < blo: continue
            if j >= bhi: break
            k = newj2len[j] = j2lenget(j-1, 0) + 1
            if k > bestsize:
                besti, bestj, bestsize = i-k+1, j-k+1, k

`old` is the previous row's `j2len` dict (as a total function defaulting
to 0, matching `j2len.get(j-1, 0)`; the guard `j = 0` models the lookup at
Python index `-1`, which is never a key) and `nw` the row being built.
The `i-k+1`/`j-k+1` are written `i+1-k`/`j+1-k`: the algorithm maintains
`k ≤ i+1` and `k ≤ j+1`, so truncated subtraction agrees with Python. -/
def fInner (blo bhi i : ℕ) : List ℕ → (ℕ → ℕ) → (ℕ → ℕ) → FBest → ((ℕ → ℕ) × FBest)
  | [], _, nw, best => (nw, best)
  | j :: js, old, nw, best =>
    if j < blo then fInner blo bhi i js old nw best
    else if bhi ≤ j then (nw, best)
    else
      let k := (if j = 0 then 0 else old (j - 1)) + 1
      let nw' := fun j' => if j' = j then k else nw j'
      let best' := if best.size < k then FBest.mk (i + 1 - k) (j + 1 - k) k else best
      fInner blo bhi i js old nw' best'

/-- Outer loop of `find_longest_match` over `i in range(alo, ahi)`; each
iteration starts a fresh `newj2len = {}` and installs it afterwards. -/
def fOuter {α : Type} [DecidableEq α] [Inhabited α] (a : List α)
    (d : List (α × List ℕ)) (blo bhi : ℕ) :
    List ℕ → (ℕ → ℕ) → FBest → FBest
  | [], _, best => best
  | i :: is, j2len, best =>
    let r := fInner blo bhi i (assocGet d (nthTok a i)) j2len (fun _ => 0) best
    fOuter a d blo bhi is r.1 r.2

/-- First extension loop of `find_longest_match` (with `isjunk=None` the
set `bjunk` is empty, so `not isbjunk(...)` is always true and the two
junk-absorbing loops never run):

        while besti > alo and bestj > blo and a[besti-1] == b[bestj-1]:
            besti, bestj, bestsize = besti-1, bestj-1, bestsize+1

The loop is written with an explicit iteration budget so that the
recursion is structural (and hence computes inside the kernel): every
iteration decrements `besti` by one, so the initial `best.i` passed by
`extendBack` can never run out (`extendBackLoop_fuel` below). -/
def extendBackLoop {α : Type} [DecidableEq α] [Inhabited α] (a b : List α)
    (alo blo : ℕ) : ℕ → FBest → FBest
  | 0, best => best
  | fuel + 1, best =>
    if alo < best.i ∧ blo < best.j ∧ nthTok a (best.i - 1) = nthTok b (best.j - 1) then
      extendBackLoop a b alo blo fuel ⟨best.i - 1, best.j - 1, best.size + 1⟩
    else best

/-- The first extension loop at its sufficient budget. -/
def extendBack {α : Type} [DecidableEq α] [Inhabited α] (a b : List α)
    (alo blo : ℕ) (best : FBest) : FBest :=
  extendBackLoop a b alo blo best.i best

/-- Second extension loop of `find_longest_match`:

        while besti+bestsize < ahi and bestj+bestsize < bhi and
              a[besti+bestsize] == b[bestj+bestsize]:
            bestsize = bestsize + 1

again with a structural iteration budget: every iteration shrinks
`ahi - (besti + bestsize)` by one, so the initial budget passed by
`extendFwd` can never run out (`extendFwdLoop_fuel` below). -/
def extendFwdLoop {α : Type} [DecidableEq α] [Inhabited α] (a b : List α)
    (ahi bhi : ℕ) : ℕ → FBest → FBest
  | 0, best => best
  | fuel + 1, best =>
    if best.i + best.size < ahi ∧ best.j + best.size < bhi ∧
        nthTok a (best.i + best.size) = nthTok b (best.j + best.size) then
      extendFwdLoop a b ahi bhi fuel ⟨best.i, best.j, best.size + 1⟩
    else best

/-- The second extension loop at its sufficient budget. -/
def extendFwd {α : Type} [DecidableEq α] [Inhabited α] (a b : List α)
    (ahi bhi : ℕ) (best : FBest) : FBest :=
  extendFwdLoop a b ahi bhi (ahi - (best.i + best.size)) best

/-- Embedding of `SequenceMatcher.find_longest_match(alo, ahi, blo, bhi)`
(with empty junk set): dynamic-programming scan, then the two extension
loops. -/
def findLongestMatch {α : Type} [DecidableEq α] [Inhabited α] (a b : List α)
    (d : List (α × List ℕ)) (alo ahi blo bhi : ℕ) : FBest :=
  extendFwd a b ahi bhi (extendBack a b alo blo
    (fOuter a d blo bhi (List.range' alo (ahi - alo)) (fun _ => 0) ⟨alo, blo, 0⟩))

/-- A matching block `(i, j, size)`. -/
structure Block where
  bi : ℕ
  bj : ℕ
  size : ℕ
deriving DecidableEq, Repr

/-- The recursive block search of `get_matching_blocks`.  CPython drives
it with an explicit LIFO queue and sorts the collected triples afterwards;
since every block found in a window lies inside that window and the two
sub-windows are disjoint and ordered, the sorted queue output equals this
in-order recursion.  `fuel` is an explicit recursion budget;
`mbRecChecked_eq` below shows any budget larger than the window perimeter
(in particular the `a.length + b.length + 1` used in `getMatchingBlocks`)
never runs out: the checked variant, which fails on exhaustion, returns
exactly this value — matching the terminating Python loop. -/
def mbRecFuel {α : Type} [DecidableEq α] [Inhabited α] (a b : List α)
    (d : List (α × List ℕ)) : ℕ → ℕ → ℕ → ℕ → ℕ → List Block
  | 0, _, _, _, _ => []
  | fuel + 1, alo, ahi, blo, bhi =>
    let m := findLongestMatch a b d alo ahi blo bhi
    if m.size = 0 then []
    else
      mbRecFuel a b d fuel alo m.i blo m.j
        ++ Block.mk m.i m.j m.size
          :: mbRecFuel a b d fuel (m.i + m.size) ahi (m.j + m.size) bhi

/-- The adjacent-block collapsing loop at the end of `get_matching_blocks`
(accumulator `(i1, j1, k1)` starts at `(0, 0, 0)`):

        for i2, j2, k2 in matching_blocks:
            if i1 + k1 == i2 and j1 + k1 == j2:
                k1 += k2
            else:
                if k1: non_adjacent.append((i1, j1, k1))
                i1, j1, k1 = i2, j2, k2
        if k1: non_adjacent.append((i1, j1, k1))
-/
def collapseLoop : List Block → ℕ → ℕ → ℕ → List Block
  | [], i1, j1, k1 => if k1 = 0 then [] else [Block.mk i1 j1 k1]
  | bl :: rest, i1, j1, k1 =>
    if i1 + k1 = bl.bi ∧ j1 + k1 = bl.bj then
      collapseLoop rest i1 j1 (k1 + bl.size)
    else
      (if k1 = 0 then [] else [Block.mk i1 j1 k1]) ++ collapseLoop rest bl.bi bl.bj bl.size

/-- Embedding of `SequenceMatcher.get_matching_blocks()`: recursive block
search, collapse of adjacent blocks, and the terminating sentinel
`(len(a), len(b), 0)`. -/
def getMatchingBlocks {α : Type} [DecidableEq α] [Inhabited α] (a b : List α) : List Block :=
  collapseLoop
      (mbRecFuel a b (chainB b) (a.length + b.length + 1) 0 a.length 0 b.length) 0 0 0
    ++ [Block.mk a.length b.length 0]

/-- The four opcode tags. -/
inductive Tag where
  | equal
  | replace
  | delete
  | insert
deriving DecidableEq, Repr

/-- An opcode `(tag, i1, i2, j1, j2)`. -/
structure Opcode where
  tag : Tag
  i1 : ℕ
  i2 : ℕ
  j1 : ℕ
  j2 : ℕ
deriving DecidableEq, Repr

/-- The loop body of `SequenceMatcher.get_opcodes()`, cursor `(i, j)`:

        for ai, bj, size in self.get_matching_blocks():
            tag = ''
            if i < ai and j < bj: tag = 'replace'
            elif i < ai: tag = 'delete'
            elif j < bj: tag = 'insert'
            if tag: answer.append((tag, i, ai, j, bj))
            i, j = ai+size, bj+size
            if size: answer.append(('equal', ai, i, bj, j))
-/
def opcodesLoop : List Block → ℕ → ℕ → List Opcode
  | [], _, _ => []
  | bl :: rest, i, j =>
    (if i < bl.bi ∧ j < bl.bj then [Opcode.mk Tag.replace i bl.bi j bl.bj]
     else if i < bl.bi then [Opcode.mk Tag.delete i bl.bi j bl.bj]
     else if j < bl.bj then [Opcode.mk Tag.insert i bl.bi j bl.bj]
     else [])
    ++ (if bl.size = 0 then [] else
          [Opcode.mk Tag.equal bl.bi (bl.bi + bl.size) bl.bj (bl.bj + bl.size)])
    ++ opcodesLoop rest (bl.bi + bl.size) (bl.bj + bl.size)

/-- Embedding of `SequenceMatcher(a=t_words, b=r_words).get_opcodes()`. -/
def getOpcodes {α : Type} [DecidableEq α] [Inhabited α] (a b : List α) : List Opcode :=
  opcodesLoop (getMatchingBlocks a b) 0 0

/-! ## align_words (app.py lines 117-138) -/

/-- The per-word status in the report. -/
inductive Status where
  | ok
  | misread
deriving DecidableEq, Repr

/-- One entry of `result`: `{"word": w, "status": ...}`. -/
structure WordRes (α : Type) where
  word : α
  status : Status
deriving DecidableEq, Repr

/-- The value returned by `align_words`:
`{"words": result, "accuracy": acc}`. -/
structure Report (α : Type) where
  words : List (WordRes α)
  accuracy : ℚ
deriving DecidableEq, Repr

/-- Round half to even to the nearest integer — the rounding mode of
Python's builtin `round`. -/
def roundHalfEven (q : ℚ) : ℤ :=
  let n := ⌊q⌋
  if q - n < 1/2 then n
  else if (1 : ℚ)/2 < q - n then n + 1
  else if Even n then n else n + 1

/-- Model of Python's `round(x, 1)` on an exact rational. -/
def pyRound1 (q : ℚ) : ℚ := (roundHalfEven (10 * q) : ℚ) / 10

/-- Python slice `l[i1:i2]` (total: out-of-range bounds clamp). -/
def pySlice {α : Type} (l : List α) (i1 i2 : ℕ) : List α :=
  (l.drop i1).take (i2 - i1)

/-- The word list built from the opcodes by `align_words`: `ok` entries
for the target side of `equal` opcodes, `misread` entries for the target
side of every other opcode (`insert` opcodes have an empty target side and
contribute nothing). -/
def wordResults {α : Type} (t : List α) (ops : List Opcode) : List (WordRes α) :=
  ops.flatMap (fun op =>
    (pySlice t op.i1 op.i2).map (fun w =>
      WordRes.mk w (if op.tag = Tag.equal then Status.ok else Status.misread)))

/-- `correct = sum(1 for w in result if w["status"] == "ok")`. -/
def okCount {α : Type} (ws : List (WordRes α)) : ℕ :=
  ws.countP (fun w => decide (w.status = Status.ok))

/-- `align_words` after normalization: build the report from the opcodes
and the token sequences.
`acc = round(100.0 * correct / max(1, len(result)), 1)`. -/
def alignSeq {α : Type} [DecidableEq α] [Inhabited α] (t r : List α) : Report α :=
  let results := wordResults t (getOpcodes t r)
  Report.mk results
    (pyRound1 ((100 * (okCount results : ℚ)) / ((max 1 results.length : ℕ) : ℚ)))

/-- Embedding of `align_words(target_text, transcript_text)`
(app.py lines 117-138). -/
def align_words (target_text transcript_text : String) : Report String :=
  alignSeq (normalize_words target_text) (normalize_words transcript_text)

/-! ## Spec-side reference definitions

These definitions follow the words of spec.md (§4.1 step "splits on runs
of whitespace, discarding empty fragments", and §4.2 steps 1-2, the
recursive longest-block search with its tie-break), to be compared with
the embeddings above. -/

/-- Modelled from the spec: "splits on runs of whitespace, discarding
empty fragments" — skip the whitespace run, take the maximal
non-whitespace run as the next token, recurse on the rest. -/
def specSplitFuel : ℕ → List Char → List (List Char)
  | 0, _ => []
  | fuel + 1, l =>
    match l.dropWhile pyIsSpace with
    | [] => []
    | c :: cs =>
      (c :: cs.takeWhile (fun x => !pyIsSpace x))
        :: specSplitFuel fuel (cs.dropWhile (fun x => !pyIsSpace x))

/-- `specSplitFuel` at its sufficient budget: every round consumes at
least one character, so `l.length` rounds always suffice. -/
def specSplit (l : List Char) : List (List Char) := specSplitFuel l.length l

/-- The normalizer as the spec words it: lowercase the string, remove
every character that is neither a word character nor whitespace, split on
runs of whitespace discarding empty fragments. -/
def specNormalize (s : String) : List String :=
  (specSplit ((s.data.map pyLowerChar).filter keepChar)).map String.mk

/-- One update of a longest-run scan: strict improvement replaces the
running best, so ties keep the earlier candidate. -/
def scanUpd (mk : ℕ → ℕ → ℕ → FBest) (best : FBest) (c : ℕ × ℕ × ℕ) : FBest :=
  if best.size < c.2.2 then mk c.1 c.2.1 c.2.2 else best

/-- Fold a candidate list through `scanUpd`. -/
def scanB (mk : ℕ → ℕ → ℕ → FBest) (cs : List (ℕ × ℕ × ℕ)) (b0 : FBest) : FBest :=
  cs.foldl (scanUpd mk) b0

/-- The same scan with a strict accumulator (the running best is forced to
constructor form at every step), so that the kernel can run it on long
candidate lists without building a deep nest of deferred updates.
`scanGo_eq` below proves it equal to `scanB`. -/
def scanGo : List (ℕ × ℕ × ℕ) → FBest → FBest
  | [], best => best
  | c :: cs, best =>
    match scanUpd (fun i j k => ⟨i, j, k⟩) best c with
    | FBest.mk i j k => scanGo cs (FBest.mk i j k)

/-- Length of the contiguous matching run of `a` and `b` starting at
`(i, j)`, clipped to the window ends `ahi`, `bhi`. -/
def runLenFuel {α : Type} [DecidableEq α] [Inhabited α] (a b : List α)
    (ahi bhi : ℕ) : ℕ → ℕ → ℕ → ℕ
  | 0, _, _ => 0
  | fuel + 1, i, j =>
    if i < ahi ∧ j < bhi ∧ nthTok a i = nthTok b j then
      runLenFuel a b ahi bhi fuel (i + 1) (j + 1) + 1
    else 0

/-- `runLenFuel` at its sufficient budget `ahi - i` (each matched token
advances `i` by one towards `ahi`). -/
def runLen {α : Type} [DecidableEq α] [Inhabited α] (a b : List α)
    (ahi bhi : ℕ) (i j : ℕ) : ℕ :=
  runLenFuel a b ahi bhi (ahi - i) i j

/-- Modelled from the spec (§4.2 step 1): "find the longest contiguous run
of tokens that is exactly equal (by value) in both sequences and is the
longest such run overall; among runs of equal maximal length, prefer the
one with the lowest starting index in `T`, then lowest starting index in
`R`".  Starting pairs `(i, j)` are scanned in lexicographic order and the
first strict improvement is kept, which is exactly that tie-break. -/
def specFind {α : Type} [DecidableEq α] [Inhabited α] (a b : List α)
    (alo ahi blo bhi : ℕ) : FBest :=
  scanGo
    ((List.range' alo (ahi - alo)).flatMap (fun i =>
      (List.range' blo (bhi - blo)).map (fun j => (i, j, runLen a b ahi bhi i j))))
    ⟨alo, blo, 0⟩

/-- Modelled from the spec (§4.2 step 1): "Recurse independently on the
regions strictly before and strictly after each chosen block, until no
block of length ≥ 1 remains in a region."  Same recursion budget as
`mbRecFuel`. -/
def specBlocksFuel {α : Type} [DecidableEq α] [Inhabited α] (a b : List α) :
    ℕ → ℕ → ℕ → ℕ → ℕ → List Block
  | 0, _, _, _, _ => []
  | fuel + 1, alo, ahi, blo, bhi =>
    let m := specFind a b alo ahi blo bhi
    if m.size = 0 then []
    else
      specBlocksFuel a b fuel alo m.i blo m.j
        ++ Block.mk m.i m.j m.size
          :: specBlocksFuel a b fuel (m.i + m.size) ahi (m.j + m.size) bhi

/-- Modelled from the spec (§4.2 step 2): the block decomposition, closed
by the empty sentinel block, tagged into opcodes by which of the two gap
ranges are non-empty — the same tagging loop as the implementation. -/
def specOpcodes {α : Type} [DecidableEq α] [Inhabited α] (a b : List α) : List Opcode :=
  opcodesLoop
    (specBlocksFuel a b (a.length + b.length + 1) 0 a.length 0 b.length
      ++ [Block.mk a.length b.length 0]) 0 0

/-! ## Checked variant of the aligner

Every Python subscript is modelled with `List.get?` and the final division
is guarded, so `alignWordsChecked` returns `none` exactly where the Python
code could raise; claim C9 proves it returns `some` on every input. -/

/-- Checked outer loop: the subscript `a[i]` in `b2j.get(a[i], nothing)`
is performed with `List.get?`. -/
def fOuterChecked {α : Type} [DecidableEq α] (a : List α)
    (d : List (α × List ℕ)) (blo bhi : ℕ) :
    List ℕ → (ℕ → ℕ) → FBest → Option FBest
  | [], _, best => some best
  | i :: is, j2len, best =>
    match a.get? i with
    | none => none
    | some x =>
      let r := fInner blo bhi i (assocGet d x) j2len (fun _ => 0) best
      fOuterChecked a d blo bhi is r.1 r.2

/-- Checked first extension loop: the subscripts `a[besti-1]` and
`b[bestj-1]` are performed with `List.get?`. -/
def extendBackChecked {α : Type} [DecidableEq α] (a b : List α)
    (alo blo : ℕ) (best : FBest) : Option FBest :=
  if h : alo < best.i ∧ blo < best.j then
    match a.get? (best.i - 1), b.get? (best.j - 1) with
    | some x, some y =>
      if x = y then extendBackChecked a b alo blo ⟨best.i - 1, best.j - 1, best.size + 1⟩
      else some best
    | _, _ => none
  else some best
termination_by best.i
decreasing_by show best.i - 1 < best.i; omega

/-- Checked second extension loop. -/
def extendFwdChecked {α : Type} [DecidableEq α] (a b : List α)
    (ahi bhi : ℕ) (best : FBest) : Option FBest :=
  if h : best.i + best.size < ahi ∧ best.j + best.size < bhi then
    match a.get? (best.i + best.size), b.get? (best.j + best.size) with
    | some x, some y =>
      if x = y then extendFwdChecked a b ahi bhi ⟨best.i, best.j, best.size + 1⟩
      else some best
    | _, _ => none
  else some best
termination_by ahi - (best.i + best.size)
decreasing_by show ahi - (best.i + (best.size + 1)) < ahi - (best.i + best.size); omega

/-- Checked `find_longest_match`. -/
def findLongestMatchChecked {α : Type} [DecidableEq α] (a b : List α)
    (d : List (α × List ℕ)) (alo ahi blo bhi : ℕ) : Option FBest := do
  let core ← fOuterChecked a d blo bhi (List.range' alo (ahi - alo)) (fun _ => 0) ⟨alo, blo, 0⟩
  let back ← extendBackChecked a b alo blo core
  extendFwdChecked a b ahi bhi back

/-- Checked recursive block search. -/
def mbRecChecked {α : Type} [DecidableEq α] (a b : List α)
    (d : List (α × List ℕ)) : ℕ → ℕ → ℕ → ℕ → ℕ → Option (List Block)
  | 0, _, _, _, _ => none
  | fuel + 1, alo, ahi, blo, bhi => do
    let m ← findLongestMatchChecked a b d alo ahi blo bhi
    if m.size = 0 then pure []
    else do
      let left ← mbRecChecked a b d fuel alo m.i blo m.j
      let right ← mbRecChecked a b d fuel (m.i + m.size) ahi (m.j + m.size) bhi
      pure (left ++ Block.mk m.i m.j m.size :: right)

/-- Checked `align_words`: subscripts via `List.get?`, recursion budget
explicit, division guarded. -/
def alignWordsChecked (target_text transcript_text : String) : Option (Report String) := do
  let t := normalize_words target_text
  let r := normalize_words transcript_text
  let blocks ← mbRecChecked t r (chainB r) (t.length + r.length + 1) 0 t.length 0 r.length
  let results := wordResults t
    (opcodesLoop (collapseLoop blocks 0 0 0 ++ [Block.mk t.length r.length 0]) 0 0)
  let den := max 1 results.length
  if den = 0 then none
  else some (Report.mk results (pyRound1 ((100 * (okCount results : ℚ)) / ((den : ℕ) : ℚ))))

/-! ## Proof-infrastructure definitions -/

/-- Invariant of a `j2len` row: every non-zero entry sits at a column of
`[blo, bhi)` and is bounded by the distances to the window edges (`p` is
the bound coming from the row index). -/
def J2OK (blo bhi p : ℕ) (f : ℕ → ℕ) : Prop :=
  ∀ j, f j = 0 ∨ (blo ≤ j ∧ j < bhi ∧ f j ≤ j + 1 - blo ∧ f j ≤ p)

/-- Invariant of the running best of `find_longest_match`: either still
the initial `(alo, blo, 0)`, or a non-empty interval pair inside the
window. -/
def BestOK (alo ahi blo bhi : ℕ) (best : FBest) : Prop :=
  (best.i = alo ∧ best.j = blo ∧ best.size = 0) ∨
  (1 ≤ best.size ∧ alo ≤ best.i ∧ blo ≤ best.j ∧
    best.i + best.size ≤ ahi ∧ best.j + best.size ≤ bhi)

/-- A block list is chained from cursor `(i, j)` up to `(hi, hj)`: blocks
appear in order, never overlap, and stay inside the bounds. -/
def ChainOK : ℕ → ℕ → List Block → ℕ → ℕ → Prop
  | i, j, [], hi, hj => i ≤ hi ∧ j ≤ hj
  | i, j, bl :: rest, hi, hj =>
    i ≤ bl.bi ∧ j ≤ bl.bj ∧ ChainOK (bl.bi + bl.size) (bl.bj + bl.size) rest hi hj

/-- The target-side cursor after consuming a block list. -/
def lastCursorA : ℕ → List Block → ℕ
  | i, [] => i
  | _, bl :: rest => lastCursorA (bl.bi + bl.size) rest

/-- Semantics of the `j2len` rows of `find_longest_match`: `sfun i j` is
the length of the matching suffix run ending at `(i, j)` that the scan
registers — consecutive positions pairing `a[i-t]` with `b[j-t]` through
the `b2j` dict `d`, clipped to start no earlier than column `alo` / row
`blo` and to stay below `bhi`. -/
def sfun {α : Type} [DecidableEq α] [Inhabited α] (a : List α)
    (d : List (α × List ℕ)) (alo blo bhi : ℕ) (i j : ℕ) : ℕ :=
  if alo ≤ i ∧ blo ≤ j ∧ j < bhi ∧ j ∈ assocGet d (nthTok a i) then
    if h : alo < i ∧ blo < j then sfun a d alo blo bhi (i - 1) (j - 1) + 1
    else 1
  else 0
termination_by i
decreasing_by show i - 1 < i; omega

/-- Maximum candidate value of a scan list. -/
def maxVal : List (ℕ × ℕ × ℕ) → ℕ
  | [] => 0
  | c :: cs => max c.2.2 (maxVal cs)

/-- Strict lexicographic order on candidate positions. -/
def CandLT (c c' : ℕ × ℕ × ℕ) : Prop :=
  c.1 < c'.1 ∨ (c.1 = c'.1 ∧ c.2.1 < c'.2.1)

/-- The candidate stream processed by the difflib core scan: row by row,
the surviving columns of `b2j.get(a[i])` with their `j2len` values. -/
def candsD {α : Type} [DecidableEq α] [Inhabited α] (a : List α)
    (d : List (α × List ℕ)) (alo ahi blo bhi : ℕ) : List (ℕ × ℕ × ℕ) :=
  (List.range' alo (ahi - alo)).flatMap (fun i =>
    (((assocGet d (nthTok a i)).takeWhile (fun j => decide (j < bhi))).filter
      (fun j => decide (blo ≤ j))).map (fun j => (i, j, sfun a d alo blo bhi i j)))

/-- The candidate stream scanned by the spec search. -/
def candsS {α : Type} [DecidableEq α] [Inhabited α] (a b : List α)
    (alo ahi blo bhi : ℕ) : List (ℕ × ℕ × ℕ) :=
  (List.range' alo (ahi - alo)).flatMap (fun i =>
    (List.range' blo (bhi - blo)).map (fun j => (i, j, runLen a b ahi bhi i j)))

/-- Best-constructor of the difflib scan (`i`, `j` are run ends). -/
def mkEnd : ℕ → ℕ → ℕ → FBest := fun i j k => ⟨i + 1 - k, j + 1 - k, k⟩

/-- Best-constructor of the spec scan (`i`, `j` are run starts). -/
def mkStart : ℕ → ℕ → ℕ → FBest := fun i j k => ⟨i, j, k⟩

/-- A contiguous matching run of length `k` starting at `(i, j)`, inside
the window. -/
def IsRun {α : Type} [Inhabited α] (a b : List α) (alo ahi blo bhi i j k : ℕ) : Prop :=
  alo ≤ i ∧ i + k ≤ ahi ∧ blo ≤ j ∧ j + k ≤ bhi ∧
    ∀ t, t < k → nthTok a (i + t) = nthTok b (j + t)

/-! # Theorems

## Constructor projections (used to expose arithmetic to `omega`) -/

theorem block_bi (x y z : ℕ) : (Block.mk x y z).bi = x := rfl

theorem block_bj (x y z : ℕ) : (Block.mk x y z).bj = y := rfl

theorem block_size (x y z : ℕ) : (Block.mk x y z).size = z := rfl

theorem fbest_i (x y z : ℕ) : (FBest.mk x y z).i = x := rfl

theorem fbest_j (x y z : ℕ) : (FBest.mk x y z).j = y := rfl

theorem fbest_size (x y z : ℕ) : (FBest.mk x y z).size = z := rfl

theorem opcode_tag (tg : Tag) (i1 i2 j1 j2 : ℕ) :
    (Opcode.mk tg i1 i2 j1 j2).tag = tg := rfl

theorem opcode_i1 (tg : Tag) (i1 i2 j1 j2 : ℕ) :
    (Opcode.mk tg i1 i2 j1 j2).i1 = i1 := rfl

theorem opcode_i2 (tg : Tag) (i1 i2 j1 j2 : ℕ) :
    (Opcode.mk tg i1 i2 j1 j2).i2 = i2 := rfl

/-! ## Window bounds of `find_longest_match` -/

theorem fInner_bounds (alo ahi blo bhi i : ℕ) (hai : alo ≤ i) (hia : i < ahi)
    (js : List ℕ) :
    ∀ (old nw : ℕ → ℕ) (best : FBest),
      J2OK blo bhi (i - alo) old → J2OK blo bhi (i + 1 - alo) nw →
      BestOK alo ahi blo bhi best →
      J2OK blo bhi (i + 1 - alo) (fInner blo bhi i js old nw best).1 ∧
        BestOK alo ahi blo bhi (fInner blo bhi i js old nw best).2 := by
  induction js with
  | nil => intro old nw best hold hnw hbest; exact ⟨hnw, hbest⟩
  | cons j js ih =>
    intro old nw best hold hnw hbest
    rw [fInner]
    by_cases h1 : j < blo
    · simp only [if_pos h1]
      exact ih old nw best hold hnw hbest
    · simp only [if_neg h1]
      by_cases h2 : bhi ≤ j
      · simp only [if_pos h2]
        exact ⟨hnw, hbest⟩
      · simp only [if_neg h2]
        have hjb : blo ≤ j := by omega
        have hjh : j < bhi := by omega
        generalize hgen : (if j = 0 then 0 else old (j - 1)) = f
        have hk1 : f + 1 + blo ≤ j + 1 := by
          by_cases hj0 : j = 0
          · rw [if_pos hj0] at hgen
            omega
          · rw [if_neg hj0] at hgen
            rcases hold (j - 1) with hz | ⟨hb1, hb2, hb3, hb4⟩
            · omega
            · omega
        have hk2 : f + 1 + alo ≤ i + 1 := by
          by_cases hj0 : j = 0
          · rw [if_pos hj0] at hgen
            omega
          · rw [if_neg hj0] at hgen
            rcases hold (j - 1) with hz | ⟨hb1, hb2, hb3, hb4⟩
            · omega
            · omega
        refine ih old _ _ hold ?_ ?_
        · intro j'
          beta_reduce
          by_cases hj' : j' = j
          · rw [hj', if_pos rfl]
            right
            exact ⟨hjb, hjh, by omega, by omega⟩
          · rw [if_neg hj']
            exact hnw j'
        · by_cases hup : best.size < f + 1
          · rw [if_pos hup]
            right
            refine ⟨?_, ?_, ?_, ?_, ?_⟩
            · show 1 ≤ f + 1
              omega
            · show alo ≤ i + 1 - (f + 1)
              omega
            · show blo ≤ j + 1 - (f + 1)
              omega
            · show i + 1 - (f + 1) + (f + 1) ≤ ahi
              omega
            · show j + 1 - (f + 1) + (f + 1) ≤ bhi
              omega
          · rw [if_neg hup]
            exact hbest

theorem fOuter_bounds {α : Type} [DecidableEq α] [Inhabited α] (a : List α)
    (d : List (α × List ℕ)) (alo ahi blo bhi : ℕ) (cnt : ℕ) :
    ∀ (i0 : ℕ) (j2len : ℕ → ℕ) (best : FBest),
      alo ≤ i0 → i0 + cnt ≤ ahi → J2OK blo bhi (i0 - alo) j2len →
      BestOK alo ahi blo bhi best →
      BestOK alo ahi blo bhi (fOuter a d blo bhi (List.range' i0 cnt) j2len best) := by
  induction cnt with
  | zero => intro i0 j2len best _ _ _ hbest; exact hbest
  | succ cnt ih =>
    intro i0 j2len best h1 h2 hj hbest
    rw [List.range'_succ, fOuter]
    have hib : i0 < ahi := by omega
    have step := fInner_bounds alo ahi blo bhi i0 h1 hib
      (assocGet d (nthTok a i0)) j2len (fun _ => 0) best hj (fun j => Or.inl rfl) hbest
    have hstep : i0 + 1 - alo = (i0 + 1) - alo := rfl
    exact ih (i0 + 1) _ _ (by omega) (by omega) (hstep ▸ step.1) step.2

theorem extendBackLoop_bounds {α : Type} [DecidableEq α] [Inhabited α] (a b : List α)
    (alo ahi blo bhi : ℕ) : ∀ (fuel : ℕ) (best : FBest),
    BestOK alo ahi blo bhi best →
    BestOK alo ahi blo bhi (extendBackLoop a b alo blo fuel best) := by
  intro fuel
  induction fuel with
  | zero => intro best hbest; exact hbest
  | succ fuel ih =>
    intro best hbest
    rw [extendBackLoop]
    split
    · next h =>
      obtain ⟨hh1, hh2, _⟩ := h
      refine ih ⟨best.i - 1, best.j - 1, best.size + 1⟩ ?_
      rcases hbest with ⟨e1, e2, e3⟩ | ⟨e1, e2, e3, e4, e5⟩
      · exact absurd hh1 (by omega)
      · right
        refine ⟨?_, ?_, ?_, ?_, ?_⟩
        · show 1 ≤ best.size + 1
          omega
        · show alo ≤ best.i - 1
          omega
        · show blo ≤ best.j - 1
          omega
        · show best.i - 1 + (best.size + 1) ≤ ahi
          omega
        · show best.j - 1 + (best.size + 1) ≤ bhi
          omega
    · exact hbest

theorem extendBack_bounds {α : Type} [DecidableEq α] [Inhabited α] (a b : List α)
    (alo ahi blo bhi : ℕ) (best : FBest) (hbest : BestOK alo ahi blo bhi best) :
    BestOK alo ahi blo bhi (extendBack a b alo blo best) :=
  extendBackLoop_bounds a b alo ahi blo bhi best.i best hbest

theorem extendFwdLoop_bounds {α : Type} [DecidableEq α] [Inhabited α] (a b : List α)
    (alo ahi blo bhi : ℕ) : ∀ (fuel : ℕ) (best : FBest),
    BestOK alo ahi blo bhi best →
    BestOK alo ahi blo bhi (extendFwdLoop a b ahi bhi fuel best) := by
  intro fuel
  induction fuel with
  | zero => intro best hbest; exact hbest
  | succ fuel ih =>
    intro best hbest
    rw [extendFwdLoop]
    split
    · next h =>
      obtain ⟨hh1, hh2, _⟩ := h
      have hstep : BestOK alo ahi blo bhi ⟨best.i, best.j, best.size + 1⟩ := by
        have hi' : alo ≤ best.i := by
          rcases hbest with ⟨e1, e2, e3⟩ | ⟨e1, e2, e3, e4, e5⟩ <;> omega
        have hj' : blo ≤ best.j := by
          rcases hbest with ⟨e1, e2, e3⟩ | ⟨e1, e2, e3, e4, e5⟩ <;> omega
        right
        refine ⟨?_, ?_, ?_, ?_, ?_⟩
        · show 1 ≤ best.size + 1
          omega
        · show alo ≤ best.i
          exact hi'
        · show blo ≤ best.j
          exact hj'
        · show best.i + (best.size + 1) ≤ ahi
          omega
        · show best.j + (best.size + 1) ≤ bhi
          omega
      exact ih ⟨best.i, best.j, best.size + 1⟩ hstep
    · exact hbest

theorem extendFwd_bounds {α : Type} [DecidableEq α] [Inhabited α] (a b : List α)
    (alo ahi blo bhi : ℕ) (best : FBest) (hbest : BestOK alo ahi blo bhi best) :
    BestOK alo ahi blo bhi (extendFwd a b ahi bhi best) :=
  extendFwdLoop_bounds a b alo ahi blo bhi _ best hbest

theorem findLongestMatch_bounds {α : Type} [DecidableEq α] [Inhabited α] (a b : List α)
    (d : List (α × List ℕ)) (alo ahi blo bhi : ℕ) :
    BestOK alo ahi blo bhi (findLongestMatch a b d alo ahi blo bhi) := by
  have hinit : BestOK alo ahi blo bhi ⟨alo, blo, 0⟩ := Or.inl ⟨rfl, rfl, rfl⟩
  have hcore : BestOK alo ahi blo bhi
      (fOuter a d blo bhi (List.range' alo (ahi - alo)) (fun _ => 0) ⟨alo, blo, 0⟩) := by
    by_cases hw : alo ≤ ahi
    · exact fOuter_bounds a d alo ahi blo bhi (ahi - alo) alo (fun _ => 0) ⟨alo, blo, 0⟩
        le_rfl (by omega) (fun j => Or.inl rfl) hinit
    · have : ahi - alo = 0 := by omega
      rw [this]
      exact hinit
  exact extendFwd_bounds a b alo ahi blo bhi _
    (extendBack_bounds a b alo ahi blo bhi _ hcore)

/-- The bounds facts used everywhere downstream: a non-trivial match lies
inside its window. -/
theorem findLongestMatch_pos_bounds {α : Type} [DecidableEq α] [Inhabited α]
    (a b : List α) (d : List (α × List ℕ)) (alo ahi blo bhi : ℕ)
    (h : (findLongestMatch a b d alo ahi blo bhi).size ≠ 0) :
    1 ≤ (findLongestMatch a b d alo ahi blo bhi).size ∧
      alo ≤ (findLongestMatch a b d alo ahi blo bhi).i ∧
      blo ≤ (findLongestMatch a b d alo ahi blo bhi).j ∧
      (findLongestMatch a b d alo ahi blo bhi).i +
        (findLongestMatch a b d alo ahi blo bhi).size ≤ ahi ∧
      (findLongestMatch a b d alo ahi blo bhi).j +
        (findLongestMatch a b d alo ahi blo bhi).size ≤ bhi := by
  rcases findLongestMatch_bounds a b d alo ahi blo bhi with ⟨e1, e2, e3⟩ | hb
  · exact absurd e3 h
  · exact hb

/-! ## Chained structure of the matching blocks -/

theorem chainOK_le : ∀ (l : List Block) (i j hi hj : ℕ),
    ChainOK i j l hi hj → i ≤ hi ∧ j ≤ hj := by
  intro l
  induction l with
  | nil => intro i j hi hj h; exact h
  | cons bl rest ih =>
    intro i j hi hj h
    rw [ChainOK] at h
    obtain ⟨h1, h2, h3⟩ := h
    have := ih _ _ _ _ h3
    omega

theorem chainOK_mono : ∀ (l : List Block) (i j i' j' hi hj : ℕ),
    ChainOK i j l hi hj → i' ≤ i → j' ≤ j → ChainOK i' j' l hi hj := by
  intro l
  cases l with
  | nil =>
    intro i j i' j' hi hj h h1 h2
    obtain ⟨g1, g2⟩ : i ≤ hi ∧ j ≤ hj := h
    show i' ≤ hi ∧ j' ≤ hj
    omega
  | cons bl rest =>
    intro i j i' j' hi hj h h1 h2
    obtain ⟨g1, g2, g3⟩ : i ≤ bl.bi ∧ j ≤ bl.bj ∧
      ChainOK (bl.bi + bl.size) (bl.bj + bl.size) rest hi hj := h
    exact ⟨by omega, by omega, g3⟩

theorem chainOK_append_block : ∀ (l1 : List Block) (m : Block) (l2 : List Block)
    (i j hi hj : ℕ), ChainOK i j l1 m.bi m.bj →
    ChainOK (m.bi + m.size) (m.bj + m.size) l2 hi hj →
    ChainOK i j (l1 ++ m :: l2) hi hj := by
  intro l1
  induction l1 with
  | nil =>
    intro m l2 i j hi hj h1 h2
    rw [List.nil_append, ChainOK]
    exact ⟨h1.1, h1.2, h2⟩
  | cons bl rest ih =>
    intro m l2 i j hi hj h1 h2
    rw [ChainOK] at h1
    rw [List.cons_append, ChainOK]
    exact ⟨h1.1, h1.2.1, ih m l2 _ _ hi hj h1.2.2 h2⟩

theorem mbRecFuel_chainOK {α : Type} [DecidableEq α] [Inhabited α] (a b : List α)
    (d : List (α × List ℕ)) : ∀ (fuel alo ahi blo bhi : ℕ), alo ≤ ahi → blo ≤ bhi →
    ChainOK alo blo (mbRecFuel a b d fuel alo ahi blo bhi) ahi bhi := by
  intro fuel
  induction fuel with
  | zero =>
    intro alo ahi blo bhi h1 h2
    rw [mbRecFuel, ChainOK]
    exact ⟨h1, h2⟩
  | succ fuel ih =>
    intro alo ahi blo bhi h1 h2
    rw [mbRecFuel]
    by_cases hz : (findLongestMatch a b d alo ahi blo bhi).size = 0
    · rw [if_pos hz, ChainOK]
      exact ⟨h1, h2⟩
    · rw [if_neg hz]
      obtain ⟨p1, p2, p3, p4, p5⟩ := findLongestMatch_pos_bounds a b d alo ahi blo bhi hz
      exact chainOK_append_block _ _ _ _ _ _ _
        (ih alo _ blo _ p2 p3)
        (ih _ ahi _ bhi p4 p5)

theorem collapseLoop_chainOK : ∀ (l : List Block) (i1 j1 k1 i j hi hj : ℕ),
    ChainOK (i1 + k1) (j1 + k1) l hi hj → i ≤ i1 → j ≤ j1 →
    ChainOK i j (collapseLoop l i1 j1 k1) hi hj := by
  intro l
  induction l with
  | nil =>
    intro i1 j1 k1 i j hi hj h h1 h2
    rw [ChainOK] at h
    rw [collapseLoop]
    by_cases hk : k1 = 0
    · rw [if_pos hk, ChainOK]
      omega
    · rw [if_neg hk, ChainOK]
      refine ⟨h1, h2, ?_⟩
      rw [ChainOK]
      exact h
  | cons bl rest ih =>
    intro i1 j1 k1 i j hi hj h h1 h2
    rw [ChainOK] at h
    obtain ⟨g1, g2, g3⟩ := h
    rw [collapseLoop]
    by_cases hadj : i1 + k1 = bl.bi ∧ j1 + k1 = bl.bj
    · rw [if_pos hadj]
      refine ih i1 j1 (k1 + bl.size) i j hi hj ?_ h1 h2
      have e1 : i1 + (k1 + bl.size) = bl.bi + bl.size := by omega
      have e2 : j1 + (k1 + bl.size) = bl.bj + bl.size := by omega
      rw [e1, e2]
      exact g3
    · rw [if_neg hadj]
      by_cases hk : k1 = 0
      · rw [if_pos hk]
        rw [List.nil_append]
        exact ih bl.bi bl.bj bl.size i j hi hj g3 (by omega) (by omega)
      · rw [if_neg hk]
        rw [List.singleton_append, ChainOK]
        exact ⟨h1, h2, ih bl.bi bl.bj bl.size _ _ hi hj g3 g1 g2⟩

theorem chainOK_append_sentinel : ∀ (l : List Block) (i j hi hj : ℕ),
    ChainOK i j l hi hj → ChainOK i j (l ++ [Block.mk hi hj 0]) hi hj := by
  intro l
  induction l with
  | nil =>
    intro i j hi hj h
    rw [ChainOK] at h
    rw [List.nil_append, ChainOK]
    refine ⟨h.1, h.2, ?_⟩
    show hi + 0 ≤ hi ∧ hj + 0 ≤ hj
    omega
  | cons bl rest ih =>
    intro i j hi hj h
    rw [ChainOK] at h
    rw [List.cons_append, ChainOK]
    exact ⟨h.1, h.2.1, ih _ _ _ _ h.2.2⟩

theorem lastCursorA_append_single : ∀ (l : List Block) (i : ℕ) (bl : Block),
    lastCursorA i (l ++ [bl]) = bl.bi + bl.size := by
  intro l
  induction l with
  | nil => intro i bl; rw [List.nil_append, lastCursorA, lastCursorA]
  | cons x rest ih => intro i bl; rw [List.cons_append, lastCursorA]; exact ih _ bl

theorem lastCursorA_ge : ∀ (l : List Block) (i j hi hj : ℕ),
    ChainOK i j l hi hj → i ≤ lastCursorA i l := by
  intro l
  induction l with
  | nil => intro i j hi hj _; rw [lastCursorA]
  | cons bl rest ih =>
    intro i j hi hj h
    rw [ChainOK] at h
    rw [lastCursorA]
    have := ih _ _ _ _ h.2.2
    omega

/-! ## Length of the word-result list -/

theorem pySlice_length {α : Type} (t : List α) (i1 i2 : ℕ) (h : i2 ≤ t.length) :
    (pySlice t i1 i2).length = i2 - i1 := by
  rw [pySlice]
  rw [List.length_take, List.length_drop]
  omega

theorem wordResults_opcodesLoop_length {α : Type} (t : List α) :
    ∀ (blocks : List Block) (i j hj : ℕ), ChainOK i j blocks t.length hj →
      (wordResults t (opcodesLoop blocks i j)).length = lastCursorA i blocks - i := by
  intro blocks
  induction blocks with
  | nil =>
    intro i j hj _
    rw [opcodesLoop, lastCursorA, wordResults]
    simp
  | cons bl rest ih =>
    intro i j hj h
    rw [ChainOK] at h
    obtain ⟨g1, g2, g3⟩ := h
    have hble : bl.bi + bl.size ≤ t.length := (chainOK_le _ _ _ _ _ g3).1
    have hrest := ih (bl.bi + bl.size) (bl.bj + bl.size) hj g3
    have hcur := lastCursorA_ge _ _ _ _ _ g3
    rw [opcodesLoop, lastCursorA]
    rw [wordResults] at hrest ⊢
    rw [List.flatMap_append, List.flatMap_append, List.length_append, List.length_append]
    have hgap : ((if i < bl.bi ∧ j < bl.bj then [Opcode.mk Tag.replace i bl.bi j bl.bj]
        else if i < bl.bi then [Opcode.mk Tag.delete i bl.bi j bl.bj]
        else if j < bl.bj then [Opcode.mk Tag.insert i bl.bi j bl.bj]
        else []).flatMap (fun op =>
          (pySlice t op.i1 op.i2).map (fun w =>
            WordRes.mk w (if op.tag = Tag.equal then Status.ok
              else Status.misread)))).length = bl.bi - i := by
      have hsl : (pySlice t i bl.bi).length = bl.bi - i :=
        pySlice_length t i bl.bi (by omega)
      by_cases c1 : i < bl.bi ∧ j < bl.bj
      · rw [if_pos c1]
        simp only [List.flatMap_cons, List.flatMap_nil, List.append_nil, List.length_map]
        exact hsl
      · rw [if_neg c1]
        by_cases c2 : i < bl.bi
        · rw [if_pos c2]
          simp only [List.flatMap_cons, List.flatMap_nil, List.append_nil, List.length_map]
          exact hsl
        · rw [if_neg c2]
          by_cases c3 : j < bl.bj
          · rw [if_pos c3]
            simp only [List.flatMap_cons, List.flatMap_nil, List.append_nil, List.length_map]
            exact hsl
          · rw [if_neg c3]
            simp only [List.flatMap_nil, List.length_nil]
            omega
    have heq : ((if bl.size = 0 then []
        else [Opcode.mk Tag.equal bl.bi (bl.bi + bl.size) bl.bj (bl.bj + bl.size)]).flatMap
          (fun op => (pySlice t op.i1 op.i2).map (fun w =>
            WordRes.mk w (if op.tag = Tag.equal then Status.ok
              else Status.misread)))).length = bl.size := by
      by_cases c4 : bl.size = 0
      · rw [if_pos c4]
        simp only [List.flatMap_nil, List.length_nil]
        omega
      · rw [if_neg c4]
        simp only [List.flatMap_cons, List.flatMap_nil, List.append_nil, List.length_map]
        rw [pySlice_length t _ _ hble]
        omega
    rw [hgap, heq, hrest]
    omega

/-- The length invariant at the token level: one `WordResult` per target
token. -/
theorem alignSeq_words_length {α : Type} [DecidableEq α] [Inhabited α] (t r : List α) :
    (alignSeq t r).words.length = t.length := by
  have h1 := mbRecFuel_chainOK t r (chainB r) (t.length + r.length + 1)
    0 t.length 0 r.length (Nat.zero_le _) (Nat.zero_le _)
  have h2 := collapseLoop_chainOK _ 0 0 0 0 0 _ _ h1 le_rfl le_rfl
  have h3 := chainOK_append_sentinel _ 0 0 _ _ h2
  have hlen := wordResults_opcodesLoop_length t _ 0 0 _ h3
  rw [lastCursorA_append_single] at hlen
  exact hlen

/-- Claim C1: for every pair of string inputs, the alignment report has
exactly one `WordResult` per normalized target token:
`len(report.words) == len(normalize(target))`, whatever the transcript. -/
theorem claim_C1_words_length (target transcript : String) :
    ((align_words target transcript).words).length = (normalize_words target).length :=
  alignSeq_words_length (normalize_words target) (normalize_words transcript)

/-! ## Normalization insensitivity (claim C7) -/

/-- Claim C7: the report depends only on the normalized token sequences,
so alignment is case- and punctuation-insensitive; in particular
`align("Cat!", "cat")` equals `align("cat", "cat")` (witness). -/
theorem claim_C7_normalization_insensitive (t t' r r' : String)
    (ht : normalize_words t = normalize_words t')
    (hr : normalize_words r = normalize_words r') :
    align_words t r = align_words t' r' := by
  rw [align_words, align_words, ht, hr]

theorem claim_C7_witness :
    normalize_words "Cat!" = normalize_words "cat" ∧
      align_words "Cat!" "cat" = align_words "cat" "cat" :=
  ⟨by decide,
    claim_C7_normalization_insensitive "Cat!" "cat" "cat" "cat" (by decide) rfl⟩

/-! ## Accuracy arithmetic -/

theorem roundHalfEven_nonneg (q : ℚ) (h : 0 ≤ q) : 0 ≤ roundHalfEven q := by
  have h0 : (0 : ℤ) ≤ ⌊q⌋ := Int.floor_nonneg.mpr h
  rw [roundHalfEven]
  split_ifs <;> omega

theorem roundHalfEven_le (q : ℚ) (B : ℤ) (h : q ≤ B) : roundHalfEven q ≤ B := by
  have h1 : ⌊q⌋ ≤ B := by
    have := Int.floor_le_floor h
    rwa [Int.floor_intCast] at this
  rw [roundHalfEven]
  split_ifs with c1 c2 c3
  · exact h1
  · have hfl : (⌊q⌋ : ℚ) ≤ q := Int.floor_le q
    have h2 : ((⌊q⌋ : ℚ)) < (B : ℚ) := by linarith
    have h3 : ⌊q⌋ < B := by exact_mod_cast h2
    omega
  · exact h1
  · have hge : (1 : ℚ)/2 ≤ q - ⌊q⌋ := le_of_not_lt c1
    have h2 : ((⌊q⌋ : ℚ)) < (B : ℚ) := by linarith
    have h3 : ⌊q⌋ < B := by exact_mod_cast h2
    omega

theorem pyRound1_nonneg (q : ℚ) (h : 0 ≤ q) : 0 ≤ pyRound1 q := by
  rw [pyRound1]
  have h1 : (0 : ℤ) ≤ roundHalfEven (10 * q) := roundHalfEven_nonneg _ (by linarith)
  have h2 : (0 : ℚ) ≤ (roundHalfEven (10 * q) : ℚ) := by exact_mod_cast h1
  linarith

theorem pyRound1_le_100 (q : ℚ) (h : q ≤ 100) : pyRound1 q ≤ 100 := by
  rw [pyRound1]
  have h1 : roundHalfEven (10 * q) ≤ (1000 : ℤ) := roundHalfEven_le _ _ (by push_cast; linarith)
  have h2 : (roundHalfEven (10 * q) : ℚ) ≤ 1000 := by exact_mod_cast h1
  linarith

theorem pyRound1_zero : pyRound1 0 = 0 := by
  norm_num [pyRound1, roundHalfEven]

theorem pyRound1_hundred : pyRound1 100 = 100 := by
  norm_num [pyRound1, roundHalfEven]

theorem alignSeq_words {α : Type} [DecidableEq α] [Inhabited α] (t r : List α) :
    (alignSeq t r).words = wordResults t (getOpcodes t r) := rfl

theorem alignSeq_accuracy {α : Type} [DecidableEq α] [Inhabited α] (t r : List α) :
    (alignSeq t r).accuracy =
      pyRound1 ((100 * (okCount (wordResults t (getOpcodes t r)) : ℚ)) /
        ((max 1 (wordResults t (getOpcodes t r)).length : ℕ) : ℚ)) := rfl

/-- The accuracy formula is bounded whenever `correct <= total`. -/
theorem pyRound1_ratio_range (c m : ℕ) (h : c ≤ m) :
    0 ≤ pyRound1 ((100 * (c : ℚ)) / ((max 1 m : ℕ) : ℚ)) ∧
      pyRound1 ((100 * (c : ℚ)) / ((max 1 m : ℕ) : ℚ)) ≤ 100 := by
  have hden : (0 : ℚ) < ((max 1 m : ℕ) : ℚ) := by
    have h1 : 1 ≤ max 1 m := le_max_left _ _
    exact_mod_cast Nat.lt_of_lt_of_le Nat.zero_lt_one h1
  constructor
  · apply pyRound1_nonneg
    apply div_nonneg _ (le_of_lt hden)
    positivity
  · apply pyRound1_le_100
    rw [div_le_iff hden]
    have hcount : (c : ℚ) ≤ ((max 1 m : ℕ) : ℚ) := by
      exact_mod_cast le_trans h (le_max_right 1 _)
    linarith

/-- The accuracy range at the token level. -/
theorem alignSeq_accuracy_range {α : Type} [DecidableEq α] [Inhabited α] (t r : List α) :
    0 ≤ (alignSeq t r).accuracy ∧ (alignSeq t r).accuracy ≤ 100 :=
  pyRound1_ratio_range _ _ (List.countP_le_length _)

/-- Claim C8: the reported accuracy always lies in `[0.0, 100.0]`. -/
theorem claim_C8_accuracy_range (target transcript : String) :
    0 ≤ (align_words target transcript).accuracy ∧
      (align_words target transcript).accuracy ≤ 100 :=
  alignSeq_accuracy_range (normalize_words target) (normalize_words transcript)

/-! ## Empty-side behavior (claims C3 and C5) -/

theorem wordResults_nil_target {α : Type} : ∀ (ops : List Opcode),
    wordResults ([] : List α) ops = [] := by
  intro ops
  rw [wordResults]
  induction ops with
  | nil => rfl
  | cons op rest ih =>
    rw [List.flatMap_cons, ih]
    rw [pySlice]
    simp

/-- Empty-target behavior at the token level: no word results, accuracy
`0`. -/
theorem alignSeq_nil_target {α : Type} [DecidableEq α] [Inhabited α] (r : List α) :
    (alignSeq ([] : List α) r).words = [] ∧ (alignSeq ([] : List α) r).accuracy = 0 := by
  have hw : (alignSeq ([] : List α) r).words = [] := wordResults_nil_target _
  refine ⟨hw, ?_⟩
  show pyRound1 ((100 * ((okCount (wordResults ([] : List α)
    (getOpcodes ([] : List α) r))) : ℚ)) /
    ((max 1 (wordResults ([] : List α) (getOpcodes ([] : List α) r)).length : ℕ) : ℚ)) = 0
  rw [wordResults_nil_target]
  show pyRound1 ((100 * ((0 : ℕ) : ℚ)) / ((1 : ℕ) : ℚ)) = 0
  norm_num [pyRound1_zero]

/-- Claim C3: the accuracy is exactly
`round(100 * count(status==OK) / max(1, total), 1)`, and when the target
normalizes to the empty sequence the `max(1, ...)` guard makes the
accuracy `0.0` with an empty word list. -/
theorem claim_C3_accuracy_formula (target transcript : String) :
    (align_words target transcript).accuracy =
      pyRound1 ((100 * (okCount (align_words target transcript).words : ℚ)) /
        ((max 1 (align_words target transcript).words.length : ℕ) : ℚ)) ∧
    (normalize_words target = [] →
      (align_words target transcript).words = [] ∧
        (align_words target transcript).accuracy = 0) := by
  constructor
  · show (alignSeq (normalize_words target) (normalize_words transcript)).accuracy =
      pyRound1 ((100 * (okCount
          (alignSeq (normalize_words target) (normalize_words transcript)).words : ℚ)) /
        ((max 1 (alignSeq (normalize_words target)
          (normalize_words transcript)).words.length : ℕ) : ℚ))
    rw [alignSeq_words, alignSeq_accuracy]
  · intro ht
    rw [align_words, ht]
    exact alignSeq_nil_target (normalize_words transcript)

theorem fOuter_nil_dict {α : Type} [DecidableEq α] [Inhabited α] (a : List α)
    (blo bhi : ℕ) : ∀ (is : List ℕ) (j2len : ℕ → ℕ) (best : FBest),
    fOuter a [] blo bhi is j2len best = best := by
  intro is
  induction is with
  | nil => intro j2len best; rfl
  | cons i is ih =>
    intro j2len best
    rw [fOuter]
    exact ih _ _

theorem extendFwdLoop_bhi_zero {α : Type} [DecidableEq α] [Inhabited α]
    (a b : List α) (ahi : ℕ) : ∀ (fuel : ℕ) (best : FBest),
    extendFwdLoop a b ahi 0 fuel best = best := by
  intro fuel
  cases fuel with
  | zero => intro best; rfl
  | succ fuel =>
    intro best
    rw [extendFwdLoop]
    rw [if_neg (fun h => absurd h.2.1 (by omega))]

theorem findLongestMatch_nil_b {α : Type} [DecidableEq α] [Inhabited α]
    (a : List α) (n : ℕ) :
    findLongestMatch a ([] : List α) [] 0 n 0 0 = ⟨0, 0, 0⟩ := by
  rw [findLongestMatch, fOuter_nil_dict]
  rw [extendBack]
  show extendFwd a [] n 0 (extendBackLoop a [] 0 0 0 ⟨0, 0, 0⟩) = ⟨0, 0, 0⟩
  rw [extendBackLoop, extendFwd, extendFwdLoop_bhi_zero]

theorem getOpcodes_nil_r {α : Type} [DecidableEq α] [Inhabited α] (t : List α) :
    getOpcodes t ([] : List α) =
      if t.length = 0 then [] else [Opcode.mk Tag.delete 0 t.length 0 0] := by
  rw [getOpcodes, getMatchingBlocks]
  have hc : chainB ([] : List α) = [] := rfl
  rw [hc]
  simp only [List.length_nil]
  rw [mbRecFuel, findLongestMatch_nil_b]
  rw [if_pos rfl]
  rw [collapseLoop, if_pos rfl, List.nil_append]
  rw [opcodesLoop]
  simp only [block_bi, block_bj, block_size]
  by_cases hn : t.length = 0
  · rw [if_pos hn, hn]
    rw [if_neg (by omega), if_neg (by omega), if_neg (by omega)]
    simp [opcodesLoop]
  · rw [if_neg hn]
    rw [if_neg (by omega), if_pos (by omega)]
    simp [opcodesLoop]

/-- Claim C5: a non-empty target read against an empty transcript yields a
report in which every word is `misread` and the accuracy is `0.0`. -/
theorem claim_C5_empty_transcript (target transcript : String)
    (ht : normalize_words target ≠ []) (hr : normalize_words transcript = []) :
    (∀ w ∈ (align_words target transcript).words, w.status = Status.misread) ∧
      (align_words target transcript).accuracy = 0 := by
  have hn : (normalize_words target).length ≠ 0 := by
    intro h
    exact ht (List.eq_nil_of_length_eq_zero h)
  have hops : getOpcodes (normalize_words target) (normalize_words transcript) =
      [Opcode.mk Tag.delete 0 (normalize_words target).length 0 0] := by
    rw [hr, getOpcodes_nil_r, if_neg hn]
  have hwords : wordResults (normalize_words target)
      (getOpcodes (normalize_words target) (normalize_words transcript)) =
      (pySlice (normalize_words target) 0 (normalize_words target).length).map
        (fun w => WordRes.mk w Status.misread) := by
    rw [hops, wordResults, List.flatMap_cons, List.flatMap_nil, List.append_nil]
    rfl
  have hok : okCount (wordResults (normalize_words target)
      (getOpcodes (normalize_words target) (normalize_words transcript))) = 0 := by
    rw [hwords, okCount]
    rw [List.countP_eq_zero]
    intro w hw
    obtain ⟨w', _, rfl⟩ := List.mem_map.mp hw
    simp
  constructor
  · intro w hw
    rw [align_words, alignSeq_words] at hw
    rw [hwords] at hw
    obtain ⟨w', _, rfl⟩ := List.mem_map.mp hw
    rfl
  · rw [align_words, alignSeq_accuracy, hok]
    rw [Nat.cast_zero, mul_zero, zero_div, pyRound1_zero]

theorem claim_C5_witness :
    normalize_words "one two three" ≠ [] ∧ normalize_words "" = [] ∧
    (∀ w ∈ (align_words "one two three" "").words, w.status = Status.misread) ∧
    (align_words "one two three" "").words.length = 3 ∧
    (align_words "one two three" "").accuracy = 0 :=
  ⟨by decide, by decide,
    (claim_C5_empty_transcript "one two three" "" (by decide) (by decide)).1,
    by decide,
    (claim_C5_empty_transcript "one two three" "" (by decide) (by decide)).2⟩

theorem claim_C3_witness :
    ((align_words "" "hello").accuracy =
      pyRound1 ((100 * (okCount (align_words "" "hello").words : ℚ)) /
        ((max 1 (align_words "" "hello").words.length : ℕ) : ℚ))) ∧
    normalize_words "" = [] ∧
    (align_words "" "hello").words = [] ∧ (align_words "" "hello").accuracy = 0 :=
  ⟨(claim_C3_accuracy_formula "" "hello").1, by decide,
    (claim_C3_accuracy_formula "" "hello").2 (by decide)⟩

/-! ## The normalizer versus the spec's description (claim C6) -/

theorem specSplitFuel_mono : ∀ (fuel fuel' : ℕ) (l : List Char),
    l.length ≤ fuel → l.length ≤ fuel' →
    specSplitFuel fuel l = specSplitFuel fuel' l := by
  intro fuel
  induction fuel with
  | zero =>
    intro fuel' l h1 h2
    have hl : l = [] := List.eq_nil_of_length_eq_zero (by omega)
    subst hl
    cases fuel' with
    | zero => rfl
    | succ fuel' => rfl
  | succ fuel ih =>
    intro fuel' l h1 h2
    cases fuel' with
    | zero =>
      have hl : l = [] := List.eq_nil_of_length_eq_zero (by omega)
      subst hl
      rfl
    | succ fuel' =>
      rw [specSplitFuel, specSplitFuel]
      cases hd : l.dropWhile pyIsSpace with
      | nil => rfl
      | cons c cs =>
        have hlen : cs.length < l.length := by
          have hs := (List.dropWhile_sublist (l := l) pyIsSpace).length_le
          rw [hd] at hs
          simp only [List.length_cons] at hs
          omega
        have hlen2 : (cs.dropWhile (fun x => !pyIsSpace x)).length ≤ cs.length :=
          (List.dropWhile_sublist _).length_le
        exact congrArg (fun x => (c :: List.takeWhile (fun x => !pyIsSpace x) cs) :: x)
          (ih fuel' _ (by omega) (by omega))

/-- The one-step recurrence of the spec's splitter. -/
theorem specSplit_eq (l : List Char) : specSplit l =
    match l.dropWhile pyIsSpace with
    | [] => []
    | c :: cs =>
      (c :: cs.takeWhile (fun x => !pyIsSpace x))
        :: specSplit (cs.dropWhile (fun x => !pyIsSpace x)) := by
  rw [specSplit]
  cases hn : l.length with
  | zero =>
    have hl : l = [] := List.eq_nil_of_length_eq_zero hn
    subst hl
    rfl
  | succ n =>
    rw [specSplitFuel]
    cases hd : l.dropWhile pyIsSpace with
    | nil => rfl
    | cons c cs =>
      have hlen : cs.length < l.length := by
        have hs := (List.dropWhile_sublist (l := l) pyIsSpace).length_le
        rw [hd] at hs
        simp only [List.length_cons] at hs
        omega
      have hlen2 : (cs.dropWhile (fun x => !pyIsSpace x)).length ≤ cs.length :=
        (List.dropWhile_sublist _).length_le
      exact congrArg (fun x => (c :: List.takeWhile (fun x => !pyIsSpace x) cs) :: x)
        (specSplitFuel_mono n _ _ (by omega) le_rfl)

theorem specSplit_nil : specSplit [] = [] := rfl

theorem specSplit_cons_space (c : Char) (cs : List Char) (h : pyIsSpace c = true) :
    specSplit (c :: cs) = specSplit cs := by
  rw [specSplit_eq (c :: cs), List.dropWhile_cons_of_pos h, specSplit_eq cs]

theorem specSplit_cons_word (c : Char) (cs : List Char) (h : pyIsSpace c = false) :
    specSplit (c :: cs) =
      (c :: cs.takeWhile (fun x => !pyIsSpace x))
        :: specSplit (cs.dropWhile (fun x => !pyIsSpace x)) := by
  rw [specSplit_eq (c :: cs),
    List.dropWhile_cons_of_neg (by rw [h]; exact Bool.false_ne_true)]

theorem pySplitAux_eq_specSplit : ∀ (l acc : List Char),
    pySplitAux l acc =
      if acc.isEmpty then specSplit l
      else (acc.reverse ++ l.takeWhile (fun x => !pyIsSpace x))
        :: specSplit (l.dropWhile (fun x => !pyIsSpace x)) := by
  intro l
  induction l with
  | nil =>
    intro acc
    rw [pySplitAux]
    cases acc with
    | nil => rfl
    | cons a as =>
      simp only [List.isEmpty_cons, if_neg (Bool.false_ne_true)]
      rw [List.takeWhile_nil, List.dropWhile_nil, specSplit_nil, List.append_nil]
  | cons c cs ih =>
    intro acc
    rw [pySplitAux]
    by_cases hsp : pyIsSpace c = true
    · rw [if_pos hsp]
      cases acc with
      | nil =>
        simp only [List.isEmpty_nil, if_pos rfl]
        rw [ih [], specSplit_cons_space c cs hsp]
        rfl
      | cons a as =>
        simp only [List.isEmpty_cons, if_neg (Bool.false_ne_true)]
        rw [ih [], List.takeWhile_cons_of_neg, List.dropWhile_cons_of_neg]
        · rw [specSplit_cons_space c cs hsp, List.append_nil]
          rfl
        · simp [hsp]
        · simp [hsp]
    · have hsp' : pyIsSpace c = false := by
        cases hc : pyIsSpace c
        · rfl
        · exact absurd hc hsp
      rw [if_neg hsp]
      rw [ih (c :: acc)]
      simp only [List.isEmpty_cons, if_neg (Bool.false_ne_true)]
      cases acc with
      | nil =>
        simp only [List.isEmpty_nil, if_pos rfl]
        rw [specSplit_cons_word c cs hsp']
        simp
      | cons a as =>
        simp only [List.isEmpty_cons, if_neg (Bool.false_ne_true)]
        rw [List.takeWhile_cons_of_pos, List.dropWhile_cons_of_pos]
        · simp
        · simp [hsp']
        · simp [hsp']

theorem pySplit_eq_specSplit (l : List Char) : pySplit l = specSplit l := by
  rw [pySplit, pySplitAux_eq_specSplit l []]
  rfl

theorem pyLowerChar_space (c : Char) (h : pyIsSpace c = true) : pyLowerChar c = c := by
  have h' : ((c = ' ' ∨ c = '\t') ∨ c = '\r') ∨ c = '\n' := by
    simpa [pyIsSpace, Char.isWhitespace] using h
  rcases h' with ((rfl | rfl) | rfl) | rfl <;> decide

theorem specSplit_all_space (l : List Char) (h : ∀ c ∈ l, pyIsSpace c = true) :
    specSplit l = [] := by
  have hd : l.dropWhile pyIsSpace = [] := by
    induction l with
    | nil => rfl
    | cons c cs ih =>
      rw [List.dropWhile_cons_of_pos (h c (List.mem_cons_self c cs))]
      exact ih (fun x hx => h x (List.mem_cons_of_mem c hx))
  rw [specSplit]
  cases hn : l.length with
  | zero => rfl
  | succ n =>
    rw [specSplitFuel, hd]

/-- Claim C6: the normalizer is exactly the spec's composition — lowercase
the whole string, delete every character that is neither a word character
nor whitespace, split on runs of whitespace discarding empty fragments —
and empty or whitespace-only input yields the empty sequence.  (The
character classes `\w`, `\s` and `str.lower` are modelled at the
Lean-`Char` level, which matches Python on ASCII.) -/
theorem claim_C6_normalizer (s : String) :
    normalize_words s = specNormalize s ∧
      ((∀ c ∈ s.data, pyIsSpace c = true) → normalize_words s = []) := by
  constructor
  · rw [normalize_words, specNormalize, pySplit_eq_specSplit]
  · intro h
    rw [normalize_words, pySplit_eq_specSplit]
    have hall : ∀ c ∈ (s.data.map pyLowerChar).filter keepChar, pyIsSpace c = true := by
      intro c hc
      obtain ⟨hc1, _⟩ := List.mem_filter.mp hc
      obtain ⟨c', hc', rfl⟩ := List.mem_map.mp hc1
      rw [pyLowerChar_space c' (h c' hc')]
      exact h c' hc'
    rw [specSplit_all_space _ hall]
    rfl

theorem claim_C6_witness :
    (normalize_words " The cat! " = specNormalize " The cat! ") ∧
    (∀ c ∈ "  \t ".data, pyIsSpace c = true) ∧ normalize_words "  \t " = [] :=
  ⟨(claim_C6_normalizer " The cat! ").1, by decide,
    (claim_C6_normalizer "  \t ").2 (by decide)⟩

/-! ## Characterization of the `b2j` dict -/

theorem mem_range'_iff (x s n : ℕ) : x ∈ List.range' s n ↔ s ≤ x ∧ x < s + n := by
  constructor
  · intro h
    obtain ⟨i, hi, rfl⟩ := List.mem_range'.mp h
    omega
  · intro h
    exact List.mem_range'.mpr ⟨x - s, by omega, by omega⟩

theorem assocGet_upsert {α : Type} [DecidableEq α] (key : α) (idx : ℕ) :
    ∀ (dict : List (α × List ℕ)) (x : α),
    assocGet (upsertIdx key idx dict) x =
      if x = key then assocGet dict x ++ [idx] else assocGet dict x := by
  intro dict
  induction dict with
  | nil =>
    intro x
    rw [upsertIdx]
    by_cases hx : x = key
    · subst hx
      rw [if_pos rfl]
      rw [assocGet, assocGet, if_pos rfl]
      rfl
    · rw [if_neg hx, assocGet, assocGet]
      rw [if_neg (fun hk => hx hk.symm)]
      rfl
  | cons p rest ih =>
    intro x
    obtain ⟨k, v⟩ := p
    rw [upsertIdx]
    by_cases hk : k = key
    · subst hk
      rw [if_pos rfl, assocGet, assocGet]
      by_cases hx : k = x
      · subst hx
        rw [if_pos rfl, if_pos rfl, if_pos rfl]
      · rw [if_neg hx, if_neg hx, if_neg (fun h => hx h.symm)]
    · rw [if_neg hk, assocGet, assocGet]
      by_cases hx : k = x
      · subst hx
        rw [if_pos rfl, if_pos rfl]
        rw [if_neg (fun h => hk h)]
      · rw [if_neg hx, if_neg hx]
        exact ih x

/-- The occurrence-index list of `x` in `b`, offset by `s`. -/
def fullIdxFrom {α : Type} [DecidableEq α] (s : ℕ) (b : List α) (x : α) : List ℕ :=
  ((b.enumFrom s).filter (fun p => decide (p.2 = x))).map Prod.fst

theorem fullIdxFrom_nil {α : Type} [DecidableEq α] (s : ℕ) (x : α) :
    fullIdxFrom s ([] : List α) x = [] := rfl

theorem fullIdxFrom_cons {α : Type} [DecidableEq α] (s : ℕ) (c : α) (b : List α) (x : α) :
    fullIdxFrom s (c :: b) x =
      (if c = x then [s] else []) ++ fullIdxFrom (s + 1) b x := by
  rw [fullIdxFrom, fullIdxFrom]
  rw [List.enumFrom_cons]
  by_cases hc : c = x
  · rw [List.filter_cons_of_pos (by simpa using hc), if_pos hc, List.map_cons]
    rfl
  · rw [List.filter_cons_of_neg (by simpa using hc), if_neg hc, List.nil_append]

theorem b2jRaw_fold_get {α : Type} [DecidableEq α] :
    ∀ (b : List α) (s : ℕ) (dict : List (α × List ℕ)) (x : α),
    assocGet ((b.enumFrom s).foldl (fun d p => upsertIdx p.2 p.1 d) dict) x =
      assocGet dict x ++ fullIdxFrom s b x := by
  intro b
  induction b with
  | nil =>
    intro s dict x
    rw [fullIdxFrom_nil, List.append_nil]
    rfl
  | cons c b ih =>
    intro s dict x
    rw [List.enumFrom_cons, List.foldl_cons, ih, assocGet_upsert, fullIdxFrom_cons]
    by_cases hx : x = c
    · subst hx
      rw [if_pos rfl, if_pos rfl]
      rw [List.append_assoc]
    · rw [if_neg hx, if_neg (fun h => hx h.symm), List.nil_append]

theorem assocGet_b2jRaw {α : Type} [DecidableEq α] (b : List α) (x : α) :
    assocGet (b2jRaw b) x = fullIdxFrom 0 b x := by
  rw [b2jRaw]
  have he : b.enum = b.enumFrom 0 := rfl
  rw [he, b2jRaw_fold_get b 0 [] x]
  rfl

theorem mem_fullIdxFrom {α : Type} [DecidableEq α] [Inhabited α] :
    ∀ (b : List α) (s : ℕ) (x : α) (j : ℕ),
    j ∈ fullIdxFrom s b x ↔ s ≤ j ∧ j < s + b.length ∧ nthTok b (j - s) = x := by
  intro b
  induction b with
  | nil =>
    intro s x j
    rw [fullIdxFrom_nil]
    simp only [List.not_mem_nil, false_iff]
    intro h
    simp only [List.length_nil] at h
    omega
  | cons c b ih =>
    intro s x j
    rw [fullIdxFrom_cons, List.mem_append, ih (s + 1) x j]
    constructor
    · intro h
      rcases h with h1 | ⟨h1, h2, h3⟩
      · by_cases hc : c = x
        · rw [if_pos hc] at h1
          simp only [List.mem_singleton] at h1
          subst h1
          refine ⟨le_rfl, by simp only [List.length_cons]; omega, ?_⟩
          rw [Nat.sub_self]
          rw [show nthTok (c :: b) 0 = c from rfl]
          exact hc
        · rw [if_neg hc] at h1
          exact absurd h1 (List.not_mem_nil j)
      · refine ⟨by omega, by simp only [List.length_cons]; omega, ?_⟩
        have hj : j - s = (j - (s + 1)) + 1 := by omega
        rw [hj]
        rw [show nthTok (c :: b) ((j - (s + 1)) + 1) = nthTok b (j - (s + 1)) from rfl]
        exact h3
    · intro ⟨h1, h2, h3⟩
      by_cases hjs : j = s
      · subst hjs
        left
        rw [Nat.sub_self] at h3
        rw [show nthTok (c :: b) 0 = c from rfl] at h3
        rw [if_pos h3]
        exact List.mem_singleton.mpr rfl
      · right
        refine ⟨by omega, by simp only [List.length_cons] at h2; omega, ?_⟩
        have hj : j - s = (j - (s + 1)) + 1 := by omega
        rw [hj] at h3
        rw [show nthTok (c :: b) ((j - (s + 1)) + 1) = nthTok b (j - (s + 1)) from rfl] at h3
        exact h3

theorem pairwise_fullIdxFrom {α : Type} [DecidableEq α] (b : List α) (s : ℕ) (x : α) :
    List.Pairwise (· < ·) (fullIdxFrom s b x) := by
  rw [fullIdxFrom]
  have h1 : List.Sublist
      (((b.enumFrom s).filter (fun p => decide (p.2 = x))).map Prod.fst)
      ((b.enumFrom s).map Prod.fst) :=
    List.Sublist.map Prod.fst (List.filter_sublist _)
  have h2 : (b.enumFrom s).map Prod.fst = List.range' s b.length :=
    List.enumFrom_map_fst s b
  have h3 : List.Pairwise (· < ·) ((b.enumFrom s).map Prod.fst) := by
    rw [h2]
    exact List.pairwise_lt_range' s b.length
  exact h3.sublist h1

/-- When `len(b) < 200` the autojunk purge is skipped: `b2j` is the full
occurrence dict. -/
theorem chainB_complete {α : Type} [DecidableEq α] (b : List α) (hb : b.length < 200) :
    chainB b = b2jRaw b := by
  rw [chainB]
  rw [if_neg (by omega)]

theorem mem_assocGet_chainB_complete {α : Type} [DecidableEq α] [Inhabited α]
    (b : List α) (hb : b.length < 200) (x : α) (j : ℕ) :
    j ∈ assocGet (chainB b) x ↔ j < b.length ∧ nthTok b j = x := by
  rw [chainB_complete b hb, assocGet_b2jRaw, mem_fullIdxFrom]
  constructor
  · intro ⟨h1, h2, h3⟩
    rw [Nat.sub_zero] at h3
    exact ⟨by omega, h3⟩
  · intro ⟨h1, h2⟩
    exact ⟨Nat.zero_le _, by omega, by rw [Nat.sub_zero]; exact h2⟩

/-- Every entry of a `b2j`-style dict built by the upsert fold has an
ascending, bounded value list. -/
theorem mem_upsertIdx {α : Type} [DecidableEq α] (key : α) (idx : ℕ) :
    ∀ (dict : List (α × List ℕ)) (kv : α × List ℕ), kv ∈ upsertIdx key idx dict →
      kv ∈ dict ∨ (∃ v, kv = (key, v ++ [idx]) ∧ ((key, v) ∈ dict ∨ v = [])) := by
  intro dict
  induction dict with
  | nil =>
    intro kv hkv
    rw [upsertIdx] at hkv
    simp only [List.mem_singleton] at hkv
    right
    exact ⟨[], by simpa using hkv, Or.inr rfl⟩
  | cons p rest ih =>
    intro kv hkv
    obtain ⟨k, v⟩ := p
    rw [upsertIdx] at hkv
    by_cases hk : k = key
    · subst hk
      rw [if_pos rfl] at hkv
      rcases List.mem_cons.mp hkv with h1 | h2
      · right
        exact ⟨v, h1, Or.inl (List.mem_cons_self _ _)⟩
      · left
        exact List.mem_cons_of_mem _ h2
    · rw [if_neg hk] at hkv
      rcases List.mem_cons.mp hkv with h1 | h2
      · left
        exact h1 ▸ List.mem_cons_self _ _
      · rcases ih kv h2 with h3 | ⟨w, h4, h5⟩
        · left
          exact List.mem_cons_of_mem _ h3
        · right
          rcases h5 with h6 | h6
          · exact ⟨w, h4, Or.inl (List.mem_cons_of_mem _ h6)⟩
          · exact ⟨w, h4, Or.inr h6⟩

theorem b2jRaw_fold_entries {α : Type} [DecidableEq α] :
    ∀ (b : List α) (s : ℕ) (dict : List (α × List ℕ)),
    (∀ kv ∈ dict, List.Pairwise (· < ·) kv.2 ∧ ∀ n ∈ kv.2, n < s) →
    ∀ kv ∈ (b.enumFrom s).foldl (fun d p => upsertIdx p.2 p.1 d) dict,
      List.Pairwise (· < ·) kv.2 ∧ ∀ n ∈ kv.2, n < s + b.length := by
  intro b
  induction b with
  | nil =>
    intro s dict hdict kv hkv
    have := hdict kv hkv
    simp only [List.length_nil]
    exact ⟨this.1, fun n hn => by have := this.2 n hn; omega⟩
  | cons c b ih =>
    intro s dict hdict kv hkv
    rw [List.enumFrom_cons, List.foldl_cons] at hkv
    have hstep : ∀ kv' ∈ upsertIdx c s dict,
        List.Pairwise (· < ·) kv'.2 ∧ ∀ n ∈ kv'.2, n < s + 1 := by
      intro kv' hkv'
      rcases mem_upsertIdx c s dict kv' hkv' with h1 | ⟨v, rfl, h3⟩
      · have := hdict kv' h1
        exact ⟨this.1, fun n hn => by have := this.2 n hn; omega⟩
      · have hv : List.Pairwise (· < ·) v ∧ ∀ n ∈ v, n < s := by
          rcases h3 with h4 | rfl
          · exact hdict (c, v) h4
          · exact ⟨List.Pairwise.nil, by intro n hn; exact absurd hn (List.not_mem_nil n)⟩
        constructor
        · rw [List.pairwise_append]
          refine ⟨hv.1, List.pairwise_singleton _ _, ?_⟩
          intro n hn m hm
          rw [List.mem_singleton] at hm
          subst hm
          exact hv.2 n hn
        · intro n hn
          rcases List.mem_append.mp hn with h5 | h5
          · have := hv.2 n h5
            omega
          · rw [List.mem_singleton] at h5
            omega
    have := ih (s + 1) _ hstep kv hkv
    simp only [List.length_cons]
    exact ⟨this.1, fun n hn => by have := this.2 n hn; omega⟩

theorem assocGet_self_mem {α : Type} [DecidableEq α] :
    ∀ (dict : List (α × List ℕ)) (x : α),
    assocGet dict x = [] ∨ (x, assocGet dict x) ∈ dict := by
  intro dict
  induction dict with
  | nil => intro x; left; rfl
  | cons p rest ih =>
    intro x
    obtain ⟨k, v⟩ := p
    rw [assocGet]
    by_cases hk : k = x
    · subst hk
      rw [if_pos rfl]
      right
      exact List.mem_cons_self _ _
    · rw [if_neg hk]
      rcases ih x with h | h
      · left; exact h
      · right; exact List.mem_cons_of_mem _ h

/-- Whatever the autojunk purge did, every `b2j` lookup returns an
ascending index list (the purge only deletes whole entries). -/
theorem pairwise_assocGet_chainB {α : Type} [DecidableEq α] (b : List α) (x : α) :
    List.Pairwise (· < ·) (assocGet (chainB b) x) := by
  have hentries : ∀ kv ∈ b2jRaw b, List.Pairwise (· < ·) kv.2 := by
    intro kv hkv
    have h0 : ∀ kv' ∈ ([] : List (α × List ℕ)),
        List.Pairwise (· < ·) kv'.2 ∧ ∀ n ∈ kv'.2, n < 0 := by
      intro kv' hkv'
      exact absurd hkv' (List.not_mem_nil kv')
    exact (b2jRaw_fold_entries b 0 [] h0 kv hkv).1
  rw [chainB]
  by_cases h2 : 200 ≤ b.length
  · rw [if_pos h2]
    rcases assocGet_self_mem ((b2jRaw b).filter
        (fun p => decide (p.2.length ≤ b.length / 100 + 1))) x with h | h
    · rw [h]
      exact List.Pairwise.nil
    · have hmem : (x, assocGet ((b2jRaw b).filter
          (fun p => decide (p.2.length ≤ b.length / 100 + 1))) x) ∈ b2jRaw b :=
        List.mem_of_mem_filter h
      exact hentries _ hmem
  · rw [if_neg h2]
    rcases assocGet_self_mem (b2jRaw b) x with h | h
    · rw [h]
      exact List.Pairwise.nil
    · exact hentries _ h

/-! ## The strict-improvement scan: characterization -/

theorem scanB_cons (mk : ℕ → ℕ → ℕ → FBest) (c : ℕ × ℕ × ℕ) (cs : List (ℕ × ℕ × ℕ))
    (b0 : FBest) : scanB mk (c :: cs) b0 = scanB mk cs (scanUpd mk b0 c) := rfl

theorem scanB_append (mk : ℕ → ℕ → ℕ → FBest) (l1 l2 : List (ℕ × ℕ × ℕ)) (b0 : FBest) :
    scanB mk (l1 ++ l2) b0 = scanB mk l2 (scanB mk l1 b0) :=
  List.foldl_append _ _ _ _

theorem scanGo_eq : ∀ (cs : List (ℕ × ℕ × ℕ)) (best : FBest),
    scanGo cs best = scanB (fun i j k => FBest.mk i j k) cs best := by
  intro cs
  induction cs with
  | nil => intro best; rfl
  | cons c cs ih =>
    intro best
    rcases hsc : scanUpd (fun i j k => FBest.mk i j k) best c with ⟨i, j, k⟩
    rw [scanGo, scanB_cons, hsc]
    exact ih ⟨i, j, k⟩

theorem le_maxVal : ∀ (cs : List (ℕ × ℕ × ℕ)) (c : ℕ × ℕ × ℕ), c ∈ cs →
    c.2.2 ≤ maxVal cs := by
  intro cs
  induction cs with
  | nil => intro c hc; exact absurd hc (List.not_mem_nil c)
  | cons x cs ih =>
    intro c hc
    rw [maxVal]
    rcases List.mem_cons.mp hc with rfl | h
    · exact le_max_left _ _
    · exact le_trans (ih c h) (le_max_right _ _)

theorem maxVal_attained : ∀ (cs : List (ℕ × ℕ × ℕ)),
    maxVal cs = 0 ∨ ∃ c ∈ cs, c.2.2 = maxVal cs := by
  intro cs
  induction cs with
  | nil => left; rfl
  | cons x cs ih =>
    rw [maxVal]
    rcases Nat.le_total (maxVal cs) x.2.2 with h | h
    · right
      exact ⟨x, List.mem_cons_self _ _, by omega⟩
    · rcases ih with h0 | ⟨c, hc, hv⟩
      · rcases Nat.eq_zero_or_pos x.2.2 with hx | hx
        · left; omega
        · right; exact ⟨x, List.mem_cons_self _ _, by omega⟩
      · right
        exact ⟨c, List.mem_cons_of_mem _ hc, by omega⟩

theorem scanB_all_le (mk : ℕ → ℕ → ℕ → FBest) : ∀ (cs : List (ℕ × ℕ × ℕ)) (b0 : FBest),
    (∀ c ∈ cs, c.2.2 ≤ b0.size) → scanB mk cs b0 = b0 := by
  intro cs
  induction cs with
  | nil => intro b0 _; rfl
  | cons c cs ih =>
    intro b0 h
    rw [scanB_cons]
    have hup : scanUpd mk b0 c = b0 := by
      rw [scanUpd, if_neg]
      have := h c (List.mem_cons_self _ _)
      omega
    rw [hup]
    exact ih b0 (fun c' hc' => h c' (List.mem_cons_of_mem _ hc'))

theorem scanB_first_max (mk : ℕ → ℕ → ℕ → FBest)
    (hmk : ∀ i j k, (mk i j k).size = k) :
    ∀ (pre : List (ℕ × ℕ × ℕ)) (c : ℕ × ℕ × ℕ) (post : List (ℕ × ℕ × ℕ)) (b0 : FBest),
    b0.size < c.2.2 → (∀ c' ∈ pre, c'.2.2 < c.2.2) → (∀ c' ∈ post, c'.2.2 ≤ c.2.2) →
    scanB mk (pre ++ c :: post) b0 = mk c.1 c.2.1 c.2.2 := by
  intro pre
  induction pre with
  | nil =>
    intro c post b0 hb _ hpost
    rw [List.nil_append, scanB_cons]
    have hup : scanUpd mk b0 c = mk c.1 c.2.1 c.2.2 := by
      rw [scanUpd, if_pos hb]
    rw [hup]
    apply scanB_all_le
    intro c' hc'
    rw [hmk]
    exact hpost c' hc'
  | cons p pre ih =>
    intro c post b0 hb hpre hpost
    rw [List.cons_append, scanB_cons]
    have hp := hpre p (List.mem_cons_self _ _)
    have hsz : (scanUpd mk b0 p).size < c.2.2 := by
      rw [scanUpd]
      by_cases hu : b0.size < p.2.2
      · rw [if_pos hu, hmk]
        exact hp
      · rw [if_neg hu]
        exact hb
    exact ih c post _ hsz (fun c' hc' => hpre c' (List.mem_cons_of_mem _ hc')) hpost

theorem scanB_lex (mk : ℕ → ℕ → ℕ → FBest) (hmk : ∀ i j k, (mk i j k).size = k)
    (L : List (ℕ × ℕ × ℕ)) (hs : List.Pairwise CandLT L) (cstar : ℕ × ℕ × ℕ)
    (hc : cstar ∈ L) (hmax : ∀ c ∈ L, c.2.2 ≤ cstar.2.2)
    (hmin : ∀ c ∈ L, c.2.2 = cstar.2.2 →
      cstar.1 < c.1 ∨ (cstar.1 = c.1 ∧ cstar.2.1 ≤ c.2.1))
    (b0 : FBest) (hb : b0.size < cstar.2.2) :
    scanB mk L b0 = mk cstar.1 cstar.2.1 cstar.2.2 := by
  obtain ⟨pre, post, rfl⟩ := List.append_of_mem hc
  rw [List.pairwise_append] at hs
  apply scanB_first_max mk hmk pre cstar post b0 hb
  · intro c' hc'
    have hlt : CandLT c' cstar := hs.2.2 c' hc' cstar (List.mem_cons_self _ _)
    have hv : c'.2.2 ≤ cstar.2.2 :=
      hmax c' (List.mem_append.mpr (Or.inl hc'))
    by_cases he : c'.2.2 = cstar.2.2
    · have hle := hmin c' (List.mem_append.mpr (Or.inl hc')) he
      rw [CandLT] at hlt
      exfalso
      rcases hlt with h1 | ⟨h1, h2⟩ <;> rcases hle with h3 | ⟨h3, h4⟩ <;> omega
    · omega
  · intro c' hc'
    exact hmax c' (List.mem_append.mpr (Or.inr (List.mem_cons_of_mem _ hc')))

theorem pairwise_candLT_flatMap (f : ℕ → List (ℕ × ℕ × ℕ)) : ∀ (is : List ℕ),
    List.Pairwise (· < ·) is →
    (∀ i, ∀ c ∈ f i, c.1 = i) →
    (∀ i, List.Pairwise (fun c c' => c.2.1 < c'.2.1) (f i)) →
    List.Pairwise CandLT (is.flatMap f) := by
  intro is
  induction is with
  | nil => intro _ _ _; exact List.Pairwise.nil
  | cons i is ih =>
    intro his hrow hinner
    rw [List.flatMap_cons]
    rw [List.pairwise_append]
    obtain ⟨hhead, htail⟩ := List.pairwise_cons.mp his
    refine ⟨?_, ih htail hrow hinner, ?_⟩
    · refine List.Pairwise.imp_of_mem ?_ (hinner i)
      intro c c' hc hc' hlt
      rw [CandLT]
      right
      exact ⟨(hrow i c hc).trans (hrow i c' hc').symm, hlt⟩
    · intro x hx y hy
      obtain ⟨i', hi', hy'⟩ := List.mem_flatMap.mp hy
      rw [CandLT]
      left
      rw [hrow i x hx, hrow i' y hy']
      exact hhead i' hi'

theorem sorted_takeWhile_eq_filter (bnd : ℕ) : ∀ (l : List ℕ),
    List.Pairwise (· < ·) l →
    l.takeWhile (fun j => decide (j < bnd)) = l.filter (fun j => decide (j < bnd)) := by
  intro l
  induction l with
  | nil => intro _; rfl
  | cons j l ih =>
    intro hp
    obtain ⟨hhead, htail⟩ := List.pairwise_cons.mp hp
    by_cases hj : j < bnd
    · rw [List.takeWhile_cons_of_pos (by simpa using hj),
        List.filter_cons_of_pos (by simpa using hj)]
      rw [ih htail]
    · rw [List.takeWhile_cons_of_neg (by simpa using hj),
        List.filter_cons_of_neg (by simpa using hj)]
      rw [List.filter_eq_nil_iff.mpr]
      intro x hx
      have := hhead x hx
      simpa using by omega

/-! ## Fusion: the core DP loops compute a strict-improvement scan -/

theorem fInner_snd_eq (blo bhi i : ℕ) (hwin : blo ≤ bhi) :
    ∀ (js : List ℕ) (old nw : ℕ → ℕ) (best : FBest),
    (fInner blo bhi i js old nw best).2 =
      scanB mkEnd
        (((js.takeWhile (fun j => decide (j < bhi))).filter
          (fun j => decide (blo ≤ j))).map
            (fun j => (i, j, (if j = 0 then 0 else old (j - 1)) + 1))) best := by
  intro js
  induction js with
  | nil => intro old nw best; rfl
  | cons j js ih =>
    intro old nw best
    rw [fInner]
    by_cases h1 : j < blo
    · rw [if_pos h1]
      rw [List.takeWhile_cons_of_pos (by simp only [decide_eq_true_eq]; omega),
        List.filter_cons_of_neg (by simp only [decide_eq_true_eq]; omega)]
      exact ih old nw best
    · rw [if_neg h1]
      by_cases h2 : bhi ≤ j
      · rw [if_pos h2]
        rw [List.takeWhile_cons_of_neg (by simp only [decide_eq_true_eq]; omega)]
        rfl
      · rw [if_neg h2]
        rw [List.takeWhile_cons_of_pos (by simp only [decide_eq_true_eq]; omega),
          List.filter_cons_of_pos (by simp only [decide_eq_true_eq]; omega),
          List.map_cons, scanB_cons]
        exact ih old _ _

theorem fInner_fst_eq (blo bhi i : ℕ) (hwin : blo ≤ bhi) :
    ∀ (js : List ℕ) (old nw : ℕ → ℕ) (best : FBest),
    (fInner blo bhi i js old nw best).1 = fun j' =>
      if j' ∈ (js.takeWhile (fun j => decide (j < bhi))).filter
          (fun j => decide (blo ≤ j))
      then (if j' = 0 then 0 else old (j' - 1)) + 1 else nw j' := by
  intro js
  induction js with
  | nil =>
    intro old nw best
    funext j'
    rw [List.takeWhile_nil, List.filter_nil,
      if_neg (List.not_mem_nil j')]
    rfl
  | cons j js ih =>
    intro old nw best
    rw [fInner]
    by_cases h1 : j < blo
    · rw [if_pos h1]
      rw [List.takeWhile_cons_of_pos (by simp only [decide_eq_true_eq]; omega),
        List.filter_cons_of_neg (by simp only [decide_eq_true_eq]; omega)]
      exact ih old nw best
    · rw [if_neg h1]
      by_cases h2 : bhi ≤ j
      · rw [if_pos h2]
        rw [List.takeWhile_cons_of_neg (by simp only [decide_eq_true_eq]; omega)]
        rw [List.filter_nil]
        funext j'
        rw [if_neg (List.not_mem_nil j')]
      · rw [if_neg h2]
        rw [List.takeWhile_cons_of_pos (by simp only [decide_eq_true_eq]; omega),
          List.filter_cons_of_pos (by simp only [decide_eq_true_eq]; omega)]
        rw [ih old _ _]
        funext j'
        by_cases hmem : j' ∈ (js.takeWhile (fun j => decide (j < bhi))).filter
            (fun j => decide (blo ≤ j))
        · rw [if_pos hmem, if_pos (List.mem_cons_of_mem _ hmem)]
        · rw [if_neg hmem]
          by_cases hj' : j' = j
          · subst hj'
            rw [if_pos rfl, if_pos (List.mem_cons_self _ _)]
          · rw [if_neg hj', if_neg ?_]
            intro hc
            rcases List.mem_cons.mp hc with h | h
            · exact hj' h
            · exact hmem h

theorem row_sfun {α : Type} [DecidableEq α] [Inhabited α] (a : List α)
    (d : List (α × List ℕ)) (alo blo bhi i : ℕ) (hai : alo ≤ i) (old : ℕ → ℕ)
    (hOld : ∀ j, old j = if alo < i then sfun a d alo blo bhi (i - 1) j else 0)
    (hsorted : List.Pairwise (· < ·) (assocGet d (nthTok a i))) :
    ∀ j, (if j ∈ ((assocGet d (nthTok a i)).takeWhile
        (fun j' => decide (j' < bhi))).filter (fun j' => decide (blo ≤ j'))
      then (if j = 0 then 0 else old (j - 1)) + 1 else 0) =
      sfun a d alo blo bhi i j := by
  intro j
  have hmem : j ∈ ((assocGet d (nthTok a i)).takeWhile
      (fun j' => decide (j' < bhi))).filter (fun j' => decide (blo ≤ j')) ↔
      (j ∈ assocGet d (nthTok a i) ∧ j < bhi) ∧ blo ≤ j := by
    rw [sorted_takeWhile_eq_filter bhi _ hsorted]
    rw [List.mem_filter, List.mem_filter]
    simp only [decide_eq_true_eq]
  by_cases hin : j ∈ ((assocGet d (nthTok a i)).takeWhile
      (fun j' => decide (j' < bhi))).filter (fun j' => decide (blo ≤ j'))
  · rw [if_pos hin]
    obtain ⟨⟨hjs, hjhi⟩, hjlo⟩ := hmem.mp hin
    have hguard : alo ≤ i ∧ blo ≤ j ∧ j < bhi ∧ j ∈ assocGet d (nthTok a i) :=
      ⟨hai, hjlo, hjhi, hjs⟩
    rw [sfun]
    rw [if_pos hguard]
    by_cases hcond : alo < i ∧ blo < j
    · rw [dif_pos hcond]
      have hj0 : ¬ (j = 0) := by omega
      rw [if_neg hj0, hOld (j - 1), if_pos hcond.1]
    · rw [dif_neg hcond]
      by_cases hj0 : j = 0
      · rw [if_pos hj0]
      · rw [if_neg hj0, hOld (j - 1)]
        by_cases hal : alo < i
        · rw [if_pos hal]
          -- here blo = j (since blo ≤ j and not blo < j), and j ≥ 1
          have hjb : j = blo := by omega
          have hz : sfun a d alo blo bhi (i - 1) (j - 1) = 0 := by
            rw [sfun]
            rw [if_neg]
            intro hcontra
            have := hcontra.2.1
            omega
          rw [hz]
        · rw [if_neg hal]
  · rw [if_neg hin]
    have hno := fun h => hin (hmem.mpr h)
    rw [sfun]
    rw [if_neg]
    intro ⟨hg1, hg2, hg3, hg4⟩
    exact hno ⟨⟨hg4, hg3⟩, hg2⟩

theorem fOuter_eq {α : Type} [DecidableEq α] [Inhabited α] (a : List α)
    (d : List (α × List ℕ)) (alo blo bhi : ℕ) (hwin : blo ≤ bhi)
    (hsorted : ∀ x, List.Pairwise (· < ·) (assocGet d x)) :
    ∀ (cnt i0 : ℕ) (j2len : ℕ → ℕ) (best : FBest), alo ≤ i0 →
    (∀ j, j2len j = if alo < i0 then sfun a d alo blo bhi (i0 - 1) j else 0) →
    fOuter a d blo bhi (List.range' i0 cnt) j2len best =
      scanB mkEnd ((List.range' i0 cnt).flatMap (fun i =>
        (((assocGet d (nthTok a i)).takeWhile (fun j => decide (j < bhi))).filter
          (fun j => decide (blo ≤ j))).map
            (fun j => (i, j, sfun a d alo blo bhi i j)))) best := by
  intro cnt
  induction cnt with
  | zero => intro i0 j2len best _ _; rfl
  | succ cnt ih =>
    intro i0 j2len best hai hOld
    rw [List.range'_succ, fOuter, List.flatMap_cons, scanB_append]
    have hrowfun := row_sfun a d alo blo bhi i0 hai j2len hOld (hsorted _)
    have hsnd := fInner_snd_eq blo bhi i0 hwin (assocGet d (nthTok a i0))
      j2len (fun _ => 0) best
    have hfst := fInner_fst_eq blo bhi i0 hwin (assocGet d (nthTok a i0))
      j2len (fun _ => 0) best
    have hsnd' : (fInner blo bhi i0 (assocGet d (nthTok a i0)) j2len
        (fun _ => 0) best).2 =
        scanB mkEnd ((((assocGet d (nthTok a i0)).takeWhile
          (fun j => decide (j < bhi))).filter (fun j => decide (blo ≤ j))).map
            (fun j => (i0, j, sfun a d alo blo bhi i0 j))) best := by
      rw [hsnd]
      congr 1
      apply List.map_congr_left
      intro j hj
      have := hrowfun j
      rw [if_pos hj] at this
      rw [this]
    have hfst' : ∀ j, (fInner blo bhi i0 (assocGet d (nthTok a i0)) j2len
        (fun _ => 0) best).1 j =
        if alo < i0 + 1 then sfun a d alo blo bhi (i0 + 1 - 1) j else 0 := by
      intro j
      rw [hfst]
      beta_reduce
      have halt : alo < i0 + 1 := by omega
      rw [if_pos halt]
      show _ = sfun a d alo blo bhi i0 j
      exact hrowfun j
    rw [ih (i0 + 1) _ _ (by omega) hfst']
    rw [hsnd']

/-! ## Runs: `runLen` and `sfun` describe maximal matching runs -/

theorem runLen_eq {α : Type} [DecidableEq α] [Inhabited α] (a b : List α)
    (ahi bhi : ℕ) (i j : ℕ) : runLen a b ahi bhi i j =
    if i < ahi ∧ j < bhi ∧ nthTok a i = nthTok b j then
      runLen a b ahi bhi (i + 1) (j + 1) + 1
    else 0 := by
  rw [runLen]
  cases hf : ahi - i with
  | zero =>
    rw [runLenFuel]
    rw [if_neg (fun h => by omega)]
  | succ n =>
    rw [runLenFuel]
    by_cases hg : i < ahi ∧ j < bhi ∧ nthTok a i = nthTok b j
    · rw [if_pos hg, if_pos hg]
      have hn : n = ahi - (i + 1) := by omega
      rw [runLen, hn]
    · rw [if_neg hg, if_neg hg]

theorem runLen_isRun {α : Type} [DecidableEq α] [Inhabited α] (a b : List α)
    (alo ahi blo bhi : ℕ) : ∀ (fuel i j : ℕ), alo ≤ i → blo ≤ j → i ≤ ahi → j ≤ bhi →
    ahi - i ≤ fuel →
    IsRun a b alo ahi blo bhi i j (runLenFuel a b ahi bhi fuel i j) := by
  intro fuel
  induction fuel with
  | zero =>
    intro i j h1 h2 h3 h4 h5
    rw [runLenFuel]
    exact ⟨h1, by omega, h2, by omega, fun t ht => absurd ht (by omega)⟩
  | succ fuel ih =>
    intro i j h1 h2 h3 h4 h5
    rw [runLenFuel]
    by_cases hg : i < ahi ∧ j < bhi ∧ nthTok a i = nthTok b j
    · rw [if_pos hg]
      have hrec := ih (i + 1) (j + 1) (by omega) (by omega) (by omega) (by omega) (by omega)
      obtain ⟨r1, r2, r3, r4, r5⟩ := hrec
      refine ⟨h1, by omega, h2, by omega, ?_⟩
      intro t ht
      cases t with
      | zero =>
        rw [Nat.add_zero, Nat.add_zero]
        exact hg.2.2
      | succ t =>
        have := r5 t (by omega)
        rw [show i + (t + 1) = i + 1 + t from by omega,
          show j + (t + 1) = j + 1 + t from by omega]
        exact this
    · rw [if_neg hg]
      exact ⟨h1, by omega, h2, by omega, fun t ht => absurd ht (by omega)⟩

theorem le_runLen_of_isRun {α : Type} [DecidableEq α] [Inhabited α] (a b : List α)
    (alo ahi blo bhi : ℕ) : ∀ (k i j : ℕ),
    IsRun a b alo ahi blo bhi i j k → k ≤ runLen a b ahi bhi i j := by
  intro k
  induction k with
  | zero => intro i j _; omega
  | succ k ih =>
    intro i j hrun
    obtain ⟨r1, r2, r3, r4, r5⟩ := hrun
    have h0 : nthTok a i = nthTok b j := by
      have := r5 0 (by omega)
      rwa [Nat.add_zero, Nat.add_zero] at this
    rw [runLen_eq]
    rw [if_pos ⟨by omega, by omega, h0⟩]
    have hsub : IsRun a b alo ahi blo bhi (i + 1) (j + 1) k := by
      refine ⟨by omega, by omega, by omega, by omega, ?_⟩
      intro t ht
      have := r5 (t + 1) (by omega)
      rw [show i + (t + 1) = i + 1 + t from by omega,
        show j + (t + 1) = j + 1 + t from by omega] at this
      exact this
    have := ih (i + 1) (j + 1) hsub
    omega

theorem sfun_le {α : Type} [DecidableEq α] [Inhabited α] (a : List α)
    (d : List (α × List ℕ)) (alo blo bhi : ℕ) : ∀ (i j : ℕ),
    1 ≤ sfun a d alo blo bhi i j →
    sfun a d alo blo bhi i j + alo ≤ i + 1 ∧ sfun a d alo blo bhi i j + blo ≤ j + 1 := by
  intro i
  induction i using Nat.strong_induction_on with
  | _ i ihs =>
    intro j hpos
    rw [sfun] at hpos ⊢
    by_cases hg : alo ≤ i ∧ blo ≤ j ∧ j < bhi ∧ j ∈ assocGet d (nthTok a i)
    · rw [if_pos hg]
      by_cases hc : alo < i ∧ blo < j
      · rw [dif_pos hc]
        by_cases hz : 1 ≤ sfun a d alo blo bhi (i - 1) (j - 1)
        · have := ihs (i - 1) (by omega) (j - 1) hz
          omega
        · omega
      · rw [dif_neg hc]
        omega
    · rw [if_neg hg] at hpos
      omega

/-- Completeness of the dict lookup turns `sfun` suffix lengths into
genuine runs. -/
theorem sfun_isRun {α : Type} [DecidableEq α] [Inhabited α] (a b : List α)
    (d : List (α × List ℕ)) (alo ahi blo bhi : ℕ)
    (hd : ∀ x j, j ∈ assocGet d x ↔ j < b.length ∧ nthTok b j = x) :
    ∀ (i j : ℕ), i < ahi → 1 ≤ sfun a d alo blo bhi i j →
    IsRun a b alo ahi blo bhi (i + 1 - sfun a d alo blo bhi i j)
      (j + 1 - sfun a d alo blo bhi i j) (sfun a d alo blo bhi i j) := by
  intro i
  induction i using Nat.strong_induction_on with
  | _ i ihs =>
    intro j hia hpos
    have hbounds := sfun_le a d alo blo bhi i j hpos
    rw [sfun] at hpos ⊢
    by_cases hg : alo ≤ i ∧ blo ≤ j ∧ j < bhi ∧ j ∈ assocGet d (nthTok a i)
    · rw [if_pos hg] at hpos ⊢
      have hmatch : nthTok a i = nthTok b j := ((hd (nthTok a i) j).mp hg.2.2.2).2.symm
      by_cases hc : alo < i ∧ blo < j
      · rw [dif_pos hc] at hpos ⊢
        by_cases hz : 1 ≤ sfun a d alo blo bhi (i - 1) (j - 1)
        · have hprev := ihs (i - 1) (by omega) (j - 1) (by omega) hz
          have hpb := sfun_le a d alo blo bhi (i - 1) (j - 1) hz
          obtain ⟨r1, r2, r3, r4, r5⟩ := hprev
          -- extend the previous run by the current matching position
          refine ⟨by omega, by omega, by omega, by omega, ?_⟩
          intro t ht
          by_cases htl : t < sfun a d alo blo bhi (i - 1) (j - 1)
          · have := r5 t htl
            rw [show i + 1 - (sfun a d alo blo bhi (i - 1) (j - 1) + 1) + t =
                i - 1 + 1 - sfun a d alo blo bhi (i - 1) (j - 1) + t from by omega,
              show j + 1 - (sfun a d alo blo bhi (i - 1) (j - 1) + 1) + t =
                j - 1 + 1 - sfun a d alo blo bhi (i - 1) (j - 1) + t from by omega]
            exact this
          · have htt : t = sfun a d alo blo bhi (i - 1) (j - 1) := by omega
            subst htt
            rw [show i + 1 - (sfun a d alo blo bhi (i - 1) (j - 1) + 1) +
                sfun a d alo blo bhi (i - 1) (j - 1) = i from by omega,
              show j + 1 - (sfun a d alo blo bhi (i - 1) (j - 1) + 1) +
                sfun a d alo blo bhi (i - 1) (j - 1) = j from by omega]
            exact hmatch
        · have hz0 : sfun a d alo blo bhi (i - 1) (j - 1) = 0 := by omega
          rw [hz0]
          refine ⟨by omega, by omega, by omega, by omega, ?_⟩
          intro t ht
          have htt : t = 0 := by omega
          subst htt
          rw [show i + 1 - (0 + 1) + 0 = i from by omega,
            show j + 1 - (0 + 1) + 0 = j from by omega]
          exact hmatch
      · rw [dif_neg hc] at hpos ⊢
        refine ⟨by omega, by omega, by omega, by omega, ?_⟩
        intro t ht
        have htt : t = 0 := by omega
        subst htt
        rw [show i + 1 - (0 + 1) + 0 = i from by omega,
          show j + 1 - (0 + 1) + 0 = j from by omega]
        exact hmatch
    · rw [if_neg hg] at hpos
      omega

/-- Completeness of the dict lookup turns runs into `sfun` lower bounds at
the run end. -/
theorem le_sfun_of_isRun {α : Type} [DecidableEq α] [Inhabited α] (a b : List α)
    (d : List (α × List ℕ)) (alo ahi blo bhi : ℕ)
    (hd : ∀ x j, j ∈ assocGet d x ↔ j < b.length ∧ nthTok b j = x)
    (hbb : bhi ≤ b.length) :
    ∀ (k i j : ℕ), 1 ≤ k → IsRun a b alo ahi blo bhi i j k →
    k ≤ sfun a d alo blo bhi (i + k - 1) (j + k - 1) := by
  intro k
  induction k with
  | zero => intro i j h _; omega
  | succ k ih =>
    intro i j _ hrun
    obtain ⟨r1, r2, r3, r4, r5⟩ := hrun
    have hend : nthTok a (i + k) = nthTok b (j + k) := r5 k (by omega)
    have hmem : (j + k) ∈ assocGet d (nthTok a (i + k)) := by
      rw [hd]
      exact ⟨by omega, hend.symm⟩
    cases hk0 : k with
    | zero =>
      subst hk0
      rw [show i + 1 - 1 = i from by omega, show j + 1 - 1 = j from by omega]
      rw [sfun]
      rw [if_pos ⟨by omega, by omega, by omega, by simpa using hmem⟩]
      by_cases hc : alo < i ∧ blo < j
      · rw [dif_pos hc]
        omega
      · rw [dif_neg hc]
    | succ k' =>
      subst hk0
      have hsub : IsRun a b alo ahi blo bhi i j (k' + 1) := by
        refine ⟨r1, by omega, r3, by omega, ?_⟩
        intro t ht
        exact r5 t (by omega)
      have hih := ih i j (by omega) hsub
      rw [show i + (k' + 1 + 1) - 1 = i + (k' + 1) from by omega,
        show j + (k' + 1 + 1) - 1 = j + (k' + 1) from by omega]
      rw [sfun]
      have hmem' : (j + (k' + 1)) ∈ assocGet d (nthTok a (i + (k' + 1))) := by
        have := hmem
        rwa [show i + (k' + 1) = i + (k' + 1) from rfl] at this
      rw [if_pos ⟨by omega, by omega, by omega, hmem'⟩]
      rw [dif_pos (by constructor <;> omega)]
      have heq1 : i + (k' + 1) - 1 = i + (k' + 1) - 1 := rfl
      have hih' : k' + 1 ≤ sfun a d alo blo bhi (i + (k' + 1) - 1) (j + (k' + 1) - 1) := by
        rw [show i + (k' + 1) - 1 = i + (k' + 1) - 1 from rfl]
        exact hih
      omega

/-! ## Candidate-stream membership and the lexicographically first maximum -/

theorem mem_candsD_iff {α : Type} [DecidableEq α] [Inhabited α] (a : List α)
    (d : List (α × List ℕ)) (alo ahi blo bhi : ℕ)
    (hsorted : ∀ x, List.Pairwise (· < ·) (assocGet d x)) (c : ℕ × ℕ × ℕ) :
    c ∈ candsD a d alo ahi blo bhi ↔
    ∃ i j, alo ≤ i ∧ i < ahi ∧ blo ≤ j ∧ j < bhi ∧ j ∈ assocGet d (nthTok a i) ∧
      c = (i, j, sfun a d alo blo bhi i j) := by
  rw [candsD]
  constructor
  · intro h
    obtain ⟨i, hi, hc⟩ := List.mem_flatMap.mp h
    rw [sorted_takeWhile_eq_filter bhi _ (hsorted _)] at hc
    obtain ⟨j, hj, hceq⟩ := List.mem_map.mp hc
    have hj2 := List.mem_filter.mp hj
    have hj3 := List.mem_filter.mp hj2.1
    have hrange := (mem_range'_iff i alo (ahi - alo)).mp hi
    exact ⟨i, j, by omega, by omega, by simpa using hj2.2, by simpa using hj3.2,
      hj3.1, hceq.symm⟩
  · rintro ⟨i, j, h1, h2, h3, h4, h5, rfl⟩
    apply List.mem_flatMap.mpr
    refine ⟨i, (mem_range'_iff i alo (ahi - alo)).mpr ⟨h1, by omega⟩, ?_⟩
    rw [sorted_takeWhile_eq_filter bhi _ (hsorted _)]
    apply List.mem_map.mpr
    exact ⟨j, List.mem_filter.mpr ⟨List.mem_filter.mpr ⟨h5, by simpa using h4⟩,
      by simpa using h3⟩, rfl⟩

theorem mem_candsS_iff {α : Type} [DecidableEq α] [Inhabited α] (a b : List α)
    (alo ahi blo bhi : ℕ) (c : ℕ × ℕ × ℕ) :
    c ∈ candsS a b alo ahi blo bhi ↔
    ∃ i j, alo ≤ i ∧ i < ahi ∧ blo ≤ j ∧ j < bhi ∧
      c = (i, j, runLen a b ahi bhi i j) := by
  rw [candsS]
  constructor
  · intro h
    obtain ⟨i, hi, hc⟩ := List.mem_flatMap.mp h
    obtain ⟨j, hj, hceq⟩ := List.mem_map.mp hc
    have hri := (mem_range'_iff i alo (ahi - alo)).mp hi
    have hrj := (mem_range'_iff j blo (bhi - blo)).mp hj
    exact ⟨i, j, by omega, by omega, by omega, by omega, hceq.symm⟩
  · rintro ⟨i, j, h1, h2, h3, h4, rfl⟩
    apply List.mem_flatMap.mpr
    refine ⟨i, (mem_range'_iff i alo (ahi - alo)).mpr ⟨h1, by omega⟩, ?_⟩
    apply List.mem_map.mpr
    exact ⟨j, (mem_range'_iff j blo (bhi - blo)).mpr ⟨h3, by omega⟩, rfl⟩

/-- Among the elements of a finite candidate list satisfying `P` there is
a lexicographically least one. -/
theorem exists_candLT_min (P : (ℕ × ℕ × ℕ) → Prop) :
    ∀ (L : List (ℕ × ℕ × ℕ)), (∃ c ∈ L, P c) →
    ∃ c ∈ L, P c ∧ ∀ c' ∈ L, P c' → c.1 < c'.1 ∨ (c.1 = c'.1 ∧ c.2.1 ≤ c'.2.1) := by
  intro L
  induction L with
  | nil => intro ⟨c, hc, _⟩; exact absurd hc (List.not_mem_nil c)
  | cons x L ih =>
    intro ⟨c, hc, hPc⟩
    by_cases hPx : P x
    · by_cases hex : ∃ c ∈ L, P c
      · obtain ⟨m, hm, hPm, hmin⟩ := ih hex
        by_cases hcmp : x.1 < m.1 ∨ (x.1 = m.1 ∧ x.2.1 ≤ m.2.1)
        · refine ⟨x, List.mem_cons_self _ _, hPx, ?_⟩
          intro c' hc' hPc'
          rcases List.mem_cons.mp hc' with rfl | h
          · right; omega
          · have := hmin c' h hPc'
            rcases hcmp with h1 | ⟨h1, h2⟩ <;> rcases this with h3 | ⟨h3, h4⟩ <;> omega
        · refine ⟨m, List.mem_cons_of_mem _ hm, hPm, ?_⟩
          intro c' hc' hPc'
          rcases List.mem_cons.mp hc' with rfl | h
          · omega
          · exact hmin c' h hPc'
      · refine ⟨x, List.mem_cons_self _ _, hPx, ?_⟩
        intro c' hc' hPc'
        rcases List.mem_cons.mp hc' with rfl | h
        · right; omega
        · exact absurd ⟨c', h, hPc'⟩ hex
    · have hcL : c ∈ L := by
        rcases List.mem_cons.mp hc with rfl | h
        · exact absurd hPc hPx
        · exact h
      obtain ⟨m, hm, hPm, hmin⟩ := ih ⟨c, hcL, hPc⟩
      refine ⟨m, List.mem_cons_of_mem _ hm, hPm, ?_⟩
      intro c' hc' hPc'
      rcases List.mem_cons.mp hc' with rfl | h
      · exact absurd hPc' hPx
      · exact hmin c' h hPc'

theorem extendBackLoop_noop {α : Type} [DecidableEq α] [Inhabited α] (a b : List α)
    (alo blo : ℕ) (fuel : ℕ) (best : FBest)
    (h : ¬(alo < best.i ∧ blo < best.j ∧
      nthTok a (best.i - 1) = nthTok b (best.j - 1))) :
    extendBackLoop a b alo blo fuel best = best := by
  cases fuel with
  | zero => rfl
  | succ fuel => rw [extendBackLoop, if_neg h]

theorem extendFwdLoop_noop {α : Type} [DecidableEq α] [Inhabited α] (a b : List α)
    (ahi bhi : ℕ) (fuel : ℕ) (best : FBest)
    (h : ¬(best.i + best.size < ahi ∧ best.j + best.size < bhi ∧
      nthTok a (best.i + best.size) = nthTok b (best.j + best.size))) :
    extendFwdLoop a b ahi bhi fuel best = best := by
  cases fuel with
  | zero => rfl
  | succ fuel => rw [extendFwdLoop, if_neg h]

/-! ## `find_longest_match` equals the spec search when the dict is complete -/

theorem findLM_spec {α : Type} [DecidableEq α] [Inhabited α] (a b : List α)
    (alo ahi blo bhi : ℕ) (hb : b.length < 200) (hwin : blo ≤ bhi)
    (hbb : bhi ≤ b.length) :
    findLongestMatch a b (chainB b) alo ahi blo bhi = specFind a b alo ahi blo bhi ∧
    (specFind a b alo ahi blo bhi).size = maxVal (candsS a b alo ahi blo bhi) ∧
    (1 ≤ (specFind a b alo ahi blo bhi).size →
      IsRun a b alo ahi blo bhi (specFind a b alo ahi blo bhi).i
        (specFind a b alo ahi blo bhi).j (specFind a b alo ahi blo bhi).size) := by
  have hd : ∀ x j, j ∈ assocGet (chainB b) x ↔ j < b.length ∧ nthTok b j = x :=
    mem_assocGet_chainB_complete b hb
  have hsorted : ∀ x, List.Pairwise (· < ·) (assocGet (chainB b) x) :=
    fun x => pairwise_assocGet_chainB b x
  have bridgeDS : ∀ c ∈ candsD a (chainB b) alo ahi blo bhi,
      c.2.2 ≤ maxVal (candsS a b alo ahi blo bhi) := by
    intro c hc
    obtain ⟨i, j, h1, h2, h3, h4, h5, hceq⟩ :=
      (mem_candsD_iff a (chainB b) alo ahi blo bhi hsorted c).mp hc
    subst hceq
    show sfun a (chainB b) alo blo bhi i j ≤ maxVal (candsS a b alo ahi blo bhi)
    by_cases hz : 1 ≤ sfun a (chainB b) alo blo bhi i j
    · have hrun := sfun_isRun a b (chainB b) alo ahi blo bhi hd i j h2 hz
      have hrl := le_runLen_of_isRun a b alo ahi blo bhi _ _ _ hrun
      have hmem : (i + 1 - sfun a (chainB b) alo blo bhi i j,
          j + 1 - sfun a (chainB b) alo blo bhi i j,
          runLen a b ahi bhi (i + 1 - sfun a (chainB b) alo blo bhi i j)
            (j + 1 - sfun a (chainB b) alo blo bhi i j)) ∈
          candsS a b alo ahi blo bhi :=
        (mem_candsS_iff a b alo ahi blo bhi _).mpr
          ⟨_, _, hrun.1, by omega, hrun.2.2.1, by omega, rfl⟩
      have hle : runLen a b ahi bhi (i + 1 - sfun a (chainB b) alo blo bhi i j)
          (j + 1 - sfun a (chainB b) alo blo bhi i j) ≤
          maxVal (candsS a b alo ahi blo bhi) := le_maxVal _ _ hmem
      omega
    · omega
  have bridgeSD : ∀ c ∈ candsS a b alo ahi blo bhi,
      c.2.2 ≤ maxVal (candsD a (chainB b) alo ahi blo bhi) := by
    intro c hc
    obtain ⟨i, j, h1, h2, h3, h4, hceq⟩ :=
      (mem_candsS_iff a b alo ahi blo bhi c).mp hc
    subst hceq
    show runLen a b ahi bhi i j ≤ maxVal (candsD a (chainB b) alo ahi blo bhi)
    by_cases hz : 1 ≤ runLen a b ahi bhi i j
    · have hrun : IsRun a b alo ahi blo bhi i j (runLen a b ahi bhi i j) := by
        rw [runLen]
        exact runLen_isRun a b alo ahi blo bhi (ahi - i) i j h1 h3
          (by omega) (by omega) le_rfl
      have hsf := le_sfun_of_isRun a b (chainB b) alo ahi blo bhi hd hbb
        (runLen a b ahi bhi i j) i j hz hrun
      have hr2 := hrun.2.1
      have hr4 := hrun.2.2.2.1
      have hendmem : (i + runLen a b ahi bhi i j - 1, j + runLen a b ahi bhi i j - 1,
          sfun a (chainB b) alo blo bhi (i + runLen a b ahi bhi i j - 1)
            (j + runLen a b ahi bhi i j - 1)) ∈
          candsD a (chainB b) alo ahi blo bhi := by
        apply (mem_candsD_iff a (chainB b) alo ahi blo bhi hsorted _).mpr
        refine ⟨i + runLen a b ahi bhi i j - 1, j + runLen a b ahi bhi i j - 1,
          by omega, by omega, by omega, by omega, ?_, rfl⟩
        rw [hd]
        constructor
        · omega
        · have hm := hrun.2.2.2.2 (runLen a b ahi bhi i j - 1) (by omega)
          rw [show i + (runLen a b ahi bhi i j - 1) =
              i + runLen a b ahi bhi i j - 1 from by omega,
            show j + (runLen a b ahi bhi i j - 1) =
              j + runLen a b ahi bhi i j - 1 from by omega] at hm
          exact hm.symm
      have hle : sfun a (chainB b) alo blo bhi (i + runLen a b ahi bhi i j - 1)
          (j + runLen a b ahi bhi i j - 1) ≤
          maxVal (candsD a (chainB b) alo ahi blo bhi) := le_maxVal _ _ hendmem
      omega
    · omega
  have hMeq : maxVal (candsD a (chainB b) alo ahi blo bhi) =
      maxVal (candsS a b alo ahi blo bhi) := by
    apply le_antisymm
    · rcases maxVal_attained (candsD a (chainB b) alo ahi blo bhi) with h0 | ⟨c, hc, hv⟩
      · omega
      · have := bridgeDS c hc
        omega
    · rcases maxVal_attained (candsS a b alo ahi blo bhi) with h0 | ⟨c, hc, hv⟩
      · omega
      · have := bridgeSD c hc
        omega
  have hsortD : List.Pairwise CandLT (candsD a (chainB b) alo ahi blo bhi) := by
    rw [candsD]
    apply pairwise_candLT_flatMap
    · exact List.pairwise_lt_range' alo (ahi - alo)
    · intro i c hc
      obtain ⟨j, _, hceq⟩ := List.mem_map.mp hc
      subst hceq
      rfl
    · intro i
      apply List.pairwise_map.mpr
      have hsub : List.Sublist
          (((assocGet (chainB b) (nthTok a i)).takeWhile
            (fun j => decide (j < bhi))).filter (fun j => decide (blo ≤ j)))
          (assocGet (chainB b) (nthTok a i)) :=
        (List.filter_sublist _).trans (List.takeWhile_sublist _)
      exact (List.Pairwise.sublist hsub (hsorted (nthTok a i))).imp (fun h => h)
  have hsortS : List.Pairwise CandLT (candsS a b alo ahi blo bhi) := by
    rw [candsS]
    apply pairwise_candLT_flatMap
    · exact List.pairwise_lt_range' alo (ahi - alo)
    · intro i c hc
      obtain ⟨j, _, hceq⟩ := List.mem_map.mp hc
      subst hceq
      rfl
    · intro i
      apply List.pairwise_map.mpr
      exact (List.pairwise_lt_range' blo (bhi - blo)).imp (fun h => h)
  have hcore : fOuter a (chainB b) blo bhi (List.range' alo (ahi - alo)) (fun _ => 0)
      ⟨alo, blo, 0⟩ =
      scanB mkEnd (candsD a (chainB b) alo ahi blo bhi) ⟨alo, blo, 0⟩ := by
    rw [candsD]
    exact fOuter_eq a (chainB b) alo blo bhi hwin hsorted (ahi - alo) alo
      (fun _ => 0) ⟨alo, blo, 0⟩ le_rfl (fun j => by rw [if_neg (lt_irrefl alo)])
  have hspecdef : specFind a b alo ahi blo bhi =
      scanB mkStart (candsS a b alo ahi blo bhi) ⟨alo, blo, 0⟩ := scanGo_eq _ _
  by_cases hK0 : maxVal (candsS a b alo ahi blo bhi) = 0
  · -- no nonempty run anywhere: both scans keep the initial best
    have hzeroS : scanB mkStart (candsS a b alo ahi blo bhi) ⟨alo, blo, 0⟩ =
        ⟨alo, blo, 0⟩ := by
      apply scanB_all_le
      intro c hc
      have h1 := le_maxVal _ _ hc
      rw [fbest_size]
      omega
    have hzeroD : scanB mkEnd (candsD a (chainB b) alo ahi blo bhi) ⟨alo, blo, 0⟩ =
        ⟨alo, blo, 0⟩ := by
      apply scanB_all_le
      intro c hc
      have h1 := bridgeDS c hc
      rw [fbest_size]
      omega
    have hbz : extendBack a b alo blo ⟨alo, blo, 0⟩ = ⟨alo, blo, 0⟩ := by
      rw [extendBack]
      apply extendBackLoop_noop
      rintro ⟨g1, -, -⟩
      rw [fbest_i] at g1
      omega
    have hfz : extendFwd a b ahi bhi ⟨alo, blo, 0⟩ = ⟨alo, blo, 0⟩ := by
      rw [extendFwd]
      apply extendFwdLoop_noop
      rintro ⟨g1, g2, g3⟩
      rw [fbest_i, fbest_size] at g1
      rw [fbest_j, fbest_size] at g2
      rw [fbest_i, fbest_j, fbest_size] at g3
      have hrun : IsRun a b alo ahi blo bhi alo blo 1 := by
        refine ⟨le_rfl, by omega, le_rfl, by omega, ?_⟩
        intro t ht
        have htt : t = 0 := by omega
        subst htt
        exact g3
      have h1 := le_runLen_of_isRun a b alo ahi blo bhi 1 alo blo hrun
      have hmem : (alo, blo, runLen a b ahi bhi alo blo) ∈ candsS a b alo ahi blo bhi :=
        (mem_candsS_iff a b alo ahi blo bhi _).mpr
          ⟨alo, blo, le_rfl, by omega, le_rfl, by omega, rfl⟩
      have h2 : runLen a b ahi bhi alo blo ≤ maxVal (candsS a b alo ahi blo bhi) :=
        le_maxVal _ _ hmem
      omega
    refine ⟨?_, ?_, ?_⟩
    · rw [findLongestMatch, hcore, hzeroD, hbz, hfz, hspecdef, hzeroS]
    · rw [hspecdef, hzeroS, fbest_size]
      omega
    · intro hpos
      rw [hspecdef, hzeroS, fbest_size] at hpos
      omega
  · -- there is a best run of positive length
    have hKpos : 1 ≤ maxVal (candsS a b alo ahi blo bhi) := by omega
    have hex : ∃ c ∈ candsS a b alo ahi blo bhi,
        (fun c => c.2.2 = maxVal (candsS a b alo ahi blo bhi)) c := by
      rcases maxVal_attained (candsS a b alo ahi blo bhi) with h0 | ⟨c, hc, hv⟩
      · exact absurd h0 hK0
      · exact ⟨c, hc, hv⟩
    obtain ⟨cS, hcSmem, hcSval, hcSmin⟩ := exists_candLT_min _ _ hex
    have hcSv : cS.2.2 = maxVal (candsS a b alo ahi blo bhi) := hcSval
    obtain ⟨iS, jS, hS1, hS2, hS3, hS4, hcSeq⟩ :=
      (mem_candsS_iff a b alo ahi blo bhi cS).mp hcSmem
    have hKrl : runLen a b ahi bhi iS jS = maxVal (candsS a b alo ahi blo bhi) := by
      rw [hcSeq] at hcSv
      exact hcSv
    have hrunS : IsRun a b alo ahi blo bhi iS jS
        (maxVal (candsS a b alo ahi blo bhi)) := by
      rw [← hKrl, runLen]
      exact runLen_isRun a b alo ahi blo bhi (ahi - iS) iS jS hS1 hS3
        (by omega) (by omega) le_rfl
    have hmaxS : ∀ c ∈ candsS a b alo ahi blo bhi, c.2.2 ≤ cS.2.2 := by
      intro c hc
      have := le_maxVal _ _ hc
      omega
    have hminS : ∀ c ∈ candsS a b alo ahi blo bhi, c.2.2 = cS.2.2 →
        cS.1 < c.1 ∨ (cS.1 = c.1 ∧ cS.2.1 ≤ c.2.1) := by
      intro c hc hv
      exact hcSmin c hc (by show c.2.2 = maxVal (candsS a b alo ahi blo bhi); omega)
    have hspec : specFind a b alo ahi blo bhi =
        ⟨iS, jS, maxVal (candsS a b alo ahi blo bhi)⟩ := by
      rw [hspecdef]
      rw [scanB_lex mkStart (fun i j k => rfl) _ hsortS cS hcSmem hmaxS hminS
        ⟨alo, blo, 0⟩ (by rw [fbest_size]; omega)]
      rw [hcSeq]
      show FBest.mk iS jS (runLen a b ahi bhi iS jS) = _
      rw [hKrl]
    have hr2 := hrunS.2.1
    have hr4 := hrunS.2.2.2.1
    have hcDmem : (iS + maxVal (candsS a b alo ahi blo bhi) - 1,
        jS + maxVal (candsS a b alo ahi blo bhi) - 1,
        sfun a (chainB b) alo blo bhi
          (iS + maxVal (candsS a b alo ahi blo bhi) - 1)
          (jS + maxVal (candsS a b alo ahi blo bhi) - 1)) ∈
        candsD a (chainB b) alo ahi blo bhi := by
      apply (mem_candsD_iff a (chainB b) alo ahi blo bhi hsorted _).mpr
      refine ⟨iS + maxVal (candsS a b alo ahi blo bhi) - 1,
        jS + maxVal (candsS a b alo ahi blo bhi) - 1,
        by omega, by omega, by omega, by omega, ?_, rfl⟩
      rw [hd]
      constructor
      · omega
      · have hm := hrunS.2.2.2.2 (maxVal (candsS a b alo ahi blo bhi) - 1) (by omega)
        rw [show iS + (maxVal (candsS a b alo ahi blo bhi) - 1) =
            iS + maxVal (candsS a b alo ahi blo bhi) - 1 from by omega,
          show jS + (maxVal (candsS a b alo ahi blo bhi) - 1) =
            jS + maxVal (candsS a b alo ahi blo bhi) - 1 from by omega] at hm
        exact hm.symm
    have hsfK : sfun a (chainB b) alo blo bhi
        (iS + maxVal (candsS a b alo ahi blo bhi) - 1)
        (jS + maxVal (candsS a b alo ahi blo bhi) - 1) =
        maxVal (candsS a b alo ahi blo bhi) := by
      apply le_antisymm
      · have h1 := bridgeDS _ hcDmem
        exact h1
      · exact le_sfun_of_isRun a b (chainB b) alo ahi blo bhi hd hbb
          (maxVal (candsS a b alo ahi blo bhi)) iS jS hKpos hrunS
    have hcDmem' : (iS + maxVal (candsS a b alo ahi blo bhi) - 1,
        jS + maxVal (candsS a b alo ahi blo bhi) - 1,
        maxVal (candsS a b alo ahi blo bhi)) ∈
        candsD a (chainB b) alo ahi blo bhi := by
      have h1 := hcDmem
      rw [hsfK] at h1
      exact h1
    have hminD : ∀ c ∈ candsD a (chainB b) alo ahi blo bhi,
        c.2.2 = maxVal (candsS a b alo ahi blo bhi) →
        iS + maxVal (candsS a b alo ahi blo bhi) - 1 < c.1 ∨
          (iS + maxVal (candsS a b alo ahi blo bhi) - 1 = c.1 ∧
            jS + maxVal (candsS a b alo ahi blo bhi) - 1 ≤ c.2.1) := by
      intro c hc hcv
      obtain ⟨i, j, h1, h2, h3, h4, h5, hceq⟩ :=
        (mem_candsD_iff a (chainB b) alo ahi blo bhi hsorted c).mp hc
      subst hceq
      have hv : sfun a (chainB b) alo blo bhi i j =
          maxVal (candsS a b alo ahi blo bhi) := hcv
      have hz : 1 ≤ sfun a (chainB b) alo blo bhi i j := by omega
      have hrun := sfun_isRun a b (chainB b) alo ahi blo bhi hd i j h2 hz
      rw [hv] at hrun
      have hbnds := sfun_le a (chainB b) alo blo bhi i j hz
      rw [hv] at hbnds
      have hrl_ge := le_runLen_of_isRun a b alo ahi blo bhi _ _ _ hrun
      have hsmem : (i + 1 - maxVal (candsS a b alo ahi blo bhi),
          j + 1 - maxVal (candsS a b alo ahi blo bhi),
          runLen a b ahi bhi (i + 1 - maxVal (candsS a b alo ahi blo bhi))
            (j + 1 - maxVal (candsS a b alo ahi blo bhi))) ∈
          candsS a b alo ahi blo bhi :=
        (mem_candsS_iff a b alo ahi blo bhi _).mpr
          ⟨_, _, hrun.1, by omega, hrun.2.2.1, by omega, rfl⟩
      have hrl_le : runLen a b ahi bhi (i + 1 - maxVal (candsS a b alo ahi blo bhi))
          (j + 1 - maxVal (candsS a b alo ahi blo bhi)) ≤
          maxVal (candsS a b alo ahi blo bhi) := le_maxVal _ _ hsmem
      have hPrl : runLen a b ahi bhi (i + 1 - maxVal (candsS a b alo ahi blo bhi))
          (j + 1 - maxVal (candsS a b alo ahi blo bhi)) =
          maxVal (candsS a b alo ahi blo bhi) := by omega
      have hmin := hcSmin _ hsmem hPrl
      have hmin' : iS < i + 1 - maxVal (candsS a b alo ahi blo bhi) ∨
          (iS = i + 1 - maxVal (candsS a b alo ahi blo bhi) ∧
            jS ≤ j + 1 - maxVal (candsS a b alo ahi blo bhi)) := by
        rw [hcSeq] at hmin
        exact hmin
      show iS + maxVal (candsS a b alo ahi blo bhi) - 1 < i ∨
        (iS + maxVal (candsS a b alo ahi blo bhi) - 1 = i ∧
          jS + maxVal (candsS a b alo ahi blo bhi) - 1 ≤ j)
      omega
    have hcoreval : scanB mkEnd (candsD a (chainB b) alo ahi blo bhi) ⟨alo, blo, 0⟩ =
        ⟨iS, jS, maxVal (candsS a b alo ahi blo bhi)⟩ := by
      have hb0D : (FBest.mk alo blo 0).size <
          (iS + maxVal (candsS a b alo ahi blo bhi) - 1,
            jS + maxVal (candsS a b alo ahi blo bhi) - 1,
            maxVal (candsS a b alo ahi blo bhi)).2.2 := by
        rw [fbest_size]
        show 0 < maxVal (candsS a b alo ahi blo bhi)
        omega
      rw [scanB_lex mkEnd (fun i j k => rfl) _ hsortD
        (iS + maxVal (candsS a b alo ahi blo bhi) - 1,
          jS + maxVal (candsS a b alo ahi blo bhi) - 1,
          maxVal (candsS a b alo ahi blo bhi)) hcDmem' bridgeDS hminD
        ⟨alo, blo, 0⟩ hb0D]
      show FBest.mk (iS + maxVal (candsS a b alo ahi blo bhi) - 1 + 1 -
          maxVal (candsS a b alo ahi blo bhi))
        (jS + maxVal (candsS a b alo ahi blo bhi) - 1 + 1 -
          maxVal (candsS a b alo ahi blo bhi))
        (maxVal (candsS a b alo ahi blo bhi)) = _
      rw [show iS + maxVal (candsS a b alo ahi blo bhi) - 1 + 1 -
          maxVal (candsS a b alo ahi blo bhi) = iS from by omega,
        show jS + maxVal (candsS a b alo ahi blo bhi) - 1 + 1 -
          maxVal (candsS a b alo ahi blo bhi) = jS from by omega]
    have hback : extendBack a b alo blo ⟨iS, jS, maxVal (candsS a b alo ahi blo bhi)⟩ =
        ⟨iS, jS, maxVal (candsS a b alo ahi blo bhi)⟩ := by
      rw [extendBack]
      apply extendBackLoop_noop
      rintro ⟨g1, g2, g3⟩
      rw [fbest_i] at g1
      rw [fbest_j] at g2
      rw [fbest_i, fbest_j] at g3
      have hrun' : IsRun a b alo ahi blo bhi (iS - 1) (jS - 1)
          (maxVal (candsS a b alo ahi blo bhi) + 1) := by
        obtain ⟨r1, r2, r3, r4, r5⟩ := hrunS
        refine ⟨by omega, by omega, by omega, by omega, ?_⟩
        intro t ht
        cases t with
        | zero =>
          rw [Nat.add_zero, Nat.add_zero]
          exact g3
        | succ t =>
          have := r5 t (by omega)
          rw [show iS - 1 + (t + 1) = iS + t from by omega,
            show jS - 1 + (t + 1) = jS + t from by omega]
          exact this
      have h1 := le_runLen_of_isRun a b alo ahi blo bhi _ _ _ hrun'
      have hsmem : (iS - 1, jS - 1, runLen a b ahi bhi (iS - 1) (jS - 1)) ∈
          candsS a b alo ahi blo bhi :=
        (mem_candsS_iff a b alo ahi blo bhi _).mpr
          ⟨_, _, by omega, by omega, by omega, by omega, rfl⟩
      have h2 : runLen a b ahi bhi (iS - 1) (jS - 1) ≤
          maxVal (candsS a b alo ahi blo bhi) := le_maxVal _ _ hsmem
      omega
    have hfwd : extendFwd a b ahi bhi ⟨iS, jS, maxVal (candsS a b alo ahi blo bhi)⟩ =
        ⟨iS, jS, maxVal (candsS a b alo ahi blo bhi)⟩ := by
      rw [extendFwd]
      apply extendFwdLoop_noop
      rintro ⟨g1, g2, g3⟩
      rw [fbest_i, fbest_size] at g1
      rw [fbest_j, fbest_size] at g2
      rw [fbest_i, fbest_j, fbest_size] at g3
      have hrun' : IsRun a b alo ahi blo bhi iS jS
          (maxVal (candsS a b alo ahi blo bhi) + 1) := by
        obtain ⟨r1, r2, r3, r4, r5⟩ := hrunS
        refine ⟨r1, by omega, r3, by omega, ?_⟩
        intro t ht
        by_cases htl : t < maxVal (candsS a b alo ahi blo bhi)
        · exact r5 t htl
        · have htt : t = maxVal (candsS a b alo ahi blo bhi) := by omega
          subst htt
          exact g3
      have h1 := le_runLen_of_isRun a b alo ahi blo bhi _ _ _ hrun'
      omega
    refine ⟨?_, ?_, ?_⟩
    · rw [findLongestMatch, hcore, hcoreval, hback, hfwd, hspec]
    · rw [hspec, fbest_size]
    · intro hpos
      rw [hspec]
      rw [fbest_i, fbest_j, fbest_size]
      exact hrunS

/-! ## Block recursion: difflib = spec, and non-adjacency of the blocks -/

theorem blocks_eq {α : Type} [DecidableEq α] [Inhabited α] (a b : List α)
    (hb : b.length < 200) : ∀ (fuel alo ahi blo bhi : ℕ), blo ≤ bhi →
    bhi ≤ b.length →
    mbRecFuel a b (chainB b) fuel alo ahi blo bhi =
      specBlocksFuel a b fuel alo ahi blo bhi := by
  intro fuel
  induction fuel with
  | zero => intro alo ahi blo bhi _ _; rfl
  | succ fuel ih =>
    intro alo ahi blo bhi hwin hbb
    obtain ⟨heq, hsz, hrun⟩ := findLM_spec a b alo ahi blo bhi hb hwin hbb
    simp only [mbRecFuel, specBlocksFuel, heq]
    by_cases h0 : (specFind a b alo ahi blo bhi).size = 0
    · rw [if_pos h0, if_pos h0]
    · rw [if_neg h0, if_neg h0]
      have hb1 := findLongestMatch_pos_bounds a b (chainB b) alo ahi blo bhi
        (by rw [heq]; exact h0)
      rw [heq] at hb1
      obtain ⟨p1, p2, p3, p4, p5⟩ := hb1
      congr 1
      · exact ih alo (specFind a b alo ahi blo bhi).i blo
          (specFind a b alo ahi blo bhi).j p3 (by omega)
      · congr 1
        exact ih ((specFind a b alo ahi blo bhi).i + (specFind a b alo ahi blo bhi).size)
          ahi ((specFind a b alo ahi blo bhi).j + (specFind a b alo ahi blo bhi).size)
          bhi p5 hbb

theorem specBlocks_props {α : Type} [DecidableEq α] [Inhabited α] (a b : List α)
    (hb : b.length < 200) : ∀ (fuel alo ahi blo bhi : ℕ), blo ≤ bhi →
    bhi ≤ b.length →
    ∀ X ∈ specBlocksFuel a b fuel alo ahi blo bhi,
    1 ≤ X.size ∧ alo ≤ X.bi ∧ X.bi + X.size ≤ ahi ∧ blo ≤ X.bj ∧
      X.bj + X.size ≤ bhi ∧
      ∀ t, t < X.size → nthTok a (X.bi + t) = nthTok b (X.bj + t) := by
  intro fuel
  induction fuel with
  | zero =>
    intro alo ahi blo bhi _ _ X hX
    exact absurd hX (List.not_mem_nil X)
  | succ fuel ih =>
    intro alo ahi blo bhi hwin hbb X hX
    obtain ⟨heq, hsz, hrun⟩ := findLM_spec a b alo ahi blo bhi hb hwin hbb
    simp only [specBlocksFuel] at hX
    by_cases h0 : (specFind a b alo ahi blo bhi).size = 0
    · rw [if_pos h0] at hX
      exact absurd hX (List.not_mem_nil X)
    · rw [if_neg h0] at hX
      have hb1 := findLongestMatch_pos_bounds a b (chainB b) alo ahi blo bhi
        (by rw [heq]; exact h0)
      rw [heq] at hb1
      obtain ⟨p1, p2, p3, p4, p5⟩ := hb1
      have hmr := hrun p1
      rcases List.mem_append.mp hX with hL | hmid
      · have hprops := ih alo (specFind a b alo ahi blo bhi).i blo
          (specFind a b alo ahi blo bhi).j p3 (by omega) X hL
        obtain ⟨q1, q2, q3, q4, q5, q6⟩ := hprops
        exact ⟨q1, q2, by omega, q4, by omega, q6⟩
      · rcases List.mem_cons.mp hmid with rfl | hR
        · obtain ⟨r1, r2, r3, r4, r5⟩ := hmr
          refine ⟨?_, ?_, ?_, ?_, ?_, ?_⟩
          · rw [block_size]; omega
          · rw [block_bi]; exact r1
          · rw [block_bi, block_size]; exact r2
          · rw [block_bj]; exact r3
          · rw [block_bj, block_size]; exact r4
          · rw [block_bi, block_bj, block_size]; exact r5
        · have hprops := ih ((specFind a b alo ahi blo bhi).i +
              (specFind a b alo ahi blo bhi).size) ahi
            ((specFind a b alo ahi blo bhi).j + (specFind a b alo ahi blo bhi).size)
            bhi p5 hbb X hR
          obtain ⟨q1, q2, q3, q4, q5, q6⟩ := hprops
          exact ⟨q1, by omega, q3, by omega, q5, q6⟩

theorem specBlocks_chain {α : Type} [DecidableEq α] [Inhabited α] (a b : List α)
    (hb : b.length < 200) : ∀ (fuel alo ahi blo bhi : ℕ), blo ≤ bhi →
    bhi ≤ b.length →
    List.Chain' (fun X Y => ¬(X.bi + X.size = Y.bi ∧ X.bj + X.size = Y.bj))
      (specBlocksFuel a b fuel alo ahi blo bhi) := by
  intro fuel
  induction fuel with
  | zero => intro alo ahi blo bhi _ _; exact List.chain'_nil
  | succ fuel ih =>
    intro alo ahi blo bhi hwin hbb
    obtain ⟨heq, hsz, hrun⟩ := findLM_spec a b alo ahi blo bhi hb hwin hbb
    simp only [specBlocksFuel]
    by_cases h0 : (specFind a b alo ahi blo bhi).size = 0
    · rw [if_pos h0]
      exact List.chain'_nil
    · rw [if_neg h0]
      have hb1 := findLongestMatch_pos_bounds a b (chainB b) alo ahi blo bhi
        (by rw [heq]; exact h0)
      rw [heq] at hb1
      obtain ⟨p1, p2, p3, p4, p5⟩ := hb1
      obtain ⟨r1, r2, r3, r4, r5⟩ := hrun p1
      apply List.chain'_append.mpr
      refine ⟨ih alo (specFind a b alo ahi blo bhi).i blo
        (specFind a b alo ahi blo bhi).j p3 (by omega), ?_, ?_⟩
      · -- the middle block is non-adjacent to the head of the right part
        apply List.chain'_cons'.mpr
        refine ⟨?_, ih ((specFind a b alo ahi blo bhi).i +
            (specFind a b alo ahi blo bhi).size) ahi
          ((specFind a b alo ahi blo bhi).j + (specFind a b alo ahi blo bhi).size)
          bhi p5 hbb⟩
        intro Y hY
        have hYmem := List.mem_of_mem_head? hY
        have hprops := specBlocks_props a b hb fuel
          ((specFind a b alo ahi blo bhi).i + (specFind a b alo ahi blo bhi).size) ahi
          ((specFind a b alo ahi blo bhi).j + (specFind a b alo ahi blo bhi).size)
          bhi p5 hbb Y hYmem
        obtain ⟨q1, q2, q3, q4, q5, q6⟩ := hprops
        rintro ⟨ha1, ha2⟩
        have hadj1 : (specFind a b alo ahi blo bhi).i +
            (specFind a b alo ahi blo bhi).size = Y.bi := ha1
        have hadj2 : (specFind a b alo ahi blo bhi).j +
            (specFind a b alo ahi blo bhi).size = Y.bj := ha2
        -- a run of length size+1 starting at the found block contradicts maximality
        have hrun' : IsRun a b alo ahi blo bhi (specFind a b alo ahi blo bhi).i
            (specFind a b alo ahi blo bhi).j
            ((specFind a b alo ahi blo bhi).size + 1) := by
          refine ⟨r1, by omega, r3, by omega, ?_⟩
          intro t ht
          by_cases htl : t < (specFind a b alo ahi blo bhi).size
          · exact r5 t htl
          · have htt : t = (specFind a b alo ahi blo bhi).size := by omega
            subst htt
            have := q6 0 (by omega)
            rw [Nat.add_zero, Nat.add_zero] at this
            rw [← hadj1, ← hadj2] at this
            exact this
        have h1 := le_runLen_of_isRun a b alo ahi blo bhi _ _ _ hrun'
        have hmem : ((specFind a b alo ahi blo bhi).i, (specFind a b alo ahi blo bhi).j,
            runLen a b ahi bhi (specFind a b alo ahi blo bhi).i
              (specFind a b alo ahi blo bhi).j) ∈ candsS a b alo ahi blo bhi :=
          (mem_candsS_iff a b alo ahi blo bhi _).mpr
            ⟨_, _, r1, by omega, r3, by omega, rfl⟩
        have h2 : runLen a b ahi bhi (specFind a b alo ahi blo bhi).i
            (specFind a b alo ahi blo bhi).j ≤ maxVal (candsS a b alo ahi blo bhi) :=
          le_maxVal _ _ hmem
        omega
      · -- the last block of the left part is non-adjacent to the middle block
        intro X hX Y hY
        have hXmem := List.mem_of_mem_getLast? hX
        have hYhead : Y = Block.mk (specFind a b alo ahi blo bhi).i
            (specFind a b alo ahi blo bhi).j (specFind a b alo ahi blo bhi).size := by
          rw [List.head?_cons] at hY
          exact (Option.mem_some_iff.mp hY).symm
        subst hYhead
        have hprops := specBlocks_props a b hb fuel alo (specFind a b alo ahi blo bhi).i
          blo (specFind a b alo ahi blo bhi).j p3 (by omega) X hXmem
        obtain ⟨q1, q2, q3, q4, q5, q6⟩ := hprops
        rintro ⟨ha1, ha2⟩
        have hadj1 : X.bi + X.size = (specFind a b alo ahi blo bhi).i := ha1
        have hadj2 : X.bj + X.size = (specFind a b alo ahi blo bhi).j := ha2
        -- extending the found block one step backwards contradicts maximality
        have hrun' : IsRun a b alo ahi blo bhi ((specFind a b alo ahi blo bhi).i - 1)
            ((specFind a b alo ahi blo bhi).j - 1)
            ((specFind a b alo ahi blo bhi).size + 1) := by
          refine ⟨by omega, by omega, by omega, by omega, ?_⟩
          intro t ht
          cases t with
          | zero =>
            have := q6 (X.size - 1) (by omega)
            rw [show X.bi + (X.size - 1) = (specFind a b alo ahi blo bhi).i - 1
                from by omega,
              show X.bj + (X.size - 1) = (specFind a b alo ahi blo bhi).j - 1
                from by omega] at this
            rw [Nat.add_zero, Nat.add_zero]
            exact this
          | succ t =>
            have := r5 t (by omega)
            rw [show (specFind a b alo ahi blo bhi).i - 1 + (t + 1) =
                (specFind a b alo ahi blo bhi).i + t from by omega,
              show (specFind a b alo ahi blo bhi).j - 1 + (t + 1) =
                (specFind a b alo ahi blo bhi).j + t from by omega]
            exact this
        have h1 := le_runLen_of_isRun a b alo ahi blo bhi _ _ _ hrun'
        have hmem : ((specFind a b alo ahi blo bhi).i - 1,
            (specFind a b alo ahi blo bhi).j - 1,
            runLen a b ahi bhi ((specFind a b alo ahi blo bhi).i - 1)
              ((specFind a b alo ahi blo bhi).j - 1)) ∈ candsS a b alo ahi blo bhi :=
          (mem_candsS_iff a b alo ahi blo bhi _).mpr
            ⟨_, _, by omega, by omega, by omega, by omega, rfl⟩
        have h2 : runLen a b ahi bhi ((specFind a b alo ahi blo bhi).i - 1)
            ((specFind a b alo ahi blo bhi).j - 1) ≤
            maxVal (candsS a b alo ahi blo bhi) := le_maxVal _ _ hmem
        omega

/-! ## The collapse loop is a no-op on non-adjacent positive blocks -/

theorem collapseLoop_shift : ∀ (L : List Block), (∀ X ∈ L, 1 ≤ X.size) →
    List.Chain' (fun X Y => ¬(X.bi + X.size = Y.bi ∧ X.bj + X.size = Y.bj)) L →
    ∀ (x : Block), 1 ≤ x.size →
    (∀ Y ∈ L.head?, ¬(x.bi + x.size = Y.bi ∧ x.bj + x.size = Y.bj)) →
    collapseLoop L x.bi x.bj x.size = x :: L := by
  intro L
  induction L with
  | nil =>
    intro _ _ x hx _
    obtain ⟨xi, xj, xk⟩ := x
    have hx' : 1 ≤ xk := hx
    rw [collapseLoop, if_neg (by omega)]
  | cons Y L ih =>
    intro hsz hch x hx hhead
    obtain ⟨xi, xj, xk⟩ := x
    have hx' : 1 ≤ xk := hx
    have hadj : ¬(xi + xk = Y.bi ∧ xj + xk = Y.bj) := hhead Y rfl
    obtain ⟨hch1, hch2⟩ := List.chain'_cons'.mp hch
    rw [collapseLoop, if_neg hadj, if_neg (by omega)]
    rw [ih (fun X hX => hsz X (List.mem_cons_of_mem _ hX)) hch2 Y
      (hsz Y (List.mem_cons_self _ _)) hch1]
    rfl

theorem collapse_from_zero (L : List Block) (hsz : ∀ X ∈ L, 1 ≤ X.size)
    (hch : List.Chain' (fun X Y => ¬(X.bi + X.size = Y.bi ∧ X.bj + X.size = Y.bj)) L) :
    collapseLoop L 0 0 0 = L := by
  cases L with
  | nil => rw [collapseLoop, if_pos rfl]
  | cons Y L =>
    obtain ⟨hch1, hch2⟩ := List.chain'_cons'.mp hch
    have hY1 : 1 ≤ Y.size := hsz Y (List.mem_cons_self _ _)
    have hL : ∀ X ∈ L, 1 ≤ X.size := fun X hX => hsz X (List.mem_cons_of_mem _ hX)
    have hrest : collapseLoop L Y.bi Y.bj Y.size = Y :: L :=
      collapseLoop_shift L hL hch2 Y hY1 hch1
    by_cases hadj : 0 + 0 = Y.bi ∧ 0 + 0 = Y.bj
    · rw [collapseLoop, if_pos hadj]
      have h1 : Y.bi = 0 := by omega
      have h2 : Y.bj = 0 := by omega
      calc collapseLoop L 0 0 (0 + Y.size)
          = collapseLoop L Y.bi Y.bj Y.size := by rw [h1, h2, Nat.zero_add]
        _ = Y :: L := hrest
    · rw [collapseLoop, if_neg hadj, if_pos rfl, List.nil_append]
      exact hrest

/-- Claim C2 (amended): for transcripts of fewer than 200 tokens, the
aligner's opcode decomposition (difflib's `get_opcodes`) equals the one
produced by the spec's explicit recursive block search — repeatedly pick
the longest contiguous equal run, ties to the lowest start in the target
then the lowest start in the transcript, recurse strictly before and
strictly after, and tag the gaps by which ranges are non-empty.  The
unrestricted claim is refuted by `claim_C2_counterexample`: from 200
transcript tokens on, difflib's autojunk heuristic drops popular tokens
from the index and the decompositions diverge. -/
theorem claim_C2_opcodes {α : Type} [DecidableEq α] [Inhabited α]
    (a b : List α) (hb : b.length < 200) :
    getOpcodes a b = specOpcodes a b := by
  rw [getOpcodes, specOpcodes, getMatchingBlocks]
  rw [blocks_eq a b hb (a.length + b.length + 1) 0 a.length 0 b.length
    (Nat.zero_le _) le_rfl]
  have hprops := specBlocks_props a b hb (a.length + b.length + 1) 0 a.length 0
    b.length (Nat.zero_le _) le_rfl
  have hchain := specBlocks_chain a b hb (a.length + b.length + 1) 0 a.length 0
    b.length (Nat.zero_le _) le_rfl
  rw [collapse_from_zero _ (fun X hX => (hprops X hX).1) hchain]

set_option maxRecDepth 100000 in
/-- Claim C2 counterexample: with a 200-token transcript the autojunk
purge removes the popular token from `b2j`, and the implementation's
opcodes differ from the spec's recursive block search on the same pair. -/
theorem claim_C2_counterexample :
    getOpcodes [1, 0] ((0 : ℕ) :: List.replicate 199 1) ≠
      specOpcodes [1, 0] ((0 : ℕ) :: List.replicate 199 1) := by decide

/-- Claim C2 witness: the amended equivalence evaluated at a concrete
short pair. -/
theorem claim_C2_witness :
    ([(0 : ℕ), 1] : List ℕ).length < 200 ∧
      getOpcodes [(1 : ℕ), 0] [0, 1] = specOpcodes [(1 : ℕ), 0] [0, 1] :=
  ⟨by decide, claim_C2_opcodes [1, 0] [0, 1] (by decide)⟩

/-! ## Identity alignment (claim C4) -/

theorem runLenFuel_le {α : Type} [DecidableEq α] [Inhabited α] (a b : List α)
    (ahi bhi : ℕ) : ∀ (fuel i j : ℕ), runLenFuel a b ahi bhi fuel i j ≤ fuel := by
  intro fuel
  induction fuel with
  | zero => intro i j; rw [runLenFuel]
  | succ fuel ih =>
    intro i j
    rw [runLenFuel]
    by_cases hg : i < ahi ∧ j < bhi ∧ nthTok a i = nthTok b j
    · rw [if_pos hg]
      have := ih (i + 1) (j + 1)
      omega
    · rw [if_neg hg]
      omega

theorem runLenFuel_diag {α : Type} [DecidableEq α] [Inhabited α] (a : List α)
    (n : ℕ) : ∀ (fuel i : ℕ), i + fuel ≤ n →
    runLenFuel a a n n fuel i i = fuel := by
  intro fuel
  induction fuel with
  | zero => intro i _; rw [runLenFuel]
  | succ fuel ih =>
    intro i hi
    rw [runLenFuel, if_pos ⟨by omega, by omega, rfl⟩, ih (i + 1) (by omega)]

theorem specFind_self {α : Type} [DecidableEq α] [Inhabited α] (a : List α)
    (h : 1 ≤ a.length) :
    specFind a a 0 a.length 0 a.length = ⟨0, 0, a.length⟩ := by
  have hspecdef : specFind a a 0 a.length 0 a.length =
      scanB mkStart (candsS a a 0 a.length 0 a.length) ⟨0, 0, 0⟩ := scanGo_eq _ _
  have hrl00 : runLen a a a.length a.length 0 0 = a.length := by
    rw [runLen, Nat.sub_zero]
    exact runLenFuel_diag a a.length a.length 0 (by omega)
  have hsortS : List.Pairwise CandLT (candsS a a 0 a.length 0 a.length) := by
    rw [candsS]
    apply pairwise_candLT_flatMap
    · exact List.pairwise_lt_range' 0 (a.length - 0)
    · intro i c hc
      obtain ⟨j, _, hceq⟩ := List.mem_map.mp hc
      subst hceq
      rfl
    · intro i
      apply List.pairwise_map.mpr
      exact (List.pairwise_lt_range' 0 (a.length - 0)).imp (fun h => h)
  have hmem : ((0 : ℕ), (0 : ℕ), runLen a a a.length a.length 0 0) ∈
      candsS a a 0 a.length 0 a.length :=
    (mem_candsS_iff a a 0 a.length 0 a.length _).mpr
      ⟨0, 0, le_rfl, by omega, le_rfl, by omega, rfl⟩
  have hmax : ∀ c ∈ candsS a a 0 a.length 0 a.length,
      c.2.2 ≤ ((0 : ℕ), (0 : ℕ), runLen a a a.length a.length 0 0).2.2 := by
    intro c hc
    obtain ⟨i, j, h1, h2, h3, h4, hceq⟩ :=
      (mem_candsS_iff a a 0 a.length 0 a.length c).mp hc
    subst hceq
    show runLen a a a.length a.length i j ≤ runLen a a a.length a.length 0 0
    have hle := runLenFuel_le a a a.length a.length (a.length - i) i j
    rw [runLen]
    omega
  have hmin : ∀ c ∈ candsS a a 0 a.length 0 a.length,
      c.2.2 = ((0 : ℕ), (0 : ℕ), runLen a a a.length a.length 0 0).2.2 →
      ((0 : ℕ), (0 : ℕ), runLen a a a.length a.length 0 0).1 < c.1 ∨
        (((0 : ℕ), (0 : ℕ), runLen a a a.length a.length 0 0).1 = c.1 ∧
          ((0 : ℕ), (0 : ℕ), runLen a a a.length a.length 0 0).2.1 ≤ c.2.1) := by
    intro c hc hv
    obtain ⟨i, j, h1, h2, h3, h4, hceq⟩ :=
      (mem_candsS_iff a a 0 a.length 0 a.length c).mp hc
    subst hceq
    have hv' : runLen a a a.length a.length i j =
        runLen a a a.length a.length 0 0 := hv
    rw [hrl00, runLen] at hv'
    have hle := runLenFuel_le a a a.length a.length (a.length - i) i j
    have hi0 : i = 0 := by omega
    have hrun : IsRun a a 0 a.length 0 a.length i j
        (runLenFuel a a a.length a.length (a.length - i) i j) :=
      runLen_isRun a a 0 a.length 0 a.length (a.length - i) i j h1 h3
        (by omega) (by omega) le_rfl
    have hj0 : j = 0 := by
      have := hrun.2.2.2.1
      omega
    show (0 : ℕ) < i ∨ ((0 : ℕ) = i ∧ (0 : ℕ) ≤ j)
    omega
  rw [hspecdef]
  rw [scanB_lex mkStart (fun i j k => rfl) _ hsortS _ hmem hmax hmin
    ⟨0, 0, 0⟩ (by rw [fbest_size]; show 0 < runLen a a a.length a.length 0 0; omega)]
  show FBest.mk 0 0 (runLen a a a.length a.length 0 0) = _
  rw [hrl00]

theorem specFind_empty {α : Type} [DecidableEq α] [Inhabited α] (a b : List α)
    (lo blo bhi : ℕ) : specFind a b lo lo blo bhi = ⟨lo, blo, 0⟩ := by
  rw [specFind, Nat.sub_self, List.range'_zero]
  rfl

theorem specBlocksFuel_empty {α : Type} [DecidableEq α] [Inhabited α] (a b : List α) :
    ∀ (fuel lo blo bhi : ℕ), specBlocksFuel a b fuel lo lo blo bhi = [] := by
  intro fuel lo blo bhi
  cases fuel with
  | zero => rfl
  | succ fuel =>
    simp only [specBlocksFuel, specFind_empty, fbest_size]
    rw [if_pos trivial]

theorem specBlocks_self {α : Type} [DecidableEq α] [Inhabited α] (a : List α)
    (h : 1 ≤ a.length) (fuel : ℕ) :
    specBlocksFuel a a (fuel + 1) 0 a.length 0 a.length =
      [Block.mk 0 0 a.length] := by
  simp only [specBlocksFuel, specFind_self a h, fbest_size, fbest_i, fbest_j]
  rw [if_neg (by omega)]
  rw [specBlocksFuel_empty, Nat.zero_add, specBlocksFuel_empty]
  rfl

/-! ## Totality (claim C9): the checked aligner never returns `none` -/

theorem get?_nthTok {α : Type} [Inhabited α] (l : List α) (i : ℕ) (h : i < l.length) :
    l.get? i = some (nthTok l i) := by
  rw [nthTok, List.getD_eq_getElem l default h, List.get?_eq_getElem?,
    List.getElem?_eq_getElem h]

theorem extendBackLoop_fuel {α : Type} [DecidableEq α] [Inhabited α] (a b : List α)
    (alo blo : ℕ) : ∀ (i0 f1 f2 : ℕ) (best : FBest), best.i ≤ i0 →
    i0 ≤ f1 → i0 ≤ f2 →
    extendBackLoop a b alo blo f1 best = extendBackLoop a b alo blo f2 best := by
  intro i0
  induction i0 with
  | zero =>
    intro f1 f2 best h0 _ _
    have hn : ¬(alo < best.i ∧ blo < best.j ∧
        nthTok a (best.i - 1) = nthTok b (best.j - 1)) := by
      rintro ⟨g1, -, -⟩
      omega
    rw [extendBackLoop_noop a b alo blo f1 best hn,
      extendBackLoop_noop a b alo blo f2 best hn]
  | succ i0 ih =>
    intro f1 f2 best hb h1 h2
    cases f1 with
    | zero => exact absurd h1 (by omega)
    | succ f1 =>
      cases f2 with
      | zero => exact absurd h2 (by omega)
      | succ f2 =>
        rw [extendBackLoop, extendBackLoop]
        by_cases hg : alo < best.i ∧ blo < best.j ∧
            nthTok a (best.i - 1) = nthTok b (best.j - 1)
        · rw [if_pos hg, if_pos hg]
          exact ih f1 f2 ⟨best.i - 1, best.j - 1, best.size + 1⟩
            (by rw [fbest_i]; omega) (by omega) (by omega)
        · rw [if_neg hg, if_neg hg]

theorem extendFwdLoop_fuel {α : Type} [DecidableEq α] [Inhabited α] (a b : List α)
    (ahi bhi : ℕ) : ∀ (i0 f1 f2 : ℕ) (best : FBest),
    ahi - (best.i + best.size) ≤ i0 → i0 ≤ f1 → i0 ≤ f2 →
    extendFwdLoop a b ahi bhi f1 best = extendFwdLoop a b ahi bhi f2 best := by
  intro i0
  induction i0 with
  | zero =>
    intro f1 f2 best h0 _ _
    have hn : ¬(best.i + best.size < ahi ∧ best.j + best.size < bhi ∧
        nthTok a (best.i + best.size) = nthTok b (best.j + best.size)) := by
      rintro ⟨g1, -, -⟩
      omega
    rw [extendFwdLoop_noop a b ahi bhi f1 best hn,
      extendFwdLoop_noop a b ahi bhi f2 best hn]
  | succ i0 ih =>
    intro f1 f2 best hb h1 h2
    cases f1 with
    | zero => exact absurd h1 (by omega)
    | succ f1 =>
      cases f2 with
      | zero => exact absurd h2 (by omega)
      | succ f2 =>
        rw [extendFwdLoop, extendFwdLoop]
        by_cases hg : best.i + best.size < ahi ∧ best.j + best.size < bhi ∧
            nthTok a (best.i + best.size) = nthTok b (best.j + best.size)
        · rw [if_pos hg, if_pos hg]
          refine ih f1 f2 ⟨best.i, best.j, best.size + 1⟩ ?_ (by omega) (by omega)
          rw [fbest_i, fbest_size]
          omega
        · rw [if_neg hg, if_neg hg]

theorem extendBackChecked_eq {α : Type} [DecidableEq α] [Inhabited α] (a b : List α)
    (alo blo : ℕ) : ∀ (n : ℕ) (best : FBest), best.i ≤ n →
    best.i ≤ a.length → best.j ≤ b.length →
    extendBackChecked a b alo blo best = some (extendBack a b alo blo best) := by
  intro n
  induction n with
  | zero =>
    intro best h0 ha hb
    rw [extendBackChecked, dif_neg (by rintro ⟨g1, -⟩; omega)]
    rw [extendBack, extendBackLoop_noop a b alo blo _ best
      (by rintro ⟨g1, -, -⟩; omega)]
  | succ n ih =>
    intro best hn ha hb
    rw [extendBackChecked]
    by_cases hg : alo < best.i ∧ blo < best.j
    · rw [dif_pos hg]
      rw [get?_nthTok a (best.i - 1) (by omega), get?_nthTok b (best.j - 1) (by omega)]
      show (if nthTok a (best.i - 1) = nthTok b (best.j - 1) then
          extendBackChecked a b alo blo ⟨best.i - 1, best.j - 1, best.size + 1⟩
        else some best) = some (extendBack a b alo blo best)
      by_cases hxy : nthTok a (best.i - 1) = nthTok b (best.j - 1)
      · rw [if_pos hxy]
        rw [ih ⟨best.i - 1, best.j - 1, best.size + 1⟩ (by rw [fbest_i]; omega)
          (by rw [fbest_i]; omega) (by rw [fbest_j]; omega)]
        congr 1
        rw [extendBack, extendBack, fbest_i]
        rw [extendBackLoop_fuel a b alo blo best.i best.i ((best.i - 1) + 1) best
          le_rfl le_rfl (by omega)]
        rw [extendBackLoop, if_pos ⟨hg.1, hg.2, hxy⟩]
      · rw [if_neg hxy]
        rw [extendBack, extendBackLoop_noop a b alo blo _ best
          (by rintro ⟨-, -, g3⟩; exact hxy g3)]
    · rw [dif_neg hg]
      rw [extendBack, extendBackLoop_noop a b alo blo _ best
        (by rintro ⟨g1, g2, -⟩; exact hg ⟨g1, g2⟩)]

theorem extendFwdChecked_eq {α : Type} [DecidableEq α] [Inhabited α] (a b : List α)
    (ahi bhi : ℕ) (ha : ahi ≤ a.length) (hbb : bhi ≤ b.length) :
    ∀ (n : ℕ) (best : FBest), ahi - (best.i + best.size) ≤ n →
    extendFwdChecked a b ahi bhi best = some (extendFwd a b ahi bhi best) := by
  intro n
  induction n with
  | zero =>
    intro best h0
    rw [extendFwdChecked, dif_neg (by rintro ⟨g1, -⟩; omega)]
    rw [extendFwd, extendFwdLoop_noop a b ahi bhi _ best
      (by rintro ⟨g1, -, -⟩; omega)]
  | succ n ih =>
    intro best hn
    rw [extendFwdChecked]
    by_cases hg : best.i + best.size < ahi ∧ best.j + best.size < bhi
    · rw [dif_pos hg]
      rw [get?_nthTok a (best.i + best.size) (by omega),
        get?_nthTok b (best.j + best.size) (by omega)]
      show (if nthTok a (best.i + best.size) = nthTok b (best.j + best.size) then
          extendFwdChecked a b ahi bhi ⟨best.i, best.j, best.size + 1⟩
        else some best) = some (extendFwd a b ahi bhi best)
      by_cases hxy : nthTok a (best.i + best.size) = nthTok b (best.j + best.size)
      · rw [if_pos hxy]
        rw [ih ⟨best.i, best.j, best.size + 1⟩
          (by rw [fbest_i, fbest_size]; omega)]
        congr 1
        rw [extendFwd, extendFwd, fbest_i, fbest_size]
        rw [extendFwdLoop_fuel a b ahi bhi (ahi - (best.i + best.size))
          (ahi - (best.i + best.size)) ((ahi - (best.i + best.size + 1)) + 1) best
          le_rfl le_rfl (by omega)]
        rw [extendFwdLoop, if_pos ⟨hg.1, hg.2, hxy⟩]
        rw [show best.i + (best.size + 1) = best.i + best.size + 1 from by omega]
      · rw [if_neg hxy]
        rw [extendFwd, extendFwdLoop_noop a b ahi bhi _ best
          (by rintro ⟨-, -, g3⟩; exact hxy g3)]
    · rw [dif_neg hg]
      rw [extendFwd, extendFwdLoop_noop a b ahi bhi _ best
        (by rintro ⟨g1, g2, -⟩; exact hg ⟨g1, g2⟩)]

theorem fOuterChecked_eq {α : Type} [DecidableEq α] [Inhabited α] (a : List α)
    (d : List (α × List ℕ)) (blo bhi : ℕ) : ∀ (is : List ℕ),
    (∀ i ∈ is, i < a.length) → ∀ (j2len : ℕ → ℕ) (best : FBest),
    fOuterChecked a d blo bhi is j2len best =
      some (fOuter a d blo bhi is j2len best) := by
  intro is
  induction is with
  | nil => intro _ j2len best; rfl
  | cons i is ih =>
    intro hall j2len best
    rw [fOuterChecked]
    rw [get?_nthTok a i (hall i (List.mem_cons_self _ _))]
    show fOuterChecked a d blo bhi is
        (fInner blo bhi i (assocGet d (nthTok a i)) j2len (fun _ => 0) best).1
        (fInner blo bhi i (assocGet d (nthTok a i)) j2len (fun _ => 0) best).2 =
      some (fOuter a d blo bhi (i :: is) j2len best)
    rw [ih (fun i' hi' => hall i' (List.mem_cons_of_mem _ hi'))]
    rfl

theorem some_bind_eq {β γ : Type} (x : β) (f : β → Option γ) :
    (some x >>= f) = f x := rfl

theorem findLMChecked_eq {α : Type} [DecidableEq α] [Inhabited α] (a b : List α)
    (d : List (α × List ℕ)) (alo ahi blo bhi : ℕ)
    (hwa : alo ≤ ahi) (hwb : blo ≤ bhi) (ha : ahi ≤ a.length) (hbb : bhi ≤ b.length) :
    findLongestMatchChecked a b d alo ahi blo bhi =
      some (findLongestMatch a b d alo ahi blo bhi) := by
  have hcore : BestOK alo ahi blo bhi
      (fOuter a d blo bhi (List.range' alo (ahi - alo)) (fun _ => 0) ⟨alo, blo, 0⟩) :=
    fOuter_bounds a d alo ahi blo bhi (ahi - alo) alo (fun _ => 0) ⟨alo, blo, 0⟩
      le_rfl (by omega) (fun j => Or.inl rfl) (Or.inl ⟨rfl, rfl, rfl⟩)
  have hci : (fOuter a d blo bhi (List.range' alo (ahi - alo)) (fun _ => 0)
      ⟨alo, blo, 0⟩).i ≤ a.length := by
    rcases hcore with ⟨e1, e2, e3⟩ | ⟨e1, e2, e3, e4, e5⟩ <;> omega
  have hcj : (fOuter a d blo bhi (List.range' alo (ahi - alo)) (fun _ => 0)
      ⟨alo, blo, 0⟩).j ≤ b.length := by
    rcases hcore with ⟨e1, e2, e3⟩ | ⟨e1, e2, e3, e4, e5⟩ <;> omega
  rw [findLongestMatchChecked]
  rw [fOuterChecked_eq a d blo bhi _ (fun i hi => by
    have := (mem_range'_iff i alo (ahi - alo)).mp hi
    omega) (fun _ => 0) ⟨alo, blo, 0⟩]
  rw [some_bind_eq]
  rw [extendBackChecked_eq a b alo blo _ _ le_rfl hci hcj]
  rw [some_bind_eq]
  rw [extendFwdChecked_eq a b ahi bhi ha hbb _ _ le_rfl]
  rfl

theorem mbRecChecked_eq {α : Type} [DecidableEq α] [Inhabited α] (a b : List α)
    (d : List (α × List ℕ)) :
    ∀ (fuel alo ahi blo bhi : ℕ), (ahi - alo) + (bhi - blo) < fuel →
    alo ≤ ahi → blo ≤ bhi → ahi ≤ a.length → bhi ≤ b.length →
    mbRecChecked a b d fuel alo ahi blo bhi =
      some (mbRecFuel a b d fuel alo ahi blo bhi) := by
  intro fuel
  induction fuel with
  | zero =>
    intro alo ahi blo bhi hm _ _ _ _
    exact absurd hm (by omega)
  | succ fuel ih =>
    intro alo ahi blo bhi hm hwa hwb ha hbb
    simp only [mbRecChecked, mbRecFuel]
    rw [findLMChecked_eq a b d alo ahi blo bhi hwa hwb ha hbb, some_bind_eq]
    by_cases h0 : (findLongestMatch a b d alo ahi blo bhi).size = 0
    · rw [if_pos h0, if_pos h0]
      rfl
    · rw [if_neg h0, if_neg h0]
      have hp := findLongestMatch_pos_bounds a b d alo ahi blo bhi h0
      obtain ⟨p1, p2, p3, p4, p5⟩ := hp
      rw [ih alo (findLongestMatch a b d alo ahi blo bhi).i blo
        (findLongestMatch a b d alo ahi blo bhi).j (by omega) (by omega) (by omega)
        (by omega) (by omega)]
      rw [some_bind_eq]
      rw [ih ((findLongestMatch a b d alo ahi blo bhi).i +
          (findLongestMatch a b d alo ahi blo bhi).size) ahi
        ((findLongestMatch a b d alo ahi blo bhi).j +
          (findLongestMatch a b d alo ahi blo bhi).size) bhi
        (by omega) (by omega) (by omega) ha hbb]
      rw [some_bind_eq]
      rfl

/-- Claim C9: `align_words` is total — the checked variant, in which every
Python subscript is a `List.get?`, the recursion carries an explicit
budget, and the division is guarded, returns `some` of the report on every
pair of string inputs: the aligner never raises. -/
theorem claim_C9_total (t r : String) :
    alignWordsChecked t r = some (align_words t r) := by
  simp only [alignWordsChecked]
  rw [mbRecChecked_eq (normalize_words t) (normalize_words r)
    (chainB (normalize_words r))
    ((normalize_words t).length + (normalize_words r).length + 1)
    0 (normalize_words t).length 0 (normalize_words r).length
    (by omega) (Nat.zero_le _) (Nat.zero_le _) le_rfl le_rfl]
  rw [some_bind_eq]
  rw [if_neg (by omega)]
  rfl

/-! ## Rounding hides a misread (claim C10): the witness pair -/

theorem splitFlat_ab : ∀ (n : ℕ),
    specSplit (List.flatten (List.replicate n ['a', ' ']) ++ ['b']) =
      List.replicate n ['a'] ++ [['b']] := by
  intro n
  induction n with
  | zero => decide
  | succ n ih =>
    rw [List.replicate_succ, List.flatten_cons, List.append_assoc]
    rw [List.cons_append, List.cons_append, List.nil_append]
    rw [specSplit_cons_word 'a' _ (by decide)]
    rw [List.takeWhile_cons_of_neg (by decide), List.dropWhile_cons_of_neg (by decide)]
    rw [specSplit_cons_space ' ' _ (by decide)]
    rw [ih, List.replicate_succ, List.cons_append]

theorem splitFlat_a : ∀ (n : ℕ),
    specSplit (List.flatten (List.replicate n ['a', ' '])) =
      List.replicate n ['a'] := by
  intro n
  induction n with
  | zero => decide
  | succ n ih =>
    rw [List.replicate_succ, List.flatten_cons]
    rw [List.cons_append, List.cons_append, List.nil_append]
    rw [specSplit_cons_word 'a' _ (by decide)]
    rw [List.takeWhile_cons_of_neg (by decide), List.dropWhile_cons_of_neg (by decide)]
    rw [specSplit_cons_space ' ' _ (by decide)]
    rw [ih, List.replicate_succ]

theorem charMem_ab (n : ℕ) :
    ∀ c ∈ List.flatten (List.replicate n ['a', ' ']) ++ ['b'],
    pyLowerChar c = c ∧ keepChar c = true := by
  intro c hc
  have hc3 : c = 'a' ∨ c = ' ' ∨ c = 'b' := by
    rcases List.mem_append.mp hc with h | h
    · obtain ⟨bl, hbl, hcbl⟩ := List.mem_flatten.mp h
      have hb2 := List.eq_of_mem_replicate hbl
      subst hb2
      rcases List.mem_cons.mp hcbl with rfl | h2
      · exact Or.inl rfl
      · rcases List.mem_singleton.mp h2 with rfl
        exact Or.inr (Or.inl rfl)
    · rcases List.mem_singleton.mp h with rfl
      exact Or.inr (Or.inr rfl)
  rcases hc3 with rfl | rfl | rfl <;> exact ⟨by decide, by decide⟩

theorem charMem_a (n : ℕ) :
    ∀ c ∈ List.flatten (List.replicate n ['a', ' ']),
    pyLowerChar c = c ∧ keepChar c = true := by
  intro c hc
  exact charMem_ab n c (List.mem_append.mpr (Or.inl hc))

theorem normalize_flat_ab (n : ℕ) :
    normalize_words (String.mk (List.flatten (List.replicate n ['a', ' ']) ++ ['b'])) =
      List.replicate n "a" ++ ["b"] := by
  rw [normalize_words]
  have hdata : (String.mk (List.flatten (List.replicate n ['a', ' ']) ++ ['b'])).data =
      List.flatten (List.replicate n ['a', ' ']) ++ ['b'] := rfl
  rw [hdata]
  have h1 : (List.flatten (List.replicate n ['a', ' ']) ++ ['b']).map pyLowerChar =
      List.flatten (List.replicate n ['a', ' ']) ++ ['b'] :=
    ((List.map_congr_left (fun c hc => (charMem_ab n c hc).1)).trans
      (List.map_id _))
  have h2 : (List.flatten (List.replicate n ['a', ' ']) ++ ['b']).filter keepChar =
      List.flatten (List.replicate n ['a', ' ']) ++ ['b'] :=
    List.filter_eq_self.mpr (fun c hc => (charMem_ab n c hc).2)
  rw [h1, h2, pySplit_eq_specSplit, splitFlat_ab]
  rw [List.map_append, List.map_replicate]
  rfl

theorem normalize_flat_a (n : ℕ) :
    normalize_words (String.mk (List.flatten (List.replicate n ['a', ' ']))) =
      List.replicate n "a" := by
  rw [normalize_words]
  have hdata : (String.mk (List.flatten (List.replicate n ['a', ' ']))).data =
      List.flatten (List.replicate n ['a', ' ']) := rfl
  rw [hdata]
  have h1 : (List.flatten (List.replicate n ['a', ' '])).map pyLowerChar =
      List.flatten (List.replicate n ['a', ' ']) :=
    ((List.map_congr_left (fun c hc => (charMem_a n c hc).1)).trans
      (List.map_id _))
  have h2 : (List.flatten (List.replicate n ['a', ' '])).filter keepChar =
      List.flatten (List.replicate n ['a', ' ']) :=
    List.filter_eq_self.mpr (fun c hc => (charMem_a n c hc).2)
  rw [h1, h2, pySplit_eq_specSplit, splitFlat_a]
  rw [List.map_replicate]

theorem foldl_upsert_replicate {α : Type} [DecidableEq α] (x : α) :
    ∀ (m k : ℕ) (v : List ℕ),
    (List.enumFrom k (List.replicate m x)).foldl (fun d p => upsertIdx p.2 p.1 d)
      [(x, v)] = [(x, v ++ List.range' k m)] := by
  intro m
  induction m with
  | zero =>
    intro k v
    rw [List.replicate_zero, List.enumFrom_nil, List.foldl_nil, List.range'_zero,
      List.append_nil]
  | succ m ih =>
    intro k v
    rw [List.replicate_succ, List.enumFrom_cons, List.foldl_cons]
    have hstep : upsertIdx ((k, x) : ℕ × α).2 ((k, x) : ℕ × α).1 [(x, v)] =
        [(x, v ++ [k])] := by
      show upsertIdx x k [(x, v)] = [(x, v ++ [k])]
      rw [upsertIdx, if_pos rfl]
    rw [hstep, ih (k + 1) (v ++ [k])]
    rw [List.append_assoc, List.range'_succ]
    rfl

theorem b2jRaw_replicate {α : Type} [DecidableEq α] (x : α) (n : ℕ) (h : 1 ≤ n) :
    b2jRaw (List.replicate n x) = [(x, List.range n)] := by
  obtain ⟨m, rfl⟩ : ∃ m, n = m + 1 := ⟨n - 1, by omega⟩
  rw [b2jRaw, List.enum_eq_enumFrom, List.replicate_succ, List.enumFrom_cons,
    List.foldl_cons]
  have hstep : upsertIdx ((0, x) : ℕ × α).2 ((0, x) : ℕ × α).1
      ([] : List (α × List ℕ)) = [(x, [0])] := by
    show upsertIdx x 0 [] = [(x, [0])]
    rw [upsertIdx]
  rw [hstep, foldl_upsert_replicate x m 1 [0]]
  rw [List.range_eq_range', List.range'_succ]
  rfl

theorem chainB_replicate {α : Type} [DecidableEq α] (x : α) (n : ℕ) (h : 200 ≤ n) :
    chainB (List.replicate n x) = [] := by
  simp only [chainB, List.length_replicate]
  rw [if_pos h, b2jRaw_replicate x n (by omega)]
  rw [List.filter_cons_of_neg
    (by simp only [List.length_range, decide_eq_true_eq]; omega)]
  rfl

theorem nthTok_repApp {α : Type} [Inhabited α] (x y : α) (n i : ℕ) (h : i < n) :
    nthTok (List.replicate n x ++ [y]) i = x := by
  rw [nthTok, List.getD_eq_getElem _ _ (by simp; omega),
    List.getElem_append_left (by simpa using h), List.getElem_replicate]

theorem nthTok_rep {α : Type} [Inhabited α] (x : α) (n i : ℕ) (h : i < n) :
    nthTok (List.replicate n x) i = x := by
  rw [nthTok, List.getD_eq_getElem _ _ (by simpa using h), List.getElem_replicate]

theorem extFwd_run {α : Type} [DecidableEq α] [Inhabited α] (x y : α) (n : ℕ) :
    ∀ (fuel s : ℕ), s ≤ n → n - s ≤ fuel →
    extendFwdLoop (List.replicate n x ++ [y]) (List.replicate n x) (n + 1) n fuel
      ⟨0, 0, s⟩ = ⟨0, 0, n⟩ := by
  intro fuel
  induction fuel with
  | zero =>
    intro s hs hf
    have hsn : s = n := by omega
    subst hsn
    rfl
  | succ fuel ih =>
    intro s hs hf
    by_cases hlt : s < n
    · rw [extendFwdLoop]
      have hg : (⟨0, 0, s⟩ : FBest).i + (⟨0, 0, s⟩ : FBest).size < n + 1 ∧
          (⟨0, 0, s⟩ : FBest).j + (⟨0, 0, s⟩ : FBest).size < n ∧
          nthTok (List.replicate n x ++ [y])
              ((⟨0, 0, s⟩ : FBest).i + (⟨0, 0, s⟩ : FBest).size) =
            nthTok (List.replicate n x)
              ((⟨0, 0, s⟩ : FBest).j + (⟨0, 0, s⟩ : FBest).size) := by
        refine ⟨?_, ?_, ?_⟩
        · show 0 + s < n + 1
          omega
        · show 0 + s < n
          omega
        · show nthTok (List.replicate n x ++ [y]) (0 + s) =
            nthTok (List.replicate n x) (0 + s)
          rw [Nat.zero_add, nthTok_repApp x y n s hlt, nthTok_rep x n s hlt]
      rw [if_pos hg]
      show extendFwdLoop (List.replicate n x ++ [y]) (List.replicate n x) (n + 1) n
        fuel ⟨0, 0, s + 1⟩ = ⟨0, 0, n⟩
      exact ih (s + 1) (by omega) (by omega)
    · have hsn : s = n := by omega
      subst hsn
      rw [extendFwdLoop, if_neg]
      rintro ⟨-, g2, -⟩
      rw [fbest_j, fbest_size] at g2
      omega

theorem findLM_c10 {α : Type} [DecidableEq α] [Inhabited α] (x y : α) (n : ℕ) :
    findLongestMatch (List.replicate n x ++ [y]) (List.replicate n x) [] 0 (n + 1)
      0 n = ⟨0, 0, n⟩ := by
  rw [findLongestMatch, fOuter_nil_dict]
  rw [extendBack, extendBackLoop_noop _ _ _ _ _ _
    (by rintro ⟨g1, -, -⟩; rw [fbest_i] at g1; omega)]
  rw [extendFwd, fbest_i, fbest_size]
  exact extFwd_run x y n (n + 1 - (0 + 0)) 0 (by omega) (by omega)

theorem findLM_c10R {α : Type} [DecidableEq α] [Inhabited α] (x y : α) (n : ℕ) :
    findLongestMatch (List.replicate n x ++ [y]) (List.replicate n x) [] n (n + 1)
      n n = ⟨n, n, 0⟩ := by
  rw [findLongestMatch, fOuter_nil_dict]
  rw [extendBack, extendBackLoop_noop _ _ _ _ _ _
    (by rintro ⟨g1, -, -⟩; rw [fbest_i] at g1; omega)]
  rw [extendFwd, extendFwdLoop_noop _ _ _ _ _ _
    (by rintro ⟨-, g2, -⟩; rw [fbest_j, fbest_size] at g2; omega)]

theorem mbRecFuel_emptyA {α : Type} [DecidableEq α] [Inhabited α] (a b : List α)
    (d : List (α × List ℕ)) : ∀ (fuel lo blo bhi : ℕ),
    mbRecFuel a b d fuel lo lo blo bhi = [] := by
  intro fuel lo blo bhi
  cases fuel with
  | zero => rfl
  | succ fuel =>
    have hfind : findLongestMatch a b d lo lo blo bhi = ⟨lo, blo, 0⟩ := by
      rw [findLongestMatch, Nat.sub_self, List.range'_zero]
      show extendFwd a b lo bhi (extendBack a b lo blo ⟨lo, blo, 0⟩) = ⟨lo, blo, 0⟩
      rw [extendBack, extendBackLoop_noop _ _ _ _ _ _
        (by rintro ⟨g1, -, -⟩; rw [fbest_i] at g1; omega)]
      rw [extendFwd, extendFwdLoop_noop _ _ _ _ _ _
        (by rintro ⟨g1, -, -⟩; rw [fbest_i, fbest_size] at g1; omega)]
    simp only [mbRecFuel, hfind, fbest_size]
    rw [if_pos trivial]

theorem mbRec_c10R {α : Type} [DecidableEq α] [Inhabited α] (x y : α) (n : ℕ) :
    ∀ (F : ℕ), mbRecFuel (List.replicate n x ++ [y]) (List.replicate n x) [] F n
      (n + 1) n n = [] := by
  intro F
  cases F with
  | zero => rfl
  | succ F =>
    simp only [mbRecFuel, findLM_c10R x y n, fbest_size]
    rw [if_pos trivial]

theorem mbRec_c10 {α : Type} [DecidableEq α] [Inhabited α] (x y : α) (n : ℕ)
    (h : 1 ≤ n) (F : ℕ) :
    mbRecFuel (List.replicate n x ++ [y]) (List.replicate n x) [] (F + 1) 0
      (n + 1) 0 n = [Block.mk 0 0 n] := by
  simp only [mbRecFuel, findLM_c10 x y n, fbest_i, fbest_j, fbest_size]
  rw [if_neg (by omega)]
  rw [Nat.zero_add]
  rw [mbRecFuel_emptyA, mbRec_c10R]
  rfl

theorem getOpcodes_c10 {α : Type} [DecidableEq α] [Inhabited α] (x y : α) (n : ℕ)
    (h : 200 ≤ n) :
    getOpcodes (List.replicate n x ++ [y]) (List.replicate n x) =
      [Opcode.mk Tag.equal 0 n 0 n, Opcode.mk Tag.delete n (n + 1) n n] := by
  rw [getOpcodes, getMatchingBlocks]
  have hlena : (List.replicate n x ++ [y]).length = n + 1 := by
    rw [List.length_append, List.length_replicate]
    rfl
  have hlenb : (List.replicate n x).length = n := List.length_replicate n x
  rw [hlena, hlenb, chainB_replicate x n h]
  rw [mbRec_c10 x y n (by omega) (n + 1 + n)]
  rw [collapse_from_zero [Block.mk 0 0 n]
    (by intro X hX; rw [List.mem_singleton] at hX; subst hX; rw [block_size]; omega)
    (List.chain'_singleton _)]
  rw [List.singleton_append]
  rw [opcodesLoop, block_bi, block_bj, block_size]
  rw [if_neg (by omega), if_neg (by omega), if_neg (by omega), if_neg (by omega)]
  rw [Nat.zero_add]
  rw [opcodesLoop, block_bi, block_bj, block_size]
  rw [if_neg (by omega), if_pos (by omega), if_pos rfl]
  rw [opcodesLoop]
  rfl

theorem alignSeq_c10 {α : Type} [DecidableEq α] [Inhabited α] (x y : α) (n : ℕ)
    (h : 200 ≤ n) :
    (alignSeq (List.replicate n x ++ [y]) (List.replicate n x)).words =
      List.replicate n (WordRes.mk x Status.ok) ++ [WordRes.mk y Status.misread] ∧
    okCount ((alignSeq (List.replicate n x ++ [y]) (List.replicate n x)).words) = n ∧
    ((alignSeq (List.replicate n x ++ [y]) (List.replicate n x)).words).length =
      n + 1 ∧
    (alignSeq (List.replicate n x ++ [y]) (List.replicate n x)).accuracy =
      pyRound1 ((100 * (n : ℚ)) / (((n + 1 : ℕ) : ℚ))) := by
  have hwr : wordResults (List.replicate n x ++ [y])
      (getOpcodes (List.replicate n x ++ [y]) (List.replicate n x)) =
      List.replicate n (WordRes.mk x Status.ok) ++ [WordRes.mk y Status.misread] := by
    rw [getOpcodes_c10 x y n h, wordResults]
    rw [List.flatMap_cons, List.flatMap_cons, List.flatMap_nil, List.append_nil]
    simp only [opcode_i1, opcode_i2, opcode_tag]
    rw [if_pos trivial]
    rw [if_neg (by decide : ¬Tag.delete = Tag.equal)]
    rw [pySlice, pySlice, List.drop_zero, Nat.sub_zero]
    rw [List.take_left' (List.length_replicate n x),
      List.drop_left' (List.length_replicate n x)]
    rw [List.map_replicate]
    rw [show n + 1 - n = 1 from by omega]
    rfl
  have hcnt : okCount (List.replicate n (WordRes.mk x Status.ok) ++
      [WordRes.mk y Status.misread]) = n := by
    rw [okCount, List.countP_append]
    have h1 : List.countP (fun w => decide (w.status = Status.ok))
        (List.replicate n (WordRes.mk x Status.ok)) = n := by
      rw [List.countP_eq_length.mpr]
      · exact List.length_replicate n _
      · intro w hw
        rw [List.eq_of_mem_replicate hw]
        rfl
    have h2 : List.countP (fun w => decide (w.status = Status.ok))
        [WordRes.mk y Status.misread] = 0 := rfl
    rw [h1, h2]
    omega
  have hlen : (List.replicate n (WordRes.mk x Status.ok) ++
      [WordRes.mk y Status.misread]).length = n + 1 := by
    rw [List.length_append, List.length_replicate]
    rfl
  refine ⟨?_, ?_, ?_, ?_⟩
  · rw [alignSeq_words, hwr]
  · rw [alignSeq_words, hwr, hcnt]
  · rw [alignSeq_words, hwr, hlen]
  · rw [alignSeq_accuracy, hwr, hcnt, hlen]
    rw [max_eq_right (by omega : 1 ≤ n + 1)]

/-- Claim C10: an accuracy of 100.0 does not imply that every word was
read correctly.  For the 2000-word target "a a … a b" and the transcript
"a a … a" (1999 a's), exactly one target word is misread, the exact ratio
is 100·1999/2000 = 99.95, and round-half-even at one decimal reports
accuracy 100.0 while the report contains a MISREAD entry. -/
theorem claim_C10_rounding_hides_misread :
    ∃ (t r : String),
      2000 ≤ (normalize_words t).length ∧
      (99.95 : ℚ) ≤
        100 * (okCount (align_words t r).words : ℚ) /
          (((align_words t r).words.length : ℕ) : ℚ) ∧
      (align_words t r).accuracy = 100 ∧
      ∃ w ∈ (align_words t r).words, w.status = Status.misread := by
  refine ⟨String.mk (List.flatten (List.replicate 1999 ['a', ' ']) ++ ['b']),
    String.mk (List.flatten (List.replicate 1999 ['a', ' '])), ?_, ?_, ?_, ?_⟩
  all_goals
    have halign : align_words
        (String.mk (List.flatten (List.replicate 1999 ['a', ' ']) ++ ['b']))
        (String.mk (List.flatten (List.replicate 1999 ['a', ' ']))) =
        alignSeq (List.replicate 1999 "a" ++ ["b"]) (List.replicate 1999 "a") := by
      rw [align_words, normalize_flat_ab, normalize_flat_a]
  all_goals
    obtain ⟨hw, hcnt, hlen, hacc⟩ := alignSeq_c10 "a" "b" 1999 (by omega)
  · rw [normalize_flat_ab, List.length_append, List.length_replicate]
    decide
  · rw [halign, hcnt, hlen]
    norm_num
  · rw [halign, hacc]
    norm_num [pyRound1, roundHalfEven, Int.even_iff]
  · rw [halign, hw]
    exact ⟨WordRes.mk "b" Status.misread,
      List.mem_append.mpr (Or.inr (List.mem_singleton.mpr rfl)), rfl⟩

/-! ## Identity alignment (claim C4): self-alignment is all-OK for every
non-empty target

The autojunk purge only ever deletes *whole* entries of `b2j`, so the
dict that survives it is still sound (every stored index is a genuine
occurrence of its key) and entry-complete (a surviving entry lists *all*
occurrences of its key).  On `a` vs `a` these two facts force the
lexicographically first maximal candidate of the core scan onto the
diagonal, and the two extension loops — which run over purged tokens,
since `isjunk=None` leaves `bjunk` empty — then grow any diagonal best
to the full sequence.  Hence no length restriction is needed. -/

theorem mem_assocGet_b2jRaw {α : Type} [DecidableEq α] [Inhabited α]
    (b : List α) (x : α) (j : ℕ) :
    j ∈ assocGet (b2jRaw b) x ↔ j < b.length ∧ nthTok b j = x := by
  rw [assocGet_b2jRaw, mem_fullIdxFrom]
  constructor
  · intro ⟨h1, h2, h3⟩
    rw [Nat.sub_zero] at h3
    exact ⟨by omega, h3⟩
  · intro ⟨h1, h2⟩
    exact ⟨Nat.zero_le _, by omega, by rw [Nat.sub_zero]; exact h2⟩

theorem assocGet_not_mem_keys {α : Type} [DecidableEq α] :
    ∀ (l : List (α × List ℕ)) (x : α), x ∉ l.map Prod.fst → assocGet l x = [] := by
  intro l
  induction l with
  | nil => intro x _; rfl
  | cons e rest ih =>
    intro x hx
    obtain ⟨k, v⟩ := e
    by_cases hk : k = x
    · subst hk
      exact absurd (by rw [List.map_cons]; exact List.mem_cons_self _ _) hx
    · rw [assocGet, if_neg hk]
      exact ih x (fun hm => hx (by rw [List.map_cons]; exact List.mem_cons_of_mem _ hm))

/-- Filtering an assoc list with pairwise-distinct keys either deletes a
key's entry outright or leaves its lookup unchanged — exactly the
all-or-nothing behaviour of the autojunk purge. -/
theorem assocGet_filter_cases {α : Type} [DecidableEq α] :
    ∀ (l : List (α × List ℕ)), (l.map Prod.fst).Nodup →
    ∀ (p : α × List ℕ → Bool) (x : α),
    assocGet (l.filter p) x = [] ∨ assocGet (l.filter p) x = assocGet l x := by
  intro l
  induction l with
  | nil => intro _ p x; left; rfl
  | cons e rest ih =>
    intro hnd p x
    obtain ⟨k, v⟩ := e
    rw [List.map_cons] at hnd
    obtain ⟨hknotin, hnd2⟩ := List.nodup_cons.mp hnd
    by_cases hpe : p (k, v) = true
    · rw [List.filter_cons_of_pos (by simpa using hpe)]
      by_cases hk : k = x
      · subst hk
        rw [assocGet, if_pos rfl, assocGet, if_pos rfl]
        right
        rfl
      · rw [assocGet, if_neg hk, assocGet, if_neg hk]
        exact ih hnd2 p x
    · rw [List.filter_cons_of_neg (by simpa using hpe)]
      by_cases hk : k = x
      · left
        apply assocGet_not_mem_keys
        intro hmem
        rw [← hk] at hmem
        exact hknotin (((List.filter_sublist rest).map Prod.fst).subset hmem)
      · rw [assocGet, if_neg hk]
        exact ih hnd2 p x

theorem upsertIdx_keys {α : Type} [DecidableEq α] (key : α) (idx : ℕ) :
    ∀ (dict : List (α × List ℕ)),
    (upsertIdx key idx dict).map Prod.fst =
      if key ∈ dict.map Prod.fst then dict.map Prod.fst
      else dict.map Prod.fst ++ [key] := by
  intro dict
  induction dict with
  | nil =>
    rw [upsertIdx, List.map_nil, if_neg (List.not_mem_nil key)]
    rfl
  | cons e rest ih =>
    obtain ⟨k, v⟩ := e
    rw [upsertIdx]
    by_cases hk : k = key
    · rw [if_pos hk]
      have hmem : key ∈ ((k, v) :: rest).map Prod.fst := by
        rw [List.map_cons, ← hk]
        exact List.mem_cons_self _ _
      rw [if_pos hmem, List.map_cons, List.map_cons]
    · rw [if_neg hk, List.map_cons, ih]
      by_cases hmem : key ∈ rest.map Prod.fst
      · rw [if_pos hmem, if_pos (by rw [List.map_cons]; exact List.mem_cons_of_mem _ hmem)]
        rw [List.map_cons]
      · rw [if_neg hmem, if_neg (by
          rw [List.map_cons]
          intro hcon
          rcases List.mem_cons.mp hcon with h1 | h1
          · exact hk h1.symm
          · exact hmem h1)]
        rw [List.map_cons, List.cons_append]

theorem foldl_upsert_nodup {α : Type} [DecidableEq α] :
    ∀ (ps : List (ℕ × α)) (st : List (α × List ℕ)),
    (st.map Prod.fst).Nodup →
    ((ps.foldl (fun d p => upsertIdx p.2 p.1 d) st).map Prod.fst).Nodup := by
  intro ps
  induction ps with
  | nil => intro st h; exact h
  | cons p ps ih =>
    intro st h
    rw [List.foldl_cons]
    apply ih
    rw [upsertIdx_keys]
    by_cases hmem : p.2 ∈ st.map Prod.fst
    · rw [if_pos hmem]
      exact h
    · rw [if_neg hmem]
      apply List.Nodup.append h (List.nodup_singleton _)
      intro x hx1 hx2
      rw [List.mem_singleton] at hx2
      subst hx2
      exact hmem hx1

/-- The upsert fold never creates a duplicate key: `b2j` is a function of
the token value. -/
theorem b2jRaw_keys_nodup {α : Type} [DecidableEq α] (b : List α) :
    ((b2jRaw b).map Prod.fst).Nodup := by
  rw [b2jRaw]
  exact foldl_upsert_nodup b.enum [] (by rw [List.map_nil]; exact List.nodup_nil)

/-- The autojunk purge is all-or-nothing per token: a `b2j` lookup after
`__chain_b` is either empty (entry purged) or the full raw occurrence
list. -/
theorem assocGet_chainB_cases {α : Type} [DecidableEq α] (b : List α) (x : α) :
    assocGet (chainB b) x = [] ∨ assocGet (chainB b) x = assocGet (b2jRaw b) x := by
  rw [chainB]
  by_cases h2 : 200 ≤ b.length
  · rw [if_pos h2]
    exact assocGet_filter_cases (b2jRaw b) (b2jRaw_keys_nodup b) _ x
  · rw [if_neg h2]
    right
    rfl

/-- Soundness of the purged dict: every surviving index is a genuine
occurrence of the looked-up token. -/
theorem assocGet_chainB_sound {α : Type} [DecidableEq α] [Inhabited α]
    (b : List α) (x : α) (j : ℕ) (hj : j ∈ assocGet (chainB b) x) :
    j < b.length ∧ nthTok b j = x := by
  rcases assocGet_chainB_cases b x with h | h
  · rw [h] at hj
    exact absurd hj (List.not_mem_nil j)
  · rw [h] at hj
    exact (mem_assocGet_b2jRaw b x j).mp hj

/-- Entry-completeness of the purged dict: when any index of a token
survived the purge, every occurrence of that token is still listed. -/
theorem assocGet_chainB_closed {α : Type} [DecidableEq α] [Inhabited α]
    (b : List α) (x : α) (i j : ℕ) (hj : j ∈ assocGet (chainB b) x)
    (hi : i < b.length) (hx : nthTok b i = x) : i ∈ assocGet (chainB b) x := by
  rcases assocGet_chainB_cases b x with h | h
  · rw [h] at hj
    exact absurd hj (List.not_mem_nil j)
  · rw [h]
    exact (mem_assocGet_b2jRaw b x i).mpr ⟨hi, hx⟩

/-- Unfolding equation of `sfun` with the termination `dite` replaced by
a plain `ite`. -/
theorem sfun_eq {α : Type} [DecidableEq α] [Inhabited α] (a : List α)
    (d : List (α × List ℕ)) (alo blo bhi i j : ℕ) :
    sfun a d alo blo bhi i j =
      if alo ≤ i ∧ blo ≤ j ∧ j < bhi ∧ j ∈ assocGet d (nthTok a i) then
        (if alo < i ∧ blo < j then sfun a d alo blo bhi (i - 1) (j - 1) + 1 else 1)
      else 0 := by
  rw [sfun]
  by_cases h1 : alo ≤ i ∧ blo ≤ j ∧ j < bhi ∧ j ∈ assocGet d (nthTok a i)
  · rw [if_pos h1, if_pos h1]
    by_cases h2 : alo < i ∧ blo < j
    · rw [dif_pos h2, if_pos h2]
    · rw [dif_neg h2, if_neg h2]
  · rw [if_neg h1, if_neg h1]

/-- With a sound dict and `a` matched against itself, a run value ending
below the diagonal is dominated by the diagonal value in the same column:
on the full window the chain `a[j-t] = a[i-t]` transfers every guard from
column `(i, j)` to column `(j, j)`. -/
theorem sfun_diag_le_left {α : Type} [DecidableEq α] [Inhabited α] (a : List α)
    (d : List (α × List ℕ)) (bhi : ℕ)
    (hsound : ∀ x j, j ∈ assocGet d x → nthTok a j = x) :
    ∀ (i j : ℕ), j ≤ i → sfun a d 0 0 bhi i j ≤ sfun a d 0 0 bhi j j := by
  intro i
  induction i using Nat.strong_induction_on with
  | _ i ihs =>
    intro j hji
    have hL := sfun_eq a d 0 0 bhi i j
    by_cases hg : 0 ≤ i ∧ 0 ≤ j ∧ j < bhi ∧ j ∈ assocGet d (nthTok a i)
    · rw [if_pos hg] at hL
      have hx : nthTok a j = nthTok a i := hsound (nthTok a i) j hg.2.2.2
      have hmemj : j ∈ assocGet d (nthTok a j) := by
        rw [hx]
        exact hg.2.2.2
      have hgj : 0 ≤ j ∧ 0 ≤ j ∧ j < bhi ∧ j ∈ assocGet d (nthTok a j) :=
        ⟨Nat.zero_le j, Nat.zero_le j, hg.2.2.1, hmemj⟩
      have hR := sfun_eq a d 0 0 bhi j j
      rw [if_pos hgj] at hR
      by_cases h0 : 0 < j
      · have hcL : 0 < i ∧ 0 < j := ⟨by omega, h0⟩
        have hcR : 0 < j ∧ 0 < j := ⟨h0, h0⟩
        rw [if_pos hcL] at hL
        rw [if_pos hcR] at hR
        have hIH := ihs (i - 1) (by omega) (j - 1) (by omega)
        omega
      · rw [if_neg (by omega)] at hL
        rw [if_neg (by omega)] at hR
        omega
    · rw [if_neg hg] at hL
      omega

/-- The mirror image: a run value ending above the diagonal is dominated
by the diagonal value in the same row.  This is where entry-completeness
is needed: the guard at `(i, i)` requires `i` itself to be listed for its
token, which the all-or-nothing purge guarantees. -/
theorem sfun_diag_le_right {α : Type} [DecidableEq α] [Inhabited α] (a : List α)
    (d : List (α × List ℕ)) (bhi : ℕ)
    (hclosed : ∀ x i j, j ∈ assocGet d x → i < bhi → nthTok a i = x →
      i ∈ assocGet d x) :
    ∀ (i j : ℕ), i ≤ j → sfun a d 0 0 bhi i j ≤ sfun a d 0 0 bhi i i := by
  intro i
  induction i using Nat.strong_induction_on with
  | _ i ihs =>
    intro j hij
    have hL := sfun_eq a d 0 0 bhi i j
    by_cases hg : 0 ≤ i ∧ 0 ≤ j ∧ j < bhi ∧ j ∈ assocGet d (nthTok a i)
    · rw [if_pos hg] at hL
      have hmemi : i ∈ assocGet d (nthTok a i) :=
        hclosed (nthTok a i) i j hg.2.2.2 (by omega) rfl
      have hgi : 0 ≤ i ∧ 0 ≤ i ∧ i < bhi ∧ i ∈ assocGet d (nthTok a i) :=
        ⟨Nat.zero_le i, Nat.zero_le i, by omega, hmemi⟩
      have hR := sfun_eq a d 0 0 bhi i i
      rw [if_pos hgi] at hR
      by_cases h0 : 0 < i
      · have hcL : 0 < i ∧ 0 < j := ⟨h0, by omega⟩
        have hcR : 0 < i ∧ 0 < i := ⟨h0, h0⟩
        rw [if_pos hcL] at hL
        rw [if_pos hcR] at hR
        have hIH := ihs (i - 1) (by omega) (j - 1) (by omega)
        omega
      · rw [if_neg (by omega)] at hL
        rw [if_neg (by omega)] at hR
        omega
    · rw [if_neg hg] at hL
      omega

/-- On `a` vs `a` the backward extension loop drags a diagonal best all
the way to the start of the window: the guard `a[besti-1] == b[bestj-1]`
is reflexively true at every step, purged or not. -/
theorem extBack_diag {α : Type} [DecidableEq α] [Inhabited α] (a : List α) :
    ∀ (fuel s k : ℕ), s ≤ fuel →
    extendBackLoop a a 0 0 fuel ⟨s, s, k⟩ = ⟨0, 0, k + s⟩ := by
  intro fuel
  induction fuel with
  | zero =>
    intro s k hs
    have hs0 : s = 0 := by omega
    subst hs0
    rfl
  | succ fuel ih =>
    intro s k hs
    by_cases h0 : 0 < s
    · rw [extendBackLoop]
      have hgd : 0 < (⟨s, s, k⟩ : FBest).i ∧ 0 < (⟨s, s, k⟩ : FBest).j ∧
          nthTok a ((⟨s, s, k⟩ : FBest).i - 1) = nthTok a ((⟨s, s, k⟩ : FBest).j - 1) :=
        ⟨h0, h0, rfl⟩
      rw [if_pos hgd]
      show extendBackLoop a a 0 0 fuel ⟨s - 1, s - 1, k + 1⟩ = ⟨0, 0, k + s⟩
      rw [ih (s - 1) (k + 1) (by omega)]
      rw [show k + 1 + (s - 1) = k + s from by omega]
    · have hs0 : s = 0 := by omega
      subst hs0
      rw [extendBackLoop, if_neg (by
        rintro ⟨g1, -, -⟩
        rw [fbest_i] at g1
        omega)]
      rfl

/-- On `a` vs `a` the forward extension loop grows a best anchored at the
origin to the full window, again because the token guard is reflexive. -/
theorem extFwd_diag {α : Type} [DecidableEq α] [Inhabited α] (a : List α) (n : ℕ) :
    ∀ (fuel s : ℕ), s ≤ n → n - s ≤ fuel →
    extendFwdLoop a a n n fuel ⟨0, 0, s⟩ = ⟨0, 0, n⟩ := by
  intro fuel
  induction fuel with
  | zero =>
    intro s hs hf
    have hsn : s = n := by omega
    subst hsn
    rfl
  | succ fuel ih =>
    intro s hs hf
    by_cases hlt : s < n
    · rw [extendFwdLoop]
      have hgd : (⟨0, 0, s⟩ : FBest).i + (⟨0, 0, s⟩ : FBest).size < n ∧
          (⟨0, 0, s⟩ : FBest).j + (⟨0, 0, s⟩ : FBest).size < n ∧
          nthTok a ((⟨0, 0, s⟩ : FBest).i + (⟨0, 0, s⟩ : FBest).size) =
            nthTok a ((⟨0, 0, s⟩ : FBest).j + (⟨0, 0, s⟩ : FBest).size) := by
        refine ⟨?_, ?_, rfl⟩
        · rw [fbest_i, fbest_size]
          omega
        · rw [fbest_j, fbest_size]
          omega
      rw [if_pos hgd]
      show extendFwdLoop a a n n fuel ⟨0, 0, s + 1⟩ = ⟨0, 0, n⟩
      exact ih (s + 1) (by omega) (by omega)
    · have hsn : s = n := by omega
      subst hsn
      rw [extendFwdLoop, if_neg (by
        rintro ⟨g1, -, -⟩
        rw [fbest_i, fbest_size] at g1
        omega)]

/-- `find_longest_match` on `a` vs `a` over the full window returns the
whole sequence, with or without the autojunk purge.  The diagonal
domination lemmas force the lexicographically first maximal scan
candidate onto the diagonal, and the extension loops complete it. -/
theorem findLM_self_full {α : Type} [DecidableEq α] [Inhabited α] (a : List α)
    (h : 1 ≤ a.length) :
    findLongestMatch a a (chainB a) 0 a.length 0 a.length =
      ⟨0, 0, a.length⟩ := by
  have hsorted : ∀ x, List.Pairwise (· < ·) (assocGet (chainB a) x) :=
    fun x => pairwise_assocGet_chainB a x
  have hsound : ∀ x j, j ∈ assocGet (chainB a) x → nthTok a j = x :=
    fun x j hj => (assocGet_chainB_sound a x j hj).2
  have hsortD : List.Pairwise CandLT (candsD a (chainB a) 0 a.length 0 a.length) := by
    rw [candsD]
    apply pairwise_candLT_flatMap
    · exact List.pairwise_lt_range' 0 (a.length - 0)
    · intro i c hc
      obtain ⟨j, _, hceq⟩ := List.mem_map.mp hc
      subst hceq
      rfl
    · intro i
      apply List.pairwise_map.mpr
      have hsub : List.Sublist
          (((assocGet (chainB a) (nthTok a i)).takeWhile
            (fun j => decide (j < a.length))).filter (fun j => decide (0 ≤ j)))
          (assocGet (chainB a) (nthTok a i)) :=
        (List.filter_sublist _).trans (List.takeWhile_sublist _)
      exact (List.Pairwise.sublist hsub (hsorted (nthTok a i))).imp (fun h => h)
  have hcore : fOuter a (chainB a) 0 a.length (List.range' 0 (a.length - 0))
      (fun _ => 0) ⟨0, 0, 0⟩ =
      scanB mkEnd (candsD a (chainB a) 0 a.length 0 a.length) ⟨0, 0, 0⟩ := by
    rw [candsD]
    exact fOuter_eq a (chainB a) 0 0 a.length (Nat.zero_le _) hsorted
      (a.length - 0) 0 (fun _ => 0) ⟨0, 0, 0⟩ le_rfl
      (fun j => by rw [if_neg (lt_irrefl 0)])
  rw [findLongestMatch, hcore]
  by_cases hM : maxVal (candsD a (chainB a) 0 a.length 0 a.length) = 0
  · rw [scanB_all_le mkEnd (candsD a (chainB a) 0 a.length 0 a.length) ⟨0, 0, 0⟩
      (by
        intro c hc
        have h1 := le_maxVal _ _ hc
        rw [fbest_size]
        omega)]
    rw [extendBack, extendBackLoop_noop _ _ _ _ _ _
      (by rintro ⟨g1, -, -⟩; rw [fbest_i] at g1; omega)]
    rw [extendFwd, fbest_i, fbest_size]
    exact extFwd_diag a a.length (a.length - (0 + 0)) 0 (Nat.zero_le _) (by omega)
  · have hMpos : 1 ≤ maxVal (candsD a (chainB a) 0 a.length 0 a.length) := by omega
    have hex : ∃ c ∈ candsD a (chainB a) 0 a.length 0 a.length,
        (fun c => c.2.2 = maxVal (candsD a (chainB a) 0 a.length 0 a.length)) c := by
      rcases maxVal_attained (candsD a (chainB a) 0 a.length 0 a.length) with
        h0 | ⟨c, hc, hv⟩
      · exact absurd h0 hM
      · exact ⟨c, hc, hv⟩
    obtain ⟨cD, hcDmem, hcDval, hcDmin⟩ := exists_candLT_min _ _ hex
    have hcDv : cD.2.2 = maxVal (candsD a (chainB a) 0 a.length 0 a.length) := hcDval
    obtain ⟨i, j, -, h2, -, h4, h5, hceq⟩ :=
      (mem_candsD_iff a (chainB a) 0 a.length 0 a.length hsorted cD).mp hcDmem
    have hvM : sfun a (chainB a) 0 0 a.length i j =
        maxVal (candsD a (chainB a) 0 a.length 0 a.length) := by
      rw [hceq] at hcDv
      exact hcDv
    have hij : i = j := by
      rcases lt_trichotomy i j with hlt | heq | hgt
      · exfalso
        have hd := sfun_diag_le_right a (chainB a) a.length
          (assocGet_chainB_closed a) i j (by omega)
        have hmemi : i ∈ assocGet (chainB a) (nthTok a i) :=
          assocGet_chainB_closed a (nthTok a i) i j h5 (by omega) rfl
        have hmm : (i, i, sfun a (chainB a) 0 0 a.length i i) ∈
            candsD a (chainB a) 0 a.length 0 a.length :=
          (mem_candsD_iff a (chainB a) 0 a.length 0 a.length hsorted _).mpr
            ⟨i, i, Nat.zero_le i, h2, Nat.zero_le i, by omega, hmemi, rfl⟩
        have hle2 : sfun a (chainB a) 0 0 a.length i i ≤
            maxVal (candsD a (chainB a) 0 a.length 0 a.length) := le_maxVal _ _ hmm
        have hmin := hcDmin _ hmm (by
          show sfun a (chainB a) 0 0 a.length i i =
            maxVal (candsD a (chainB a) 0 a.length 0 a.length)
          omega)
        have hmin2 : i < i ∨ (i = i ∧ j ≤ i) := by
          rw [hceq] at hmin
          exact hmin
        omega
      · exact heq
      · exfalso
        have hd := sfun_diag_le_left a (chainB a) a.length hsound i j (by omega)
        have hx : nthTok a j = nthTok a i := hsound (nthTok a i) j h5
        have hmemj : j ∈ assocGet (chainB a) (nthTok a j) := by
          rw [hx]
          exact h5
        have hmm : (j, j, sfun a (chainB a) 0 0 a.length j j) ∈
            candsD a (chainB a) 0 a.length 0 a.length :=
          (mem_candsD_iff a (chainB a) 0 a.length 0 a.length hsorted _).mpr
            ⟨j, j, Nat.zero_le j, by omega, Nat.zero_le j, h4, hmemj, rfl⟩
        have hle2 : sfun a (chainB a) 0 0 a.length j j ≤
            maxVal (candsD a (chainB a) 0 a.length 0 a.length) := le_maxVal _ _ hmm
        have hmin := hcDmin _ hmm (by
          show sfun a (chainB a) 0 0 a.length j j =
            maxVal (candsD a (chainB a) 0 a.length 0 a.length)
          omega)
        have hmin2 : i < j ∨ (i = j ∧ j ≤ j) := by
          rw [hceq] at hmin
          exact hmin
        omega
    subst hij
    have hmaxD : ∀ c ∈ candsD a (chainB a) 0 a.length 0 a.length,
        c.2.2 ≤ cD.2.2 := by
      intro c hc
      have hlc := le_maxVal _ _ hc
      omega
    have hminD : ∀ c ∈ candsD a (chainB a) 0 a.length 0 a.length,
        c.2.2 = cD.2.2 →
        cD.1 < c.1 ∨ (cD.1 = c.1 ∧ cD.2.1 ≤ c.2.1) := by
      intro c hc hv
      exact hcDmin c hc (by
        show c.2.2 = maxVal (candsD a (chainB a) 0 a.length 0 a.length)
        omega)
    have hcv2 : cD.2.2 = sfun a (chainB a) 0 0 a.length i i := by
      rw [hceq]
    have hb0 : (FBest.mk 0 0 0).size < cD.2.2 := by
      rw [fbest_size]
      omega
    have hscan : scanB mkEnd (candsD a (chainB a) 0 a.length 0 a.length) ⟨0, 0, 0⟩ =
        mkEnd cD.1 cD.2.1 cD.2.2 :=
      scanB_lex mkEnd (fun i2 j2 k2 => rfl) _ hsortD cD hcDmem hmaxD hminD
        ⟨0, 0, 0⟩ hb0
    have hscan2 : scanB mkEnd (candsD a (chainB a) 0 a.length 0 a.length) ⟨0, 0, 0⟩ =
        FBest.mk (i + 1 - sfun a (chainB a) 0 0 a.length i i)
          (i + 1 - sfun a (chainB a) 0 0 a.length i i)
          (sfun a (chainB a) 0 0 a.length i i) := by
      rw [hscan, hceq]
      rfl
    rw [hscan2]
    have hsle := sfun_le a (chainB a) 0 0 a.length i i (by omega)
    rw [extendBack, fbest_i]
    rw [extBack_diag a (i + 1 - sfun a (chainB a) 0 0 a.length i i)
      (i + 1 - sfun a (chainB a) 0 0 a.length i i)
      (sfun a (chainB a) 0 0 a.length i i) le_rfl]
    rw [show sfun a (chainB a) 0 0 a.length i i +
        (i + 1 - sfun a (chainB a) 0 0 a.length i i) = i + 1 from by omega]
    rw [extendFwd, fbest_i, fbest_size]
    exact extFwd_diag a a.length (a.length - (0 + (i + 1))) (i + 1) (by omega) (by omega)

/-- On `a` vs `a` the recursive block search returns the single full
block: the top window yields the whole sequence and both sub-windows are
empty. -/
theorem mbRecFuel_self {α : Type} [DecidableEq α] [Inhabited α] (a : List α)
    (h : 1 ≤ a.length) (fuel : ℕ) :
    mbRecFuel a a (chainB a) (fuel + 1) 0 a.length 0 a.length =
      [Block.mk 0 0 a.length] := by
  simp only [mbRecFuel, findLM_self_full a h, fbest_size, fbest_i, fbest_j]
  rw [if_neg (by omega)]
  rw [Nat.zero_add]
  rw [mbRecFuel_emptyA, mbRecFuel_emptyA]
  rfl

theorem getOpcodes_self {α : Type} [DecidableEq α] [Inhabited α] (a : List α)
    (h1 : 1 ≤ a.length) :
    getOpcodes a a = [Opcode.mk Tag.equal 0 a.length 0 a.length] := by
  rw [getOpcodes, getMatchingBlocks]
  rw [mbRecFuel_self a h1 (a.length + a.length)]
  rw [collapse_from_zero [Block.mk 0 0 a.length]
    (by intro X hX; rw [List.mem_singleton] at hX; subst hX; rw [block_size]; omega)
    (List.chain'_singleton _)]
  rw [List.singleton_append]
  rw [opcodesLoop, block_bi, block_bj, block_size]
  rw [if_neg (by omega), if_neg (by omega), if_neg (by omega), if_neg (by omega)]
  rw [opcodesLoop, block_bi, block_bj, block_size]
  rw [if_neg (by omega), if_neg (by omega), if_neg (by omega), if_pos rfl]
  rw [opcodesLoop]
  rw [Nat.zero_add]
  rfl

theorem alignSeq_self {α : Type} [DecidableEq α] [Inhabited α] (a : List α)
    (h1 : a ≠ []) :
    (∀ w ∈ (alignSeq a a).words, w.status = Status.ok) ∧
      (alignSeq a a).accuracy = 100 := by
  have hn : 1 ≤ a.length := by
    cases a with
    | nil => exact absurd rfl h1
    | cons x l => simp
  have hops := getOpcodes_self a hn
  have hwr : wordResults a (getOpcodes a a) =
      a.map (fun w => WordRes.mk w Status.ok) := by
    rw [hops, wordResults]
    rw [List.flatMap_cons]
    rw [opcode_i1, opcode_i2, opcode_tag]
    rw [if_pos (rfl : Tag.equal = Tag.equal)]
    rw [List.flatMap_nil, List.append_nil]
    rw [pySlice, List.drop_zero, Nat.sub_zero, List.take_length]
  constructor
  · intro w hw
    rw [alignSeq_words, hwr] at hw
    obtain ⟨x, _, hxe⟩ := List.mem_map.mp hw
    rw [← hxe]
  · rw [alignSeq_accuracy, hwr]
    have hcnt : okCount (a.map (fun w => WordRes.mk w Status.ok)) = a.length := by
      rw [okCount]
      rw [List.countP_eq_length.mpr]
      · rw [List.length_map]
      · intro x hx
        obtain ⟨w, _, hwe⟩ := List.mem_map.mp hx
        rw [← hwe]
        rfl
    rw [hcnt, List.length_map]
    rw [max_eq_right hn]
    rw [mul_div_assoc, div_self (by positivity), mul_one]
    exact pyRound1_hundred

/-- Claim C4 (amended): aligning a target transcript against itself
yields a report in which every word is OK and the accuracy is 100.0, for
every target whose normalized word list is non-empty.  No length
restriction is needed: the autojunk purge (active from 200 words) only
deletes whole `b2j` entries, and with `isjunk=None` the two extension
loops of `find_longest_match` extend the best match across purged
tokens, so self-alignment always recovers the single full `equal`
opcode.  The fully unrestricted claim is refuted by
`claim_C4_counterexample`: an empty target self-aligns to accuracy 0.0
because of the `max(1, len(target_words))` guard. -/
theorem claim_C4_identity (t : String) (h1 : normalize_words t ≠ []) :
    (∀ w ∈ (align_words t t).words, w.status = Status.ok) ∧
      (align_words t t).accuracy = 100 :=
  alignSeq_self (normalize_words t) h1

/-- Claim C4 counterexample: the empty target self-aligns to accuracy
0.0, not 100.0 — the `max(1, …)` guard divides `0` by `1`. -/
theorem claim_C4_counterexample : (align_words "" "").accuracy ≠ 100 := by
  have h := alignSeq_nil_target (α := String) []
  have hnorm : normalize_words "" = [] := rfl
  show (alignSeq (normalize_words "") (normalize_words "")).accuracy ≠ 100
  rw [hnorm, h.2]
  norm_num

/-- Claim C4 witness: the amended identity property evaluated at a
concrete non-empty target. -/
theorem claim_C4_witness :
    normalize_words "cat" ≠ [] ∧
      (∀ w ∈ (align_words "cat" "cat").words, w.status = Status.ok) ∧
        (align_words "cat" "cat").accuracy = 100 :=
  ⟨by decide, claim_C4_identity "cat" (by decide)⟩


end WordieBirdie